import Mathlib

/-!
Verification of the `filesync` package (one-way directory synchronization).

Shallow embedding of `src/filesync/filesync.go`.  The filesystem is modelled
as a finite tree of named entries; paths are lists of name components,
relative to the respective root (the Go code builds `relPath` with
`filepath.Rel` and re-joins it onto the other root, so the two trees are
compared structurally and only relative paths matter).

Modelling notes, spelled out once here:
* A file entry carries its modification time and its byte content; its stat
  size is the content length.  A directory entry carries a modification time
  and a stat size (never compared against anything except through `sameFile`,
  which is exactly Go's size+mtime conjunction).
* `os.Stat` is three-valued, mirroring the three branches the code takes:
  the entry is found; the error satisfies `os.IsNotExist` (ENOENT: some
  component of the path is absent, the walk below an existing directory
  chain); or the stat fails with another error (`errOther`, e.g. ENOTDIR
  when a non-final path component is a regular file - `syscall.Errno.Is`
  maps only ENOENT to `fs.ErrNotExist`).
* `filepath.WalkDir` visits a root entry first and then, for directories,
  each child (reading the directory after the callback ran).  When the root
  cannot be lstat'd the callback is invoked once with the error; when a
  directory was removed by its own callback the subsequent ReadDir fails and
  the callback is invoked a second time with that error.  Both callbacks of
  `SyncDirs` log and return nil on their error branch.
* Per-entry stat failures on the source file (line 74 of the Go source) have
  no structural trigger in a static tree, so they are injected by an
  `Oracle` predicate; everything else is deterministic.
* Created directories and freshly created (not yet `Chtimes`d) files get the
  constant `createdMTime` as timestamp and directories the size 0; no
  compared behaviour depends on these values.
* The state carries two observation channels: `log`, which records exactly
  the `log.Printf` call sites of the Go code, and `ops`, an instrumentation
  trace of attempted operations and their outcomes (the Go code does not log
  removal failures, so they appear only in `ops`).
-/

namespace Filesync

/-- A path relative to a root, as a list of name components. -/
abbrev Path := List String

/-- A filesystem tree: a file with modification time and content bytes, or a
directory with stat metadata and named children. -/
inductive FsTree where
  | file (modTime : Int) (content : List Nat)
  | dir (modTime : Int) (size : Nat) (children : List (String × FsTree))

/-- Stat metadata, as used by `sameFile` (os.FileInfo view). -/
structure FileInfo where
  isDir : Bool
  size : Nat
  modTime : Int
deriving DecidableEq

/-- The os.FileInfo of a tree entry; a file's size is its content length. -/
def infoOf : FsTree → FileInfo
  | .file mt c => ⟨false, c.length, mt⟩
  | .dir mt sz _ => ⟨true, sz, mt⟩

/-- Result of an os.Stat call, matching the three branches the Go code
distinguishes: found; `os.IsNotExist` (ENOENT); any other error. -/
inductive StatR where
  | found (e : FsTree)
  | notExist
  | errOther

/-- Look up the first child with the given name (directory entries of a real
filesystem have unique names; well-formedness is tracked by `WFt`). -/
def findC : List (String × FsTree) → String → Option FsTree
  | [], _ => none
  | (m, c) :: rest, n => if m = n then some c else findC rest n

/-- Replace the child with the given name. -/
def replaceC : List (String × FsTree) → String → FsTree → List (String × FsTree)
  | [], _, _ => []
  | (m, c) :: rest, n, c' => if m = n then (m, c') :: replaceC rest n c' else (m, c) :: replaceC rest n c'

/-- Erase the child with the given name. -/
def eraseC : List (String × FsTree) → String → List (String × FsTree)
  | [], _ => []
  | (m, c) :: rest, n => if m = n then eraseC rest n else (m, c) :: eraseC rest n

/-- Stat inside a tree: walk the path; a missing component gives ENOENT
(`notExist`), a non-final file component gives ENOTDIR (`errOther`). -/
def statT : FsTree → Path → StatR
  | t, [] => .found t
  | .file _ _, _ :: _ => .errOther
  | .dir _ _ cs, n :: rest =>
      match findC cs n with
      | some c => statT c rest
      | none => .notExist

/-- Stat from an optional root: an absent root makes every path ENOENT. -/
def statR : Option FsTree → Path → StatR
  | none, _ => .notExist
  | some t, p => statT t p

/-- Does an entry exist at the path (stat succeeds)? -/
def existsAt (t : Option FsTree) (p : Path) : Bool :=
  match statR t p with
  | .found _ => true
  | _ => false

/-- Timestamp given to entries created during the run (creation time,
abstracted as a constant; no compared behaviour depends on it). -/
def createdMTime : Int := 0

/-- The chain of fresh empty directories MkdirAll creates below the first
existing ancestor. -/
def mkChain : Path → FsTree
  | [] => .dir createdMTime 0 []
  | n :: rest => .dir createdMTime 0 [(n, mkChain rest)]

/-- os.MkdirAll inside an existing tree: succeeds if every existing component
on the way is a directory, creating the missing tail. -/
def mkdirT : FsTree → Path → Option FsTree
  | .file _ _, [] => none
  | .dir mt sz cs, [] => some (.dir mt sz cs)
  | .file _ _, _ :: _ => none
  | .dir mt sz cs, n :: rest =>
      match findC cs n with
      | some c => (mkdirT c rest).map (fun c' => .dir mt sz (replaceC cs n c'))
      | none => some (.dir mt sz (cs ++ [(n, mkChain rest)]))

/-- os.MkdirAll from the (possibly absent) target root; the root's own parent
directory is assumed to exist, so an absent root is simply created. -/
def mkdirAll : Option FsTree → Path → Option FsTree
  | none, p => some (mkChain p)
  | some t, p => mkdirT t p

/-- Is the entry removable by os.Remove (a file, or an empty directory)? -/
def removable : FsTree → Bool
  | .file _ _ => true
  | .dir _ _ [] => true
  | .dir _ _ (_ :: _) => false

/-- os.Remove of the entry at a non-empty relative path inside a tree:
fails with ENOENT if absent, ENOTDIR below a file, ENOTEMPTY on a
non-empty directory. -/
def removeAt : FsTree → Path → Option FsTree
  | _, [] => none
  | .file _ _, _ :: _ => none
  | .dir mt sz cs, [n] =>
      match findC cs n with
      | none => none
      | some c => if removable c then some (.dir mt sz (eraseC cs n)) else none
  | .dir mt sz cs, n :: m :: rest =>
      match findC cs n with
      | none => none
      | some c => (removeAt c (m :: rest)).map (fun c' => .dir mt sz (replaceC cs n c'))

/-- os.Remove from the root: removing the root itself empties the tree. -/
def removeEntry : Option FsTree → Path → Option (Option FsTree)
  | none, _ => none
  | some t, [] => if removable t then some none else none
  | some t, n :: rest => (removeAt t (n :: rest)).map some

/-- os.Create followed by io.Copy: create or truncate the file at the path
and write the content.  Fails on a directory (EISDIR), below a file
(ENOTDIR), or with a missing parent (ENOENT). -/
def createT : FsTree → Path → List Nat → Option FsTree
  | .file _ _, [], c => some (.file createdMTime c)
  | .dir _ _ _, [], _ => none
  | .file _ _, _ :: _, _ => none
  | .dir mt sz cs, [n], c =>
      match findC cs n with
      | some ch => (createT ch [] c).map (fun ch' => .dir mt sz (replaceC cs n ch'))
      | none => some (.dir mt sz (cs ++ [(n, .file createdMTime c)]))
  | .dir mt sz cs, n :: m :: rest, c =>
      match findC cs n with
      | some ch => (createT ch (m :: rest) c).map (fun ch' => .dir mt sz (replaceC cs n ch'))
      | none => none

/-- os.Create + io.Copy from the root (the root's parent is assumed to
exist, so creating a file at the root path itself succeeds). -/
def createWrite : Option FsTree → Path → List Nat → Option (Option FsTree)
  | none, [], c => some (some (.file createdMTime c))
  | none, _ :: _, _ => none
  | some t, p, c => (createT t p c).map some

/-- os.Chtimes: set the modification time of the entry at the path; any
failure is ignored by the caller, so the tree is returned unchanged when
the path does not lead to an entry. -/
def chtimesT : FsTree → Path → Int → FsTree
  | .file _ c, [], mt => .file mt c
  | .dir _ sz cs, [], mt => .dir mt sz cs
  | .file mt0 c, _ :: _, _ => .file mt0 c
  | .dir mt0 sz cs, n :: rest, mt =>
      match findC cs n with
      | some ch => .dir mt0 sz (replaceC cs n (chtimesT ch rest mt))
      | none => .dir mt0 sz cs

/-- os.Chtimes from the root. -/
def chtimes : Option FsTree → Path → Int → Option FsTree
  | none, _, _ => none
  | some t, p, mt => some (chtimesT t p mt)

/-- sameFile compares two files by size and modification time
(filesync.go lines 143-145): exact equality on both, nothing else. -/
def sameFile (src tgt : FileInfo) : Bool :=
  src.size == tgt.size && src.modTime == tgt.modTime

/-- One event per log.Printf call site of filesync.go. -/
inductive LogEvent where
  | accessError (p : Path)
  | mkdirFailed (p : Path)
  | createdDir (p : Path)
  | srcStatFailed (p : Path)
  | problemReading (p : Path)
  | copyFailed (p : Path)
  | copied (p : Path)
  | removedDir (p : Path)
  | removedFile (p : Path)
deriving DecidableEq

/-- Instrumentation trace of every attempted operation and its outcome.
Note that the Go code does not log removal failures; they are visible only
here. -/
inductive OpEvent where
  | statSrcFail (p : Path)
  | mkdirOk (p : Path)
  | mkdirFail (p : Path)
  | copyOk (p : Path)
  | copyFail (p : Path)
  | tgtStatProblem (p : Path)
  | removeOk (p : Path)
  | removeFail (p : Path)
deriving DecidableEq

/-- Failure injection for the one fallible call without a structural trigger
in a static tree: the per-file os.Stat on the source (line 74). -/
structure Oracle where
  srcStatFails : Path → Bool

/-- The error value a WalkDir callback may return (the Go code always
returns nil, so this type is never inhabited by the callbacks). -/
abbrev Err := Unit

/-- Mutable state threaded through a run: the target tree, the log so far
and the operation trace. -/
structure St where
  tgt : Option FsTree
  log : List LogEvent
  ops : List OpEvent

/-- copyFile (lines 149-180): ensure the parent directory chain of dst,
open the source, create/truncate dst and stream the bytes, then re-stat
the source and transfer its modification time to dst (skipping the
Chtimes silently if the fresh stat fails).  Returns the new target root
on success. -/
def copyFile (oracle : Oracle) (src tgt : Option FsTree) (sp dp : Path) : Option (Option FsTree) :=
  match (match dp with
         | [] => some tgt
         | _ :: _ => (mkdirAll tgt dp.dropLast).map some) with
  | none => none
  | some t1 =>
    match statR src sp with
    | .found (.file _ content) =>
        match createWrite t1 dp content with
        | none => none
        | some t2 =>
            if oracle.srcStatFails sp then some t2
            else
              match statR src sp with
              | .found (.file mt _) => some (chtimes t2 dp mt)
              | _ => some t2
    | _ => none

/-- The copy block of the forward callback (lines 94-100): invoke copyFile
and log the outcome; either way the callback continues. -/
def doCopy (oracle : Oracle) (src : Option FsTree) (p : Path) (st : St) : St :=
  match copyFile oracle src st.tgt p p with
  | some t' => { st with tgt := t', log := st.log ++ [.copied p], ops := st.ops ++ [.copyOk p] }
  | none => { st with log := st.log ++ [.copyFailed p], ops := st.ops ++ [.copyFail p] }

/-- File handling of the forward callback (lines 72-102): stat the source
(skip the entry if that fails), then decide to copy when the target stat
reports not-exist or an entry that fails sameFile; a target stat failing
with another error is logged and the entry is not copied.  The callback
always returns nil. -/
def syncFile (oracle : Oracle) (src : Option FsTree) (p : Path) (mt : Int) (content : List Nat) (st : St) : St × Option Err :=
  if oracle.srcStatFails p then
    ({ st with log := st.log ++ [.srcStatFailed p], ops := st.ops ++ [.statSrcFail p] }, none)
  else
    match statR st.tgt p with
    | .notExist => (doCopy oracle src p st, none)
    | .found t =>
        if sameFile ⟨false, content.length, mt⟩ (infoOf t) then (st, none)
        else (doCopy oracle src p st, none)
    | .errOther =>
        ({ st with log := st.log ++ [.problemReading p], ops := st.ops ++ [.tgtStatProblem p] }, none)

/-- Directory handling of the forward callback (lines 61-70): create the
target directory when the target stat reports not-exist; any other stat
outcome leaves the target alone.  The callback always returns nil. -/
def syncDir (p : Path) (st : St) : St × Option Err :=
  match statR st.tgt p with
  | .notExist =>
      match mkdirAll st.tgt p with
      | some t' => ({ st with tgt := some t', log := st.log ++ [.createdDir p], ops := st.ops ++ [.mkdirOk p] }, none)
      | none => ({ st with log := st.log ++ [.mkdirFailed p], ops := st.ops ++ [.mkdirFail p] }, none)
  | _ => (st, none)

mutual
/-- filepath.WalkDir over the source tree with the forward callback:
visit the entry, then the children of a directory, stopping early if a
callback ever returned an error (none of them does). -/
def fwalk (oracle : Oracle) (src : Option FsTree) (base : Path) (t : FsTree) (st : St) : St × Option Err :=
  match t with
  | .file mt content => syncFile oracle src base mt content st
  | .dir _ _ cs =>
      match syncDir base st with
      | (st1, some e) => (st1, some e)
      | (st1, none) => fwalkList oracle src base cs st1
/-- Children of a directory, in listing order. -/
def fwalkList (oracle : Oracle) (src : Option FsTree) (base : Path) (cs : List (String × FsTree)) (st : St) : St × Option Err :=
  match cs with
  | [] => (st, none)
  | (n, c) :: rest =>
      match fwalk oracle src (base ++ [n]) c st with
      | (st1, some e) => (st1, some e)
      | (st1, none) => fwalkList oracle src base rest st1
end

/-- The forward pass (lines 49-103): WalkDir on the source root.  When the
root cannot be stat'd the callback is invoked once with the error; it
logs and returns nil (lines 50-54). -/
def forwardPass (oracle : Oracle) (src : Option FsTree) (st : St) : St × Option Err :=
  match src with
  | none => ({ st with log := st.log ++ [.accessError []] }, none)
  | some t => fwalk oracle src [] t st

/-- The cleanup callback (lines 111-134): if the source stat at the mapped
path reports not-exist, attempt os.Remove; only a successful removal is
logged.  Returns whether a directory was removed (in which case WalkDir
fails to read it afterwards). -/
def cleanupVisit (src : Option FsTree) (p : Path) (isDir : Bool) (st : St) : St × Bool :=
  match statR src p with
  | .notExist =>
      match removeEntry st.tgt p with
      | some t' =>
          if isDir then
            ({ st with tgt := t', log := st.log ++ [.removedDir p], ops := st.ops ++ [.removeOk p] }, true)
          else
            ({ st with tgt := t', log := st.log ++ [.removedFile p], ops := st.ops ++ [.removeOk p] }, false)
      | none => ({ st with ops := st.ops ++ [.removeFail p] }, false)
  | _ => (st, false)

mutual
/-- filepath.WalkDir over the target tree as it stood when the cleanup pass
started, with the cleanup callback.  After a directory entry was removed
by its own visit, WalkDir fails to read it and reports that through a
second callback invocation, which logs and returns nil; it then cannot
descend (the removed directory was empty). -/
def cwalk (src : Option FsTree) (base : Path) (t : FsTree) (st : St) : St × Option Err :=
  match t with
  | .file _ _ =>
      match cleanupVisit src base false st with
      | (st1, _) => (st1, none)
  | .dir _ _ cs =>
      match cleanupVisit src base true st with
      | (st1, removed) =>
        if removed then ({ st1 with log := st1.log ++ [.accessError base] }, none)
        else cwalkList src base cs st1
/-- Children of a directory, in listing order. -/
def cwalkList (src : Option FsTree) (base : Path) (cs : List (String × FsTree)) (st : St) : St × Option Err :=
  match cs with
  | [] => (st, none)
  | (n, c) :: rest =>
      match cwalk src (base ++ [n]) c st with
      | (st1, some e) => (st1, some e)
      | (st1, none) => cwalkList src base rest st1
end

/-- The cleanup pass (lines 110-136): WalkDir on the target root; a missing
root is reported to the callback, which logs and returns nil. -/
def cleanupPass (src : Option FsTree) (st : St) : St × Option Err :=
  match st.tgt with
  | none => ({ st with log := st.log ++ [.accessError []] }, none)
  | some t => cwalk src [] t st

/-- FileSync (lines 14-18): a one-way synchronization job. -/
structure FileSync where
  source : Option FsTree
  target : Option FsTree
  deleteMissing : Bool

/-- NewFileSync (lines 27-33). -/
def NewFileSync (source target : Option FsTree) (deleteMissing : Bool) : FileSync :=
  ⟨source, target, deleteMissing⟩

/-- Result of a run: final target tree, log, operation trace and the
returned error. -/
structure SyncResult where
  tgt : Option FsTree
  log : List LogEvent
  ops : List OpEvent
  err : Option Err

/-- SyncDirs (lines 47-139): the forward pass, then - if its error is nil
and deleteMissing is set - the cleanup pass, whose error is returned. -/
def SyncDirs (fs : FileSync) (oracle : Oracle) : SyncResult :=
  match forwardPass oracle fs.source ⟨fs.target, [], []⟩ with
  | (st1, some e) => ⟨st1.tgt, st1.log, st1.ops, some e⟩
  | (st1, none) =>
      if fs.deleteMissing then
        match cleanupPass fs.source st1 with
        | (st2, e2) => ⟨st2.tgt, st2.log, st2.ops, e2⟩
      else ⟨st1.tgt, st1.log, st1.ops, none⟩

mutual
/-- Well-formedness of a tree: sibling names are distinct at every level
(as on a real filesystem). -/
def WFt : FsTree → Bool
  | .file _ _ => true
  | .dir _ _ cs => (cs.map Prod.fst).Nodup && WFl cs
/-- Well-formedness of a child list. -/
def WFl : List (String × FsTree) → Bool
  | [] => true
  | (_, c) :: rest => WFt c && WFl rest
end

/-- Well-formedness of an optional root. -/
def WFo : Option FsTree → Bool
  | none => true
  | some t => WFt t

/-- Did the operation attempt fail? -/
def opFailed : OpEvent → Bool
  | .statSrcFail _ => true
  | .mkdirFail _ => true
  | .copyFail _ => true
  | .tgtStatProblem _ => true
  | .removeFail _ => true
  | .mkdirOk _ => false
  | .copyOk _ => false
  | .removeOk _ => false

/-- Every operation of the trace succeeded. -/
def cleanOps (ops : List OpEvent) : Bool :=
  ops.all (fun e => !opFailed e)

/-- Is the event a copy attempt (successful or failed)? -/
def isCopyEvent : OpEvent → Bool
  | .copyOk _ => true
  | .copyFail _ => true
  | _ => false

/-- No file was copied (not even attempted) in the trace. -/
def noCopies (ops : List OpEvent) : Bool :=
  ops.all (fun e => !isCopyEvent e)

/-- Is the event a removal attempt? -/
def isRemoveEvent : OpEvent → Bool
  | .removeOk _ => true
  | .removeFail _ => true
  | _ => false

/-- Ancestor-or-self order on paths: `isUnder a b` means `b` lies in the
subtree rooted at `a`. -/
def isUnder (a b : Path) : Prop := ∃ r, b = a ++ r

/-- The oracle that never injects a failure. -/
def noFailOracle : Oracle := ⟨fun _ => false⟩

/-- The target holds, at the path, an entry that the identity predicate
considers identical to a source file with the given modification time and
content: such an entry is never recopied. -/
def syncedF (T : Option FsTree) (p : Path) (mt : Int) (content : List Nat) : Prop :=
  ∃ t, statR T p = .found t ∧ sameFile ⟨false, content.length, mt⟩ (infoOf t) = true

/-- The stat at the path does not report not-exist. -/
def notMissing (T : Option FsTree) (p : Path) : Prop := statR T p ≠ .notExist

/-- No removal was attempted in the trace. -/
def noRemoves (ops : List OpEvent) : Bool :=
  ops.all (fun e => !isRemoveEvent e)

/-! ### The callbacks always return nil -/

theorem syncFile_err (oracle : Oracle) (src : Option FsTree) (p : Path) (mt : Int)
    (content : List Nat) (st : St) : (syncFile oracle src p mt content st).2 = none := by
  unfold syncFile
  split
  · rfl
  · split
    · rfl
    · split <;> rfl
    · rfl

theorem syncDir_err (p : Path) (st : St) : (syncDir p st).2 = none := by
  unfold syncDir
  split
  · split <;> rfl
  · rfl

mutual
theorem fwalk_err (oracle : Oracle) (src : Option FsTree) (base : Path) (t : FsTree)
    (st : St) : (fwalk oracle src base t st).2 = none := by
  cases t with
  | file mt c => rw [fwalk]; exact syncFile_err oracle src base mt c st
  | dir mt sz cs =>
      rw [fwalk]
      rcases h : syncDir base st with ⟨st1, e⟩
      have h2 : e = none := by
        have h3 := syncDir_err base st
        rw [h] at h3; exact h3
      subst h2
      exact fwalkList_err oracle src base cs st1
theorem fwalkList_err (oracle : Oracle) (src : Option FsTree) (base : Path)
    (cs : List (String × FsTree)) (st : St) : (fwalkList oracle src base cs st).2 = none := by
  cases cs with
  | nil => rw [fwalkList]
  | cons hd rest =>
      obtain ⟨n, c⟩ := hd
      rw [fwalkList]
      rcases h : fwalk oracle src (base ++ [n]) c st with ⟨st1, e⟩
      have h2 : e = none := by
        have h3 := fwalk_err oracle src (base ++ [n]) c st
        rw [h] at h3; exact h3
      subst h2
      exact fwalkList_err oracle src base rest st1
end

mutual
theorem cwalk_err (src : Option FsTree) (base : Path) (t : FsTree) (st : St) :
    (cwalk src base t st).2 = none := by
  cases t with
  | file mt c => rw [cwalk]
  | dir mt sz cs =>
      rw [cwalk]
      rcases h : cleanupVisit src base true st with ⟨st1, removed⟩
      cases removed with
      | true => simp
      | false => simpa using cwalkList_err src base cs st1
theorem cwalkList_err (src : Option FsTree) (base : Path) (cs : List (String × FsTree))
    (st : St) : (cwalkList src base cs st).2 = none := by
  cases cs with
  | nil => rw [cwalkList]
  | cons hd rest =>
      obtain ⟨n, c⟩ := hd
      rw [cwalkList]
      rcases h : cwalk src (base ++ [n]) c st with ⟨st1, e⟩
      have h2 : e = none := by
        have h3 := cwalk_err src (base ++ [n]) c st
        rw [h] at h3; exact h3
      subst h2
      exact cwalkList_err src base rest st1
end

theorem forwardPass_err (oracle : Oracle) (src : Option FsTree) (st : St) :
    (forwardPass oracle src st).2 = none := by
  cases src with
  | none => rfl
  | some t => exact fwalk_err oracle (some t) [] t st

theorem cleanupPass_err (src : Option FsTree) (st : St) :
    (cleanupPass src st).2 = none := by
  unfold cleanupPass
  split
  · rfl
  · exact cwalk_err src [] _ st

/-- SyncDirs returns nil on every input. -/
theorem syncDirs_err_none (fs : FileSync) (oracle : Oracle) :
    (SyncDirs fs oracle).err = none := by
  unfold SyncDirs
  rcases h : forwardPass oracle fs.source ⟨fs.target, [], []⟩ with ⟨st1, e⟩
  have h2 : e = none := by
    have h3 := forwardPass_err oracle fs.source ⟨fs.target, [], []⟩
    rw [h] at h3; exact h3
  subst h2
  simp only
  split
  · rcases h4 : cleanupPass fs.source st1 with ⟨st2, e2⟩
    have h5 : e2 = none := by
      have h6 := cleanupPass_err fs.source st1
      rw [h4] at h6; exact h6
    subst h5
    rfl
  · rfl

/-! ### Unfolding equations for the walks -/

theorem fwalk_file_eq (oracle : Oracle) (src : Option FsTree) (base : Path) (mt : Int)
    (c : List Nat) (st : St) :
    fwalk oracle src base (.file mt c) st = syncFile oracle src base mt c st := by
  rw [fwalk]

theorem fwalk_dir_eq (oracle : Oracle) (src : Option FsTree) (base : Path) (mt : Int)
    (sz : Nat) (cs : List (String × FsTree)) (st : St) :
    fwalk oracle src base (.dir mt sz cs) st = fwalkList oracle src base cs (syncDir base st).1 := by
  rw [fwalk]
  rcases h : syncDir base st with ⟨st1, e⟩
  have h2 : e = none := by
    have h3 := syncDir_err base st
    rw [h] at h3; exact h3
  subst h2
  rfl

theorem fwalkList_nil_eq (oracle : Oracle) (src : Option FsTree) (base : Path) (st : St) :
    fwalkList oracle src base [] st = (st, none) := by
  rw [fwalkList]

theorem fwalkList_cons_eq (oracle : Oracle) (src : Option FsTree) (base : Path) (n : String)
    (c : FsTree) (rest : List (String × FsTree)) (st : St) :
    fwalkList oracle src base ((n, c) :: rest) st =
      fwalkList oracle src base rest (fwalk oracle src (base ++ [n]) c st).1 := by
  rw [fwalkList]
  rcases h : fwalk oracle src (base ++ [n]) c st with ⟨st1, e⟩
  have h2 : e = none := by
    have h3 := fwalk_err oracle src (base ++ [n]) c st
    rw [h] at h3; exact h3
  subst h2
  rfl

theorem cwalk_file_eq (src : Option FsTree) (base : Path) (mt : Int) (c : List Nat) (st : St) :
    cwalk src base (.file mt c) st = ((cleanupVisit src base false st).1, none) := by
  rw [cwalk]

theorem cwalk_dir_removed (src : Option FsTree) (base : Path) (mt : Int) (sz : Nat)
    (cs : List (String × FsTree)) (st st1 : St)
    (h : cleanupVisit src base true st = (st1, true)) :
    cwalk src base (.dir mt sz cs) st = ({ st1 with log := st1.log ++ [.accessError base] }, none) := by
  rw [cwalk, h]
  rfl

theorem cwalk_dir_kept (src : Option FsTree) (base : Path) (mt : Int) (sz : Nat)
    (cs : List (String × FsTree)) (st st1 : St)
    (h : cleanupVisit src base true st = (st1, false)) :
    cwalk src base (.dir mt sz cs) st = cwalkList src base cs st1 := by
  rw [cwalk, h]
  rfl

theorem cwalkList_nil_eq (src : Option FsTree) (base : Path) (st : St) :
    cwalkList src base [] st = (st, none) := by
  rw [cwalkList]

theorem cwalkList_cons_eq (src : Option FsTree) (base : Path) (n : String) (c : FsTree)
    (rest : List (String × FsTree)) (st : St) :
    cwalkList src base ((n, c) :: rest) st =
      cwalkList src base rest (cwalk src (base ++ [n]) c st).1 := by
  rw [cwalkList]
  rcases h : cwalk src (base ++ [n]) c st with ⟨st1, e⟩
  have h2 : e = none := by
    have h3 := cwalk_err src (base ++ [n]) c st
    rw [h] at h3; exact h3
  subst h2
  rfl

/-! ### Trace monotonicity -/

theorem cleanOps_append (a b : List OpEvent) : cleanOps (a ++ b) = (cleanOps a && cleanOps b) := by
  simp [cleanOps, List.all_append]

theorem noCopies_append (a b : List OpEvent) : noCopies (a ++ b) = (noCopies a && noCopies b) := by
  simp [noCopies, List.all_append]

theorem doCopy_ops (oracle : Oracle) (src : Option FsTree) (p : Path) (st : St) :
    (doCopy oracle src p st).ops = st.ops ++ [.copyOk p] ∨
      (doCopy oracle src p st).ops = st.ops ++ [.copyFail p] := by
  unfold doCopy
  split
  · exact Or.inl rfl
  · exact Or.inr rfl

theorem syncFile_ops_append (oracle : Oracle) (src : Option FsTree) (p : Path) (mt : Int)
    (content : List Nat) (st : St) :
    ∃ d, (syncFile oracle src p mt content st).1.ops = st.ops ++ d := by
  unfold syncFile
  split
  · exact ⟨_, rfl⟩
  · split
    · rcases doCopy_ops oracle src p st with h | h
      · exact ⟨_, h⟩
      · exact ⟨_, h⟩
    · split
      · exact ⟨[], by simp⟩
      · rcases doCopy_ops oracle src p st with h | h
        · exact ⟨_, h⟩
        · exact ⟨_, h⟩
    · exact ⟨_, rfl⟩

theorem syncDir_ops_append (p : Path) (st : St) :
    ∃ d, (syncDir p st).1.ops = st.ops ++ d := by
  unfold syncDir
  split
  · split
    · exact ⟨_, rfl⟩
    · exact ⟨_, rfl⟩
  · exact ⟨[], by simp⟩

mutual
theorem fwalk_ops_append (oracle : Oracle) (src : Option FsTree) (base : Path) (t : FsTree)
    (st : St) : ∃ d, (fwalk oracle src base t st).1.ops = st.ops ++ d := by
  cases t with
  | file mt c =>
      rw [fwalk_file_eq]
      exact syncFile_ops_append oracle src base mt c st
  | dir mt sz cs =>
      rw [fwalk_dir_eq]
      obtain ⟨d1, h1⟩ := syncDir_ops_append base st
      obtain ⟨d2, h2⟩ := fwalkList_ops_append oracle src base cs (syncDir base st).1
      exact ⟨d1 ++ d2, by rw [h2, h1, List.append_assoc]⟩
theorem fwalkList_ops_append (oracle : Oracle) (src : Option FsTree) (base : Path)
    (cs : List (String × FsTree)) (st : St) :
    ∃ d, (fwalkList oracle src base cs st).1.ops = st.ops ++ d := by
  cases cs with
  | nil => exact ⟨[], by rw [fwalkList_nil_eq]; simp⟩
  | cons hd rest =>
      obtain ⟨n, c⟩ := hd
      rw [fwalkList_cons_eq]
      obtain ⟨d1, h1⟩ := fwalk_ops_append oracle src (base ++ [n]) c st
      obtain ⟨d2, h2⟩ := fwalkList_ops_append oracle src base rest (fwalk oracle src (base ++ [n]) c st).1
      exact ⟨d1 ++ d2, by rw [h2, h1, List.append_assoc]⟩
end

theorem cleanupVisit_ops_append (src : Option FsTree) (p : Path) (isDir : Bool) (st : St) :
    ∃ d, (cleanupVisit src p isDir st).1.ops = st.ops ++ d ∧ d.all isRemoveEvent = true := by
  unfold cleanupVisit
  split
  · split
    · split
      · exact ⟨[.removeOk p], rfl, rfl⟩
      · exact ⟨[.removeOk p], rfl, rfl⟩
    · exact ⟨[.removeFail p], rfl, rfl⟩
  · exact ⟨[], by simp⟩

mutual
theorem cwalk_ops_append (src : Option FsTree) (base : Path) (t : FsTree) (st : St) :
    ∃ d, (cwalk src base t st).1.ops = st.ops ++ d ∧ d.all isRemoveEvent = true := by
  cases t with
  | file mt c =>
      rw [cwalk_file_eq]
      exact cleanupVisit_ops_append src base false st
  | dir mt sz cs =>
      rcases h : cleanupVisit src base true st with ⟨st1, removed⟩
      obtain ⟨d1, h1, hr1⟩ := cleanupVisit_ops_append src base true st
      rw [h] at h1
      cases removed with
      | true =>
          rw [cwalk_dir_removed src base mt sz cs st st1 h]
          exact ⟨d1, h1, hr1⟩
      | false =>
          rw [cwalk_dir_kept src base mt sz cs st st1 h]
          obtain ⟨d2, h2, hr2⟩ := cwalkList_ops_append src base cs st1
          refine ⟨d1 ++ d2, ?_, ?_⟩
          · rw [h2, h1, List.append_assoc]
          · simp only [List.all_append, hr1, hr2, Bool.and_self]
theorem cwalkList_ops_append (src : Option FsTree) (base : Path) (cs : List (String × FsTree))
    (st : St) :
    ∃ d, (cwalkList src base cs st).1.ops = st.ops ++ d ∧ d.all isRemoveEvent = true := by
  cases cs with
  | nil => exact ⟨[], by rw [cwalkList_nil_eq]; simp⟩
  | cons hd rest =>
      obtain ⟨n, c⟩ := hd
      rw [cwalkList_cons_eq]
      obtain ⟨d1, h1, hr1⟩ := cwalk_ops_append src (base ++ [n]) c st
      obtain ⟨d2, h2, hr2⟩ := cwalkList_ops_append src base rest (cwalk src (base ++ [n]) c st).1
      refine ⟨d1 ++ d2, ?_, ?_⟩
      · rw [h2, h1, List.append_assoc]
      · simp only [List.all_append, hr1, hr2, Bool.and_self]
end

theorem cleanupVisit_log_append (src : Option FsTree) (p : Path) (isDir : Bool) (st : St) :
    ∃ d, (cleanupVisit src p isDir st).1.log = st.log ++ d := by
  unfold cleanupVisit
  split
  · split
    · split
      · exact ⟨_, rfl⟩
      · exact ⟨_, rfl⟩
    · exact ⟨[], by simp⟩
  · exact ⟨[], by simp⟩

mutual
theorem cwalk_log_append (src : Option FsTree) (base : Path) (t : FsTree) (st : St) :
    ∃ d, (cwalk src base t st).1.log = st.log ++ d := by
  cases t with
  | file mt c =>
      rw [cwalk_file_eq]
      exact cleanupVisit_log_append src base false st
  | dir mt sz cs =>
      rcases h : cleanupVisit src base true st with ⟨st1, removed⟩
      obtain ⟨d1, h1⟩ := cleanupVisit_log_append src base true st
      rw [h] at h1
      cases removed with
      | true =>
          rw [cwalk_dir_removed src base mt sz cs st st1 h]
          refine ⟨d1 ++ [.accessError base], ?_⟩
          show st1.log ++ [.accessError base] = _
          have h1' : st1.log = st.log ++ d1 := h1
          rw [h1', List.append_assoc]
      | false =>
          rw [cwalk_dir_kept src base mt sz cs st st1 h]
          obtain ⟨d2, h2⟩ := cwalkList_log_append src base cs st1
          exact ⟨d1 ++ d2, by rw [h2, h1, List.append_assoc]⟩
theorem cwalkList_log_append (src : Option FsTree) (base : Path) (cs : List (String × FsTree))
    (st : St) : ∃ d, (cwalkList src base cs st).1.log = st.log ++ d := by
  cases cs with
  | nil => exact ⟨[], by rw [cwalkList_nil_eq]; simp⟩
  | cons hd rest =>
      obtain ⟨n, c⟩ := hd
      rw [cwalkList_cons_eq]
      obtain ⟨d1, h1⟩ := cwalk_log_append src (base ++ [n]) c st
      obtain ⟨d2, h2⟩ := cwalkList_log_append src base rest (cwalk src (base ++ [n]) c st).1
      exact ⟨d1 ++ d2, by rw [h2, h1, List.append_assoc]⟩
end

theorem cleanupPass_log_append (src : Option FsTree) (st : St) :
    ∃ d, (cleanupPass src st).1.log = st.log ++ d := by
  unfold cleanupPass
  split
  · exact ⟨_, rfl⟩
  · exact cwalk_log_append _ _ _ _

/-! ### Claim C10 -/

/-- C10: for every input state (source, target, deleteMissing flag, failure
oracle), SyncDirs returns nil: both WalkDir invocations yield nil because
every callback returns nil on every invocation, including the error branch. -/
theorem c10_always_nil (fs : FileSync) (oracle : Oracle) :
    (SyncDirs fs oracle).err = none ∧
    (∀ st, (forwardPass oracle fs.source st).2 = none) ∧
    (∀ st, (cleanupPass fs.source st).2 = none) :=
  ⟨syncDirs_err_none fs oracle, fun st => forwardPass_err oracle fs.source st,
    fun st => cleanupPass_err fs.source st⟩

/-! ### Claim C8 -/

/-- C8: invoking SyncDirs with a non-existent source path returns success
(nil error): WalkDir hands the failed root stat to the callback, whose
per-entry error branch logs it and returns nil, so the forward pass ends
with the target untouched and the error is not surfaced to the caller. -/
theorem c8_missing_source_ok (tgt : Option FsTree) (dm : Bool) (oracle : Oracle) :
    (SyncDirs (NewFileSync none tgt dm) oracle).err = none ∧
    forwardPass oracle none ⟨tgt, [], []⟩ = (⟨tgt, [.accessError []], []⟩, none) :=
  ⟨syncDirs_err_none _ _, rfl⟩

/-! ### Claim C7 -/

/-- C7 counterexample: the claim says a failure of the top-level walk to
start on the source root (here: the source root does not exist) is
returned to the caller as the operation's error; on this concrete input
SyncDirs returns nil instead (as the package test
TestFileSync_InvalidPath also expects). -/
theorem c7_counterexample :
    (SyncDirs (NewFileSync none (some (.dir 0 0 [])) false) noFailOracle).err = none := rfl

/-- C7 (amended): a failure of the top-level walk to start on the source
root does not abort the run and is not returned to the caller: WalkDir
reports it to the callback, which logs it (the access-error entry opens
the log) and returns nil, so SyncDirs returns nil; synchronization never
produces a hard failure. -/
theorem c7_no_hard_failure (tgt : Option FsTree) (dm : Bool) (oracle : Oracle) :
    (SyncDirs (NewFileSync none tgt dm) oracle).err = none ∧
    ∃ l, (SyncDirs (NewFileSync none tgt dm) oracle).log = .accessError [] :: l := by
  refine ⟨syncDirs_err_none _ _, ?_⟩
  unfold SyncDirs
  have hf : forwardPass oracle (NewFileSync none tgt dm).source
      ⟨(NewFileSync none tgt dm).target, [], []⟩ = (⟨tgt, [.accessError []], []⟩, none) := rfl
  rw [hf]
  simp only
  split
  · rcases h2 : cleanupPass (NewFileSync none tgt dm).source ⟨tgt, [.accessError []], []⟩ with ⟨st2, e2⟩
    obtain ⟨d, hd⟩ := cleanupPass_log_append (NewFileSync none tgt dm).source ⟨tgt, [.accessError []], []⟩
    rw [h2] at hd
    exact ⟨d, hd⟩
  · exact ⟨[], rfl⟩

/-! ### Claim C2 -/

/-- C2: sameFile(src, tgt) is true iff the sizes are equal and the
modification times are exactly equal (no tolerance window), and a file
entry whose source and target infos satisfy it is not recopied (the
callback leaves the state untouched). -/
theorem c2_sameFile_exact :
    (∀ s t : FileInfo, sameFile s t = true ↔ (s.size = t.size ∧ s.modTime = t.modTime)) ∧
    (∀ (oracle : Oracle) (src : Option FsTree) (p : Path) (mt : Int) (content : List Nat)
      (st : St) (t : FsTree),
      oracle.srcStatFails p = false →
      statR st.tgt p = .found t →
      sameFile ⟨false, content.length, mt⟩ (infoOf t) = true →
      syncFile oracle src p mt content st = (st, none)) := by
  constructor
  · intro s t
    simp [sameFile]
  · intro oracle src p mt content st t hfail hstat hsame
    unfold syncFile
    rw [hfail]
    simp only [Bool.false_eq_true, if_false]
    rw [hstat]
    simp [hsame]

/-- Witness for C2 at concrete inputs. -/
theorem c2_sameFile_exact_witness :
    sameFile ⟨false, 1, 5⟩ ⟨true, 1, 5⟩ = true ∧
    syncFile noFailOracle (some (.dir 0 0 [("a", .file 5 [2])])) ["a"] 5 [2]
        ⟨some (.dir 0 0 [("a", .file 5 [9])]), [], []⟩
      = (⟨some (.dir 0 0 [("a", .file 5 [9])]), [], []⟩, none) :=
  ⟨(c2_sameFile_exact.1 ⟨false, 1, 5⟩ ⟨true, 1, 5⟩).mpr ⟨rfl, rfl⟩,
    c2_sameFile_exact.2 noFailOracle (some (.dir 0 0 [("a", .file 5 [2])])) ["a"] 5 [2]
      ⟨some (.dir 0 0 [("a", .file 5 [9])]), [], []⟩ (.file 5 [9]) rfl rfl rfl⟩

/-! ### Claim C9 -/

/-- C9 counterexample: on this input the cleanup pass suffers a removal
failure (os.Remove of the non-empty target-only directory a), visible in
the operation trace; the log of the whole run records only the successful
removal of a/b and nothing about the failure - so removal failures are
not logged (the code only logs successful removals), refuting the claim;
the pass still continued past the failure (it went on to remove a/b). -/
theorem c9_counterexample :
    (SyncDirs (NewFileSync (some (.dir 0 0 []))
        (some (.dir 0 0 [("a", .dir 1 0 [("b", .file 1 [2])])])) true) noFailOracle).ops
      = [.removeFail ["a"], .removeOk ["a", "b"]] ∧
    (SyncDirs (NewFileSync (some (.dir 0 0 []))
        (some (.dir 0 0 [("a", .dir 1 0 [("b", .file 1 [2])])])) true) noFailOracle).log
      = [.removedFile ["a", "b"]] :=
  ⟨rfl, rfl⟩

/-- C9 (amended): a removal failure during the cleanup pass is silently
ignored - the callback records nothing in the log (only successful
removals are logged) and returns nil - and no removal failure aborts the
pass (the walk always completes with a nil error). -/
theorem c9_removal_failures_silent (src : Option FsTree) (p : Path) (isDir : Bool) (st : St)
    (hmiss : statR src p = .notExist) (hfail : removeEntry st.tgt p = none) :
    cleanupVisit src p isDir st = ({ st with ops := st.ops ++ [.removeFail p] }, false) ∧
    (∀ (t : FsTree) (st' : St), (cwalk src [] t st').2 = none) := by
  constructor
  · unfold cleanupVisit
    rw [hmiss, hfail]
  · intro t st'
    exact cwalk_err src [] t st'

/-- Witness for C9 at a concrete input (removing the non-empty directory a
fails). -/
theorem c9_removal_failures_silent_witness :
    cleanupVisit (some (.dir 0 0 [])) ["a"] true
        ⟨some (.dir 0 0 [("a", .dir 1 0 [("b", .file 1 [2])])]), [], []⟩
      = (⟨some (.dir 0 0 [("a", .dir 1 0 [("b", .file 1 [2])])]), [], [.removeFail ["a"]]⟩, false) :=
  (c9_removal_failures_silent (some (.dir 0 0 [])) ["a"] true
    ⟨some (.dir 0 0 [("a", .dir 1 0 [("b", .file 1 [2])])]), [], []⟩ rfl rfl).1

/-! ### Claim C1 -/

/-- C1 counterexample: the source file a/b can be stat'd (the oracle injects
no failure) and no entry exists at the mapped target path a/b (the target
has a regular file at a, so the stat fails with ENOTDIR, which does not
satisfy os.IsNotExist), yet the forward pass does not copy a/b: the run
attempts no copy at all and leaves the target tree unchanged, refuting
the claimed "copied iff no entry exists or the entry fails the identity
predicate". -/
theorem c1_counterexample :
    statR (some (.dir 0 0 [("a", .dir 3 7 [("b", .file 7 [2])])])) ["a", "b"]
      = .found (.file 7 [2]) ∧
    existsAt (some (.dir 0 0 [("a", .file 5 [1])])) ["a", "b"] = false ∧
    (SyncDirs (NewFileSync (some (.dir 0 0 [("a", .dir 3 7 [("b", .file 7 [2])])]))
        (some (.dir 0 0 [("a", .file 5 [1])])) false) noFailOracle).tgt
      = some (.dir 0 0 [("a", .file 5 [1])]) ∧
    noCopies (SyncDirs (NewFileSync (some (.dir 0 0 [("a", .dir 3 7 [("b", .file 7 [2])])]))
        (some (.dir 0 0 [("a", .file 5 [1])])) false) noFailOracle).ops = true :=
  ⟨rfl, rfl, rfl, rfl⟩

/-- C1 (amended): for every file entry of the forward pass the callback
returns nil; if the stat on the source file fails, the entry is skipped
exactly (logged, no copy, target unchanged); otherwise a copy is
attempted iff the target stat reports not-exist or finds an entry that
fails the identity predicate; if the target stat fails with any other
error (e.g. ENOTDIR below a target file), the entry is logged and not
copied. -/
theorem c1_copy_decision (oracle : Oracle) (src : Option FsTree) (p : Path) (mt : Int)
    (content : List Nat) (st : St) :
    (syncFile oracle src p mt content st).2 = none ∧
    (oracle.srcStatFails p = true →
      syncFile oracle src p mt content st =
        ({ st with log := st.log ++ [.srcStatFailed p], ops := st.ops ++ [.statSrcFail p] }, none)) ∧
    (oracle.srcStatFails p = false →
      (((syncFile oracle src p mt content st).1.ops = st.ops ++ [.copyOk p] ∨
        (syncFile oracle src p mt content st).1.ops = st.ops ++ [.copyFail p]) ↔
        (statR st.tgt p = .notExist ∨
          ∃ t, statR st.tgt p = .found t ∧
            sameFile ⟨false, content.length, mt⟩ (infoOf t) = false))) ∧
    (oracle.srcStatFails p = false → statR st.tgt p = .errOther →
      syncFile oracle src p mt content st =
        ({ st with log := st.log ++ [.problemReading p], ops := st.ops ++ [.tgtStatProblem p] }, none)) := by
  refine ⟨syncFile_err oracle src p mt content st, ?_, ?_, ?_⟩
  · intro h
    unfold syncFile
    rw [h]
    simp
  · intro h
    rcases hstat : statR st.tgt p with t | _ | _
    · by_cases hsame : sameFile ⟨false, content.length, mt⟩ (infoOf t) = true
      · have hs : syncFile oracle src p mt content st = (st, none) := by
          unfold syncFile
          rw [h]
          simp only [Bool.false_eq_true, if_false]
          rw [hstat]
          simp [hsame]
        rw [hs]
        constructor
        · rintro (hc | hc) <;> simp at hc
        · rintro (hc | ⟨t', ht', hs'⟩)
          · exact StatR.noConfusion hc
          · injection ht' with ht''
            subst ht''
            rw [hsame] at hs'
            cases hs'
      · have hs : syncFile oracle src p mt content st = (doCopy oracle src p st, none) := by
          unfold syncFile
          rw [h]
          simp only [Bool.false_eq_true, if_false]
          rw [hstat]
          simp [hsame]
        rw [hs]
        simp only [Bool.not_eq_true] at hsame
        constructor
        · intro _
          exact Or.inr ⟨t, rfl, hsame⟩
        · intro _
          exact doCopy_ops oracle src p st
    · have hs : syncFile oracle src p mt content st = (doCopy oracle src p st, none) := by
        unfold syncFile
        rw [h]
        simp only [Bool.false_eq_true, if_false]
        rw [hstat]
      rw [hs]
      constructor
      · intro _
        exact Or.inl rfl
      · intro _
        exact doCopy_ops oracle src p st
    · have hs : syncFile oracle src p mt content st =
          ({ st with log := st.log ++ [.problemReading p], ops := st.ops ++ [.tgtStatProblem p] }, none) := by
        unfold syncFile
        rw [h]
        simp only [Bool.false_eq_true, if_false]
        rw [hstat]
      rw [hs]
      constructor
      · rintro (hc | hc) <;> simp at hc
      · rintro (hc | ⟨t', ht', _⟩)
        · exact StatR.noConfusion hc
        · exact StatR.noConfusion ht'
  · intro h hstat
    unfold syncFile
    rw [h]
    simp only [Bool.false_eq_true, if_false]
    rw [hstat]

/-- Witness for C1 at a concrete input: the target misses the entry, so a
copy is attempted. -/
theorem c1_copy_decision_witness :
    (syncFile noFailOracle (some (.dir 0 0 [("a", .file 5 [2])])) ["a"] 5 [2]
        ⟨some (.dir 0 0 []), [], []⟩).1.ops = [.copyOk ["a"]] ∨
    (syncFile noFailOracle (some (.dir 0 0 [("a", .file 5 [2])])) ["a"] 5 [2]
        ⟨some (.dir 0 0 []), [], []⟩).1.ops = [.copyFail ["a"]] :=
  ((c1_copy_decision noFailOracle (some (.dir 0 0 [("a", .file 5 [2])])) ["a"] 5 [2]
    ⟨some (.dir 0 0 []), [], []⟩).2.2.1 rfl).mpr (Or.inl rfl)

/-! ### Path order -/

theorem isUnder_refl (p : Path) : isUnder p p := ⟨[], by simp⟩

theorem isUnder_nil (p : Path) : isUnder [] p := ⟨p, rfl⟩

theorem isUnder_append (q r : Path) : isUnder q (q ++ r) := ⟨r, rfl⟩

theorem isUnder_cons_iff (n m : String) (a b : Path) :
    isUnder (n :: a) (m :: b) ↔ (n = m ∧ isUnder a b) := by
  constructor
  · rintro ⟨r, h⟩
    injection h with h1 h2
    exact ⟨h1.symm, r, h2⟩
  · rintro ⟨h1, r, h2⟩
    exact ⟨r, by rw [h1, h2]; rfl⟩

theorem isUnder_trans (a b c : Path) (h1 : isUnder a b) (h2 : isUnder b c) : isUnder a c := by
  obtain ⟨r1, hr1⟩ := h1
  obtain ⟨r2, hr2⟩ := h2
  exact ⟨r1 ++ r2, by rw [hr2, hr1, List.append_assoc]⟩

/-- Two ancestors of one path are comparable. -/
theorem isUnder_comparable (a b c : Path) (h1 : isUnder a c) (h2 : isUnder b c) :
    isUnder a b ∨ isUnder b a := by
  obtain ⟨r1, hr1⟩ := h1
  obtain ⟨r2, hr2⟩ := h2
  subst hr1
  revert hr2
  induction a generalizing b with
  | nil =>
      intro hr2
      exact Or.inl (isUnder_nil b)
  | cons n a' ih =>
      intro hr2
      cases b with
      | nil => exact Or.inr (isUnder_nil (n :: a'))
      | cons m b' =>
          injection hr2 with h3 h4
          rcases ih b' h4 with h | h
          · exact Or.inl ((isUnder_cons_iff n m a' b').mpr ⟨h3, h⟩)
          · exact Or.inr ((isUnder_cons_iff m n b' a').mpr ⟨h3.symm, h⟩)

/-! ### Lookup and update lemmas -/

theorem findC_replaceC_other (cs : List (String × FsTree)) (n m : String) (c' : FsTree)
    (h : m ≠ n) : findC (replaceC cs n c') m = findC cs m := by
  have hnm : n ≠ m := fun he => h he.symm
  induction cs with
  | nil => rfl
  | cons hd rest ih =>
      obtain ⟨k, c⟩ := hd
      by_cases hk : k = n
      · subst hk
        simp [replaceC, findC, hnm, ih]
      · by_cases hm : k = m
        · subst hm
          simp [replaceC, findC, hk]
        · simp [replaceC, findC, hk, hm, ih]

theorem findC_eraseC_self (cs : List (String × FsTree)) (n : String) :
    findC (eraseC cs n) n = none := by
  induction cs with
  | nil => rfl
  | cons hd rest ih =>
      obtain ⟨k, c⟩ := hd
      by_cases hk : k = n
      · subst hk
        simp [eraseC, ih]
      · simp [eraseC, findC, hk, ih]

theorem findC_eraseC_other (cs : List (String × FsTree)) (n m : String) (h : m ≠ n) :
    findC (eraseC cs n) m = findC cs m := by
  have hnm : n ≠ m := fun he => h he.symm
  induction cs with
  | nil => rfl
  | cons hd rest ih =>
      obtain ⟨k, c⟩ := hd
      by_cases hk : k = n
      · subst hk
        simp [eraseC, findC, hnm, ih]
      · by_cases hm : k = m
        · subst hm
          simp [eraseC, findC, hk]
        · simp [eraseC, findC, hk, hm, ih]

theorem statT_nil (t : FsTree) : statT t [] = .found t := by
  cases t <;> rfl

/-- Stat decomposition along a path split. -/
theorem statT_append (q r : Path) (t : FsTree) :
    statT t (q ++ r) = match statT t q with
      | .found d => statT d r
      | .notExist => .notExist
      | .errOther => .errOther := by
  induction q generalizing t with
  | nil => cases t <;> rfl
  | cons n q' ih =>
      cases t with
      | file mt c =>
          simp only [List.cons_append, statT]
      | dir mt sz cs =>
          simp only [List.cons_append, statT]
          rcases hf : findC cs n with _ | c
          · rfl
          · exact ih c

theorem statR_append (q r : Path) (T : Option FsTree) :
    statR T (q ++ r) = match statR T q with
      | .found d => statT d r
      | .notExist => .notExist
      | .errOther => .errOther := by
  cases T with
  | none => rfl
  | some t => exact statT_append q r t

theorem statR_found_anc (q r : Path) (T : Option FsTree) (e : FsTree)
    (h : statR T (q ++ r) = .found e) : ∃ d, statR T q = .found d := by
  rw [statR_append] at h
  rcases hq : statR T q with d | _ | _ <;> rw [hq] at h
  · exact ⟨d, rfl⟩
  · cases h
  · cases h

theorem statR_notExist_below (q r : Path) (T : Option FsTree)
    (h : statR T q = .notExist) : statR T (q ++ r) = .notExist := by
  rw [statR_append, h]

theorem statR_errOther_below (q r : Path) (T : Option FsTree)
    (h : statR T q = .errOther) : statR T (q ++ r) = .errOther := by
  rw [statR_append, h]

theorem statR_file_below (q r : Path) (T : Option FsTree) (mt : Int) (c : List Nat)
    (h : statR T q = .found (.file mt c)) (hr : r ≠ []) : statR T (q ++ r) = .errOther := by
  rw [statR_append, h]
  cases r with
  | nil => exact absurd rfl hr
  | cons x r' => rfl

theorem findC_replaceC_self (cs : List (String × FsTree)) (n : String) (c0 c' : FsTree)
    (h : findC cs n = some c0) : findC (replaceC cs n c') n = some c' := by
  induction cs with
  | nil => simp [findC] at h
  | cons hd rest ih =>
      obtain ⟨m, c⟩ := hd
      by_cases hm : m = n
      · subst hm
        simp [findC, replaceC]
      · rw [findC, if_neg hm] at h
        simp only [replaceC, if_neg hm]
        rw [findC, if_neg hm]
        exact ih h

theorem findC_append (cs ds : List (String × FsTree)) (n : String) :
    findC (cs ++ ds) n = match findC cs n with
      | some c => some c
      | none => findC ds n := by
  induction cs with
  | nil => simp [findC]
  | cons hd rest ih =>
      obtain ⟨m, c⟩ := hd
      by_cases hm : m = n
      · subst hm
        simp [findC]
      · simp only [List.cons_append, findC, if_neg hm]
        exact ih

theorem removeAt_found (q : Path) (t t' : FsTree) (h : removeAt t q = some t') :
    ∃ e, statT t q = .found e ∧ removable e = true := by
  induction q generalizing t t' with
  | nil => rw [removeAt] at h; cases h
  | cons n rest ih =>
      cases t with
      | file mt c => rw [removeAt] at h; cases h
      | dir mt sz cs =>
          cases rest with
          | nil =>
              rw [removeAt] at h
              rcases hf : findC cs n with _ | c
              · rw [hf] at h; cases h
              · rw [hf] at h
                dsimp only at h
                by_cases hrem : removable c = true
                · refine ⟨c, ?_, hrem⟩
                  rw [statT, hf]
                  exact statT_nil c
                · rw [if_neg hrem] at h
                  cases h
          | cons m rest2 =>
              rw [removeAt] at h
              rcases hf : findC cs n with _ | c
              · rw [hf] at h; cases h
              · rw [hf] at h
                dsimp only at h
                rcases hr : removeAt c (m :: rest2) with _ | c'
                · rw [hr] at h; cases h
                · obtain ⟨e, he, hrem⟩ := ih c c' hr
                  refine ⟨e, ?_, hrem⟩
                  rw [statT, hf]
                  exact he

theorem removeAt_success (q : Path) (t e : FsTree) (hq : q ≠ [])
    (h : statT t q = .found e) (hrem : removable e = true) :
    ∃ t', removeAt t q = some t' := by
  induction q generalizing t with
  | nil => exact absurd rfl hq
  | cons n rest ih =>
      cases t with
      | file mt c => rw [statT] at h; cases h
      | dir mt sz cs =>
          rw [statT] at h
          rcases hf : findC cs n with _ | c
          · rw [hf] at h; cases h
          · rw [hf] at h
            dsimp only at h
            cases rest with
            | nil =>
                rw [statT_nil] at h
                injection h with h2
                subst h2
                refine ⟨.dir mt sz (eraseC cs n), ?_⟩
                rw [removeAt, hf]
                dsimp only
                rw [if_pos hrem]
            | cons m rest2 =>
                obtain ⟨c', hc'⟩ := ih c (by simp) h
                refine ⟨.dir mt sz (replaceC cs n c'), ?_⟩
                rw [removeAt, hf]
                dsimp only
                rw [hc']
                rfl

theorem removeAt_post (q : Path) (t t' : FsTree) (h : removeAt t q = some t') :
    statT t' q = .notExist := by
  induction q generalizing t t' with
  | nil => rw [removeAt] at h; cases h
  | cons n rest ih =>
      cases t with
      | file mt c => rw [removeAt] at h; cases h
      | dir mt sz cs =>
          cases rest with
          | nil =>
              rw [removeAt] at h
              rcases hf : findC cs n with _ | c
              · rw [hf] at h; cases h
              · rw [hf] at h
                dsimp only at h
                by_cases hrem : removable c = true
                · rw [if_pos hrem] at h
                  injection h with h2
                  subst h2
                  rw [statT, findC_eraseC_self]
                · rw [if_neg hrem] at h; cases h
          | cons m rest2 =>
              rw [removeAt] at h
              rcases hf : findC cs n with _ | c
              · rw [hf] at h; cases h
              · rw [hf] at h
                dsimp only at h
                rcases hr : removeAt c (m :: rest2) with _ | c'
                · rw [hr] at h; cases h
                · rw [hr] at h
                  injection h with h2
                  subst h2
                  rw [statT, findC_replaceC_self cs n c c' hf]
                  exact ih c c' hr

theorem removeAt_frame (q : Path) (t t' : FsTree) (h : removeAt t q = some t') (p : Path)
    (hp1 : ¬ isUnder q p) (hp2 : ¬ isUnder p q) : statT t' p = statT t p := by
  induction q generalizing t t' p with
  | nil => exact absurd (isUnder_nil p) hp1
  | cons n rest ih =>
      cases t with
      | file mt c => rw [removeAt] at h; cases h
      | dir mt sz cs =>
          cases p with
          | nil => exact absurd (isUnder_nil (n :: rest)) hp2
          | cons k p' =>
              by_cases hk : n = k
              · subst hk
                have hp1' : ¬ isUnder rest p' :=
                  fun hc => hp1 ((isUnder_cons_iff n n rest p').mpr ⟨rfl, hc⟩)
                have hp2' : ¬ isUnder p' rest :=
                  fun hc => hp2 ((isUnder_cons_iff n n p' rest).mpr ⟨rfl, hc⟩)
                cases rest with
                | nil => exact absurd (isUnder_nil p') hp1'
                | cons m rest2 =>
                    rw [removeAt] at h
                    rcases hf : findC cs n with _ | c
                    · rw [hf] at h; cases h
                    · rw [hf] at h
                      dsimp only at h
                      rcases hr : removeAt c (m :: rest2) with _ | c'
                      · rw [hr] at h; cases h
                      · rw [hr] at h
                        injection h with h2
                        subst h2
                        rw [statT, statT, findC_replaceC_self cs n c c' hf, hf]
                        exact ih c c' hr p' hp1' hp2'
              · have hkn : k ≠ n := fun he => hk he.symm
                cases rest with
                | nil =>
                    rw [removeAt] at h
                    rcases hf : findC cs n with _ | c
                    · rw [hf] at h; cases h
                    · rw [hf] at h
                      dsimp only at h
                      by_cases hrem : removable c = true
                      · rw [if_pos hrem] at h
                        injection h with h2
                        subst h2
                        rw [statT, statT, findC_eraseC_other cs n k hkn]
                      · rw [if_neg hrem] at h; cases h
                | cons m rest2 =>
                    rw [removeAt] at h
                    rcases hf : findC cs n with _ | c
                    · rw [hf] at h; cases h
                    · rw [hf] at h
                      dsimp only at h
                      rcases hr : removeAt c (m :: rest2) with _ | c'
                      · rw [hr] at h; cases h
                      · rw [hr] at h
                        injection h with h2
                        subst h2
                        rw [statT, statT, findC_replaceC_other cs n k c' hkn]

theorem removeAt_anc (q : Path) (t t' : FsTree) (h : removeAt t q = some t') (p : Path)
    (hp : isUnder p q) (hne : p ≠ q) :
    ∃ mt sz cs cs', statT t p = .found (.dir mt sz cs) ∧ statT t' p = .found (.dir mt sz cs') := by
  induction q generalizing t t' p with
  | nil => rw [removeAt] at h; cases h
  | cons n rest ih =>
      cases t with
      | file mt c => rw [removeAt] at h; cases h
      | dir mt sz cs =>
          cases p with
          | nil =>
              cases rest with
              | nil =>
                  rw [removeAt] at h
                  rcases hf : findC cs n with _ | c
                  · rw [hf] at h; cases h
                  · rw [hf] at h
                    dsimp only at h
                    by_cases hrem : removable c = true
                    · rw [if_pos hrem] at h
                      injection h with h2
                      subst h2
                      exact ⟨mt, sz, cs, eraseC cs n, by rw [statT_nil], by rw [statT_nil]⟩
                    · rw [if_neg hrem] at h; cases h
              | cons m rest2 =>
                  rw [removeAt] at h
                  rcases hf : findC cs n with _ | c
                  · rw [hf] at h; cases h
                  · rw [hf] at h
                    dsimp only at h
                    rcases hr : removeAt c (m :: rest2) with _ | c'
                    · rw [hr] at h; cases h
                    · rw [hr] at h
                      injection h with h2
                      subst h2
                      exact ⟨mt, sz, cs, replaceC cs n c', by rw [statT_nil], by rw [statT_nil]⟩
          | cons k p' =>
              obtain ⟨hkn, hp'⟩ := (isUnder_cons_iff k n p' rest).mp hp
              subst hkn
              have hne' : p' ≠ rest := fun he => hne (by rw [he])
              cases rest with
              | nil =>
                  obtain ⟨r, hr⟩ := hp'
                  have hp0 : p' = [] := by
                    cases p' with
                    | nil => rfl
                    | cons a b => cases hr
                  exact absurd hp0 hne'
              | cons m rest2 =>
                  rw [removeAt] at h
                  rcases hf : findC cs k with _ | c
                  · rw [hf] at h; cases h
                  · rw [hf] at h
                    dsimp only at h
                    rcases hr : removeAt c (m :: rest2) with _ | c'
                    · rw [hr] at h; cases h
                    · rw [hr] at h
                      injection h with h2
                      subst h2
                      obtain ⟨mt1, sz1, cs1, cs1', h1, h2⟩ := ih c c' hr p' hp' hne'
                      refine ⟨mt1, sz1, cs1, cs1', ?_, ?_⟩
                      · rw [statT, hf]
                        exact h1
                      · rw [statT, findC_replaceC_self cs k c c' hf]
                        exact h2

theorem removeEntry_found (T : Option FsTree) (q : Path) (T' : Option FsTree)
    (h : removeEntry T q = some T') : ∃ e, statR T q = .found e ∧ removable e = true := by
  cases T with
  | none => rw [removeEntry] at h; cases h
  | some t =>
      cases q with
      | nil =>
          rw [removeEntry] at h
          by_cases hrem : removable t = true
          · exact ⟨t, by rw [statR, statT_nil], hrem⟩
          · rw [if_neg hrem] at h; cases h
      | cons n rest =>
          rw [removeEntry] at h
          rcases hr : removeAt t (n :: rest) with _ | t''
          · rw [hr] at h; cases h
          · exact removeAt_found (n :: rest) t t'' hr

theorem removeEntry_success (T : Option FsTree) (q : Path) (e : FsTree)
    (h : statR T q = .found e) (hrem : removable e = true) :
    ∃ T', removeEntry T q = some T' := by
  cases T with
  | none => rw [statR] at h; cases h
  | some t =>
      cases q with
      | nil =>
          rw [statR, statT_nil] at h
          injection h with h2
          subst h2
          exact ⟨none, by rw [removeEntry, if_pos hrem]⟩
      | cons n rest =>
          obtain ⟨t', ht'⟩ := removeAt_success (n :: rest) t e (by simp) h hrem
          refine ⟨some t', ?_⟩
          rw [removeEntry, ht']
          rfl

theorem removeEntry_post (T : Option FsTree) (q : Path) (T' : Option FsTree)
    (h : removeEntry T q = some T') : statR T' q = .notExist := by
  cases T with
  | none => rw [removeEntry] at h; cases h
  | some t =>
      cases q with
      | nil =>
          rw [removeEntry] at h
          by_cases hrem : removable t = true
          · rw [if_pos hrem] at h
            injection h with h2
            subst h2
            rfl
          · rw [if_neg hrem] at h; cases h
      | cons n rest =>
          rw [removeEntry] at h
          rcases hr : removeAt t (n :: rest) with _ | t''
          · rw [hr] at h; cases h
          · rw [hr] at h
            injection h with h2
            subst h2
            exact removeAt_post (n :: rest) t t'' hr

theorem removeEntry_frame (T : Option FsTree) (q : Path) (T' : Option FsTree)
    (h : removeEntry T q = some T') (p : Path)
    (hp1 : ¬ isUnder q p) (hp2 : ¬ isUnder p q) : statR T' p = statR T p := by
  cases T with
  | none => rw [removeEntry] at h; cases h
  | some t =>
      cases q with
      | nil => exact absurd (isUnder_nil p) hp1
      | cons n rest =>
          rw [removeEntry] at h
          rcases hr : removeAt t (n :: rest) with _ | t''
          · rw [hr] at h; cases h
          · rw [hr] at h
            injection h with h2
            subst h2
            exact removeAt_frame (n :: rest) t t'' hr p hp1 hp2

theorem removeEntry_anc (T : Option FsTree) (q : Path) (T' : Option FsTree)
    (h : removeEntry T q = some T') (p : Path) (hp : isUnder p q) (hne : p ≠ q) :
    ∃ mt sz cs cs', statR T p = .found (.dir mt sz cs) ∧ statR T' p = .found (.dir mt sz cs') := by
  cases T with
  | none => rw [removeEntry] at h; cases h
  | some t =>
      cases q with
      | nil =>
          obtain ⟨r, hr⟩ := hp
          have hp0 : p = [] := by
            cases p with
            | nil => rfl
            | cons a b => cases hr
          exact absurd hp0 hne
      | cons n rest =>
          rw [removeEntry] at h
          rcases hr : removeAt t (n :: rest) with _ | t''
          · rw [hr] at h; cases h
          · rw [hr] at h
            injection h with h2
            subst h2
            exact removeAt_anc (n :: rest) t t'' hr p hp hne

theorem removeEntry_keeps_notExist (T : Option FsTree) (q : Path) (T' : Option FsTree)
    (p : Path) (h : removeEntry T q = some T') (hp : statR T p = .notExist) :
    statR T' p = .notExist := by
  by_cases h1 : isUnder q p
  · obtain ⟨r, hr⟩ := h1
    subst hr
    exact statR_notExist_below q r T' (removeEntry_post T q T' h)
  · by_cases h2 : isUnder p q
    · obtain ⟨r, hr⟩ := h2
      subst hr
      obtain ⟨e, he, _⟩ := removeEntry_found T (p ++ r) T' h
      rw [statR_append, hp] at he
      cases he
    · rw [removeEntry_frame T q T' h p h1 h2]
      exact hp

theorem removeEntry_keeps_removable (T : Option FsTree) (q : Path) (T' : Option FsTree)
    (p : Path) (e' : FsTree) (h : removeEntry T q = some T') (hne : p ≠ q)
    (hrem : removable e' = true) (hp : statR T p = .found e') : statR T' p = .found e' := by
  by_cases h1 : isUnder q p
  · obtain ⟨r, hr⟩ := h1
    subst hr
    have hrne : r ≠ [] := fun hr0 => hne (by rw [hr0]; simp)
    obtain ⟨e, he, hrm⟩ := removeEntry_found T q T' h
    rw [statR_append, he] at hp
    dsimp only at hp
    cases e with
    | file fmt fc =>
        cases r with
        | nil => exact absurd rfl hrne
        | cons x r' => rw [statT] at hp; cases hp
    | dir dmt dsz dcs =>
        cases dcs with
        | nil =>
            cases r with
            | nil => exact absurd rfl hrne
            | cons x r' => rw [statT] at hp; cases hp
        | cons c0 dcs' => rw [removable] at hrm; cases hrm
  · by_cases h2 : isUnder p q
    · obtain ⟨r, hr⟩ := h2
      subst hr
      have hrne : r ≠ [] := fun hr0 => hne (by rw [hr0]; simp)
      obtain ⟨e, he, hrm⟩ := removeEntry_found T (p ++ r) T' h
      rw [statR_append, hp] at he
      dsimp only at he
      cases e' with
      | file fmt fc =>
          cases r with
          | nil => exact absurd rfl hrne
          | cons x r' => rw [statT] at he; cases he
      | dir dmt dsz dcs =>
          cases dcs with
          | nil =>
              cases r with
              | nil => exact absurd rfl hrne
              | cons x r' => rw [statT] at he; cases he
          | cons c0 dcs' => rw [removable] at hrem; cases hrem
    · rw [removeEntry_frame T q T' h p h1 h2]
      exact hp

theorem removeEntry_backfound (T : Option FsTree) (q : Path) (T' : Option FsTree)
    (p : Path) (e : FsTree) (h : removeEntry T q = some T') (hp : statR T' p = .found e) :
    ∃ e0, statR T p = .found e0 := by
  by_cases h1 : isUnder q p
  · obtain ⟨r, hr⟩ := h1
    subst hr
    have h3 := statR_notExist_below q r T' (removeEntry_post T q T' h)
    rw [h3] at hp
    cases hp
  · by_cases h2 : isUnder p q
    · have hne : p ≠ q := fun he => h1 (by rw [he]; exact isUnder_refl q)
      obtain ⟨mt, sz, cs, cs', h3, h4⟩ := removeEntry_anc T q T' h p h2 hne
      exact ⟨_, h3⟩
    · rw [removeEntry_frame T q T' h p h1 h2] at hp
      exact ⟨e, hp⟩

theorem isUnder_length (a b : Path) (h : isUnder a b) : a.length ≤ b.length := by
  obtain ⟨r, hr⟩ := h
  subst hr
  simp

theorem isUnder_dropLast (q : Path) (h : q ≠ []) : isUnder q.dropLast q :=
  ⟨[q.getLast h], (List.dropLast_append_getLast h).symm⟩

theorem not_isUnder_dropLast (q : Path) (h : q ≠ []) : ¬ isUnder q q.dropLast := by
  intro hc
  have h1 := isUnder_length q q.dropLast hc
  have h2 : q.dropLast.length = q.length - 1 := List.length_dropLast q
  have h3 : 0 < q.length := List.length_pos.mpr h
  omega

theorem mkChain_frame (p q : Path) (hp : ¬ isUnder p q) : statT (mkChain q) p = .notExist := by
  induction p generalizing q with
  | nil => exact absurd (isUnder_nil q) hp
  | cons x p'' ih =>
      cases q with
      | nil =>
          rw [mkChain, statT]
          rfl
      | cons y q' =>
          rw [mkChain, statT]
          by_cases hxy : y = x
          · subst hxy
            have hf : findC [(y, mkChain q')] y = some (mkChain q') := by
              rw [findC, if_pos rfl]
            rw [hf]
            exact ih q' (fun hc => hp ((isUnder_cons_iff y y p'' q').mpr ⟨rfl, hc⟩))
          · have hf : findC [(y, mkChain q')] x = none := by
              rw [findC, if_neg hxy, findC]
            rw [hf]

theorem mkChain_post (q : Path) : ∃ mt sz cs, statT (mkChain q) q = .found (.dir mt sz cs) := by
  induction q with
  | nil => exact ⟨createdMTime, 0, [], by rw [mkChain, statT_nil]⟩
  | cons y q' ih =>
      obtain ⟨mt, sz, cs, h⟩ := ih
      refine ⟨mt, sz, cs, ?_⟩
      rw [mkChain, statT]
      have hf : findC [(y, mkChain q')] y = some (mkChain q') := by
        rw [findC, if_pos rfl]
      rw [hf]
      exact h

theorem mkdirT_post (q : Path) (t t' : FsTree) (h : mkdirT t q = some t') :
    ∃ mt sz cs, statT t' q = .found (.dir mt sz cs) := by
  induction q generalizing t t' with
  | nil =>
      cases t with
      | file mt c => rw [mkdirT] at h; cases h
      | dir mt sz cs =>
          rw [mkdirT] at h
          injection h with h2
          subst h2
          exact ⟨mt, sz, cs, by rw [statT_nil]⟩
  | cons n rest ih =>
      cases t with
      | file mt c => rw [mkdirT] at h; cases h
      | dir mt sz cs =>
          rw [mkdirT] at h
          rcases hf : findC cs n with _ | c
          · rw [hf] at h
            dsimp only at h
            injection h with h2
            subst h2
            obtain ⟨mt1, sz1, cs1, h1⟩ := mkChain_post rest
            refine ⟨mt1, sz1, cs1, ?_⟩
            rw [statT, findC_append, hf]
            dsimp only
            rw [findC, if_pos rfl]
            exact h1
          · rw [hf] at h
            dsimp only at h
            rcases hm : mkdirT c rest with _ | c'
            · rw [hm] at h; cases h
            · rw [hm] at h
              injection h with h2
              subst h2
              obtain ⟨mt1, sz1, cs1, h1⟩ := ih c c' hm
              refine ⟨mt1, sz1, cs1, ?_⟩
              rw [statT, findC_replaceC_self cs n c c' hf]
              exact h1

theorem mkdirT_frame (q : Path) (t t' : FsTree) (h : mkdirT t q = some t') (p : Path)
    (hp : ¬ isUnder p q) : statT t' p = statT t p := by
  induction q generalizing t t' p with
  | nil =>
      cases t with
      | file mt c => rw [mkdirT] at h; cases h
      | dir mt sz cs =>
          rw [mkdirT] at h
          injection h with h2
          subst h2
          rfl
  | cons n rest ih =>
      cases t with
      | file mt c => rw [mkdirT] at h; cases h
      | dir mt sz cs =>
          cases p with
          | nil => exact absurd (isUnder_nil (n :: rest)) hp
          | cons k p' =>
              rw [mkdirT] at h
              rcases hf : findC cs n with _ | c
              · rw [hf] at h
                dsimp only at h
                injection h with h2
                subst h2
                by_cases hk : n = k
                · subst hk
                  have hp' : ¬ isUnder p' rest :=
                    fun hc => hp ((isUnder_cons_iff n n p' rest).mpr ⟨rfl, hc⟩)
                  rw [statT, statT, findC_append, hf]
                  dsimp only
                  rw [findC, if_pos rfl]
                  exact mkChain_frame p' rest hp'
                · have hkn : n ≠ k := hk
                  rw [statT, statT, findC_append]
                  rw [findC, if_neg hkn, findC]
                  rcases hfk : findC cs k with _ | c <;> rfl
              · rw [hf] at h
                dsimp only at h
                rcases hm : mkdirT c rest with _ | c'
                · rw [hm] at h; cases h
                · rw [hm] at h
                  injection h with h2
                  subst h2
                  by_cases hk : n = k
                  · subst hk
                    have hp' : ¬ isUnder p' rest :=
                      fun hc => hp ((isUnder_cons_iff n n p' rest).mpr ⟨rfl, hc⟩)
                    rw [statT, statT, findC_replaceC_self cs n c c' hf, hf]
                    exact ih c c' hm p' hp'
                  · have hkn : k ≠ n := fun he => hk he.symm
                    rw [statT, statT, findC_replaceC_other cs n k c' hkn]

theorem mkdirT_pre (q : Path) (t t' : FsTree) (h : mkdirT t q = some t') :
    statT t q = .notExist ∨ ∃ mt sz cs, statT t q = .found (.dir mt sz cs) := by
  induction q generalizing t t' with
  | nil =>
      cases t with
      | file mt c => rw [mkdirT] at h; cases h
      | dir mt sz cs => exact Or.inr ⟨mt, sz, cs, by rw [statT_nil]⟩
  | cons n rest ih =>
      cases t with
      | file mt c => rw [mkdirT] at h; cases h
      | dir mt sz cs =>
          rw [mkdirT] at h
          rcases hf : findC cs n with _ | c
          · rw [statT, hf]
            exact Or.inl rfl
          · rw [hf] at h
            dsimp only at h
            rcases hm : mkdirT c rest with _ | c'
            · rw [hm] at h; cases h
            · rcases ih c c' hm with h1 | ⟨mt1, sz1, cs1, h1⟩
              · refine Or.inl ?_
                rw [statT, hf]
                exact h1
              · refine Or.inr ⟨mt1, sz1, cs1, ?_⟩
                rw [statT, hf]
                exact h1

theorem mkdirT_anti (q : Path) (t t' : FsTree) (h : mkdirT t q = some t') (p : Path)
    (hp : statT t' p = .notExist) : statT t p = .notExist := by
  induction q generalizing t t' p with
  | nil =>
      cases t with
      | file mt c => rw [mkdirT] at h; cases h
      | dir mt sz cs =>
          rw [mkdirT] at h
          injection h with h2
          subst h2
          exact hp
  | cons n rest ih =>
      cases t with
      | file mt c => rw [mkdirT] at h; cases h
      | dir mt sz cs =>
          cases p with
          | nil => rw [statT_nil] at hp; cases hp
          | cons k p' =>
              rw [mkdirT] at h
              rcases hf : findC cs n with _ | c
              · rw [hf] at h
                dsimp only at h
                injection h with h2
                subst h2
                by_cases hk : n = k
                · subst hk
                  rw [statT, hf]
                · have hkn : n ≠ k := hk
                  rw [statT, findC_append] at hp
                  rw [findC, if_neg hkn, findC] at hp
                  rw [statT]
                  rcases hfk : findC cs k with _ | c
                  · rfl
                  · rw [hfk] at hp
                    exact hp
              · rw [hf] at h
                dsimp only at h
                rcases hm : mkdirT c rest with _ | c'
                · rw [hm] at h; cases h
                · rw [hm] at h
                  injection h with h2
                  subst h2
                  by_cases hk : n = k
                  · subst hk
                    rw [statT, findC_replaceC_self cs n c c' hf] at hp
                    rw [statT, hf]
                    exact ih c c' hm p' hp
                  · have hkn : k ≠ n := fun he => hk he.symm
                    rw [statT, findC_replaceC_other cs n k c' hkn] at hp
                    rw [statT]
                    exact hp

theorem mkdirAll_post (q : Path) (T : Option FsTree) (t' : FsTree) (h : mkdirAll T q = some t') :
    ∃ mt sz cs, statR (some t') q = .found (.dir mt sz cs) := by
  cases T with
  | none =>
      rw [mkdirAll] at h
      injection h with h2
      subst h2
      exact mkChain_post q
  | some t => exact mkdirT_post q t t' h

theorem mkdirAll_frame (q : Path) (T : Option FsTree) (t' : FsTree) (h : mkdirAll T q = some t')
    (p : Path) (hp : ¬ isUnder p q) : statR (some t') p = statR T p := by
  cases T with
  | none =>
      rw [mkdirAll] at h
      injection h with h2
      subst h2
      rw [statR, statR]
      exact mkChain_frame p q hp
  | some t => exact mkdirT_frame q t t' h p hp

theorem mkdirAll_pre (q : Path) (T : Option FsTree) (t' : FsTree) (h : mkdirAll T q = some t') :
    statR T q = .notExist ∨ ∃ mt sz cs, statR T q = .found (.dir mt sz cs) := by
  cases T with
  | none => exact Or.inl rfl
  | some t => exact mkdirT_pre q t t' h

theorem mkdirAll_anti (q : Path) (T : Option FsTree) (t' : FsTree) (h : mkdirAll T q = some t')
    (p : Path) (hp : statR (some t') p = .notExist) : statR T p = .notExist := by
  cases T with
  | none => rfl
  | some t => exact mkdirT_anti q t t' h p hp

theorem createT_post (p : Path) (t : FsTree) (content : List Nat) (t2 : FsTree)
    (h : createT t p content = some t2) : statT t2 p = .found (.file createdMTime content) := by
  induction p generalizing t t2 with
  | nil =>
      cases t with
      | file fmt fc =>
          rw [createT] at h
          injection h with h2
          subst h2
          rfl
      | dir mt sz cs => rw [createT] at h; cases h
  | cons n rest ih =>
      cases t with
      | file fmt fc => rw [createT] at h; cases h
      | dir mt sz cs =>
          cases rest with
          | nil =>
              rw [createT] at h
              rcases hf : findC cs n with _ | ch
              · rw [hf] at h
                dsimp only at h
                injection h with h2
                subst h2
                rw [statT, findC_append]
                rw [hf]
                simp [findC, statT]
              · rw [hf] at h
                dsimp only at h
                rcases hc : createT ch [] content with _ | ch'
                · rw [hc] at h; cases h
                · rw [hc] at h
                  injection h with h2
                  subst h2
                  rw [statT, findC_replaceC_self cs n ch ch' hf]
                  exact ih ch ch' hc
          | cons m rest2 =>
              rw [createT] at h
              rcases hf : findC cs n with _ | ch
              · rw [hf] at h; cases h
              · rw [hf] at h
                dsimp only at h
                rcases hc : createT ch (m :: rest2) content with _ | ch'
                · rw [hc] at h; cases h
                · rw [hc] at h
                  injection h with h2
                  subst h2
                  rw [statT, findC_replaceC_self cs n ch ch' hf]
                  exact ih ch ch' hc

theorem createWrite_post (tgt : Option FsTree) (p : Path) (content : List Nat)
    (t2 : Option FsTree) (h : createWrite tgt p content = some t2) :
    statR t2 p = .found (.file createdMTime content) := by
  cases tgt with
  | none =>
      cases p with
      | nil =>
          rw [createWrite] at h
          injection h with h2
          subst h2
          rfl
      | cons n rest => rw [createWrite] at h; cases h
  | some t =>
      rw [createWrite] at h
      rcases hc : createT t p content with _ | t2'
      · rw [hc] at h; cases h
      · rw [hc] at h
        injection h with h2
        subst h2
        exact createT_post p t content t2' hc

theorem chtimesT_post (p : Path) (t : FsTree) (mt fmt : Int) (fc : List Nat)
    (h : statT t p = .found (.file fmt fc)) :
    statT (chtimesT t p mt) p = .found (.file mt fc) := by
  induction p generalizing t with
  | nil =>
      cases t with
      | file fmt0 fc0 =>
          rw [statT] at h
          injection h with h2
          injection h2 with h3 h4
          subst h3; subst h4
          rfl
      | dir mt0 sz cs => rw [statT] at h; cases h
  | cons n rest ih =>
      cases t with
      | file fmt0 fc0 => rw [statT] at h; cases h
      | dir mt0 sz cs =>
          rw [statT] at h
          rcases hf : findC cs n with _ | ch
          · rw [hf] at h; cases h
          · rw [hf] at h
            rw [chtimesT, hf, statT, findC_replaceC_self cs n ch (chtimesT ch rest mt) hf]
            exact ih ch h

theorem chtimes_post (tgt : Option FsTree) (p : Path) (mt fmt : Int) (fc : List Nat)
    (h : statR tgt p = .found (.file fmt fc)) :
    statR (chtimes tgt p mt) p = .found (.file mt fc) := by
  cases tgt with
  | none => rw [statR] at h; cases h
  | some t => exact chtimesT_post p t mt fmt fc h

theorem createT_pre (q : Path) (t : FsTree) (content : List Nat) (t2 : FsTree)
    (h : createT t q content = some t2) :
    statT t q = .notExist ∨ ∃ fmt fc, statT t q = .found (.file fmt fc) := by
  induction q generalizing t t2 with
  | nil =>
      cases t with
      | file fmt fc => exact Or.inr ⟨fmt, fc, by rw [statT_nil]⟩
      | dir mt sz cs => rw [createT] at h; cases h
  | cons n rest ih =>
      cases t with
      | file fmt fc => rw [createT] at h; cases h
      | dir mt sz cs =>
          cases rest with
          | nil =>
              rw [createT] at h
              rcases hf : findC cs n with _ | ch
              · refine Or.inl ?_
                rw [statT, hf]
              · rw [hf] at h
                dsimp only at h
                rcases hc : createT ch [] content with _ | ch'
                · rw [hc] at h; cases h
                · rcases ih ch ch' hc with h1 | ⟨fmt, fc, h1⟩
                  · refine Or.inl ?_
                    rw [statT, hf]
                    exact h1
                  · refine Or.inr ⟨fmt, fc, ?_⟩
                    rw [statT, hf]
                    exact h1
          | cons m rest2 =>
              rw [createT] at h
              rcases hf : findC cs n with _ | ch
              · rw [hf] at h; cases h
              · rw [hf] at h
                dsimp only at h
                rcases hc : createT ch (m :: rest2) content with _ | ch'
                · rw [hc] at h; cases h
                · rcases ih ch ch' hc with h1 | ⟨fmt, fc, h1⟩
                  · refine Or.inl ?_
                    rw [statT, hf]
                    exact h1
                  · refine Or.inr ⟨fmt, fc, ?_⟩
                    rw [statT, hf]
                    exact h1

theorem createT_frame (q : Path) (t : FsTree) (content : List Nat) (t2 : FsTree)
    (h : createT t q content = some t2) (p : Path)
    (hp1 : ¬ isUnder p q) (hp2 : ¬ isUnder q p) : statT t2 p = statT t p := by
  induction q generalizing t t2 p with
  | nil => exact absurd (isUnder_nil p) hp2
  | cons n rest ih =>
      cases t with
      | file fmt fc => rw [createT] at h; cases h
      | dir mt sz cs =>
          cases p with
          | nil => exact absurd (isUnder_nil (n :: rest)) hp1
          | cons k p' =>
              by_cases hk : n = k
              · subst hk
                have hp2' : ¬ isUnder rest p' :=
                  fun hc => hp2 ((isUnder_cons_iff n n rest p').mpr ⟨rfl, hc⟩)
                have hp1' : ¬ isUnder p' rest :=
                  fun hc => hp1 ((isUnder_cons_iff n n p' rest).mpr ⟨rfl, hc⟩)
                cases rest with
                | nil => exact absurd (isUnder_nil p') hp2'
                | cons m rest2 =>
                    rw [createT] at h
                    rcases hf : findC cs n with _ | ch
                    · rw [hf] at h; cases h
                    · rw [hf] at h
                      dsimp only at h
                      rcases hc : createT ch (m :: rest2) content with _ | ch'
                      · rw [hc] at h; cases h
                      · rw [hc] at h
                        injection h with h2
                        subst h2
                        rw [statT, statT, findC_replaceC_self cs n ch ch' hf, hf]
                        exact ih ch ch' hc p' hp1' hp2'
              · have hkn : k ≠ n := fun he => hk he.symm
                cases rest with
                | nil =>
                    rw [createT] at h
                    rcases hf : findC cs n with _ | ch
                    · rw [hf] at h
                      dsimp only at h
                      injection h with h2
                      subst h2
                      rw [statT, statT, findC_append]
                      rw [findC, if_neg hk, findC]
                      rcases hfk : findC cs k with _ | cc <;> rfl
                    · rw [hf] at h
                      dsimp only at h
                      rcases hc : createT ch [] content with _ | ch'
                      · rw [hc] at h; cases h
                      · rw [hc] at h
                        injection h with h2
                        subst h2
                        rw [statT, statT, findC_replaceC_other cs n k ch' hkn]
                | cons m rest2 =>
                    rw [createT] at h
                    rcases hf : findC cs n with _ | ch
                    · rw [hf] at h; cases h
                    · rw [hf] at h
                      dsimp only at h
                      rcases hc : createT ch (m :: rest2) content with _ | ch'
                      · rw [hc] at h; cases h
                      · rw [hc] at h
                        injection h with h2
                        subst h2
                        rw [statT, statT, findC_replaceC_other cs n k ch' hkn]

theorem createT_anti (q : Path) (t : FsTree) (content : List Nat) (t2 : FsTree)
    (h : createT t q content = some t2) (p : Path)
    (hp : statT t2 p = .notExist) : statT t p = .notExist := by
  induction q generalizing t t2 p with
  | nil =>
      cases t with
      | file fmt fc =>
          rw [createT] at h
          injection h with h2
          subst h2
          cases p with
          | nil => rw [statT_nil] at hp; cases hp
          | cons x p' => rw [statT] at hp; cases hp
      | dir mt sz cs => rw [createT] at h; cases h
  | cons n rest ih =>
      cases t with
      | file fmt fc => rw [createT] at h; cases h
      | dir mt sz cs =>
          cases p with
          | nil => rw [statT_nil] at hp; cases hp
          | cons k p' =>
              cases rest with
              | nil =>
                  rw [createT] at h
                  rcases hf : findC cs n with _ | ch
                  · rw [hf] at h
                    dsimp only at h
                    injection h with h2
                    subst h2
                    by_cases hk : n = k
                    · subst hk
                      rw [statT, findC_append, hf] at hp
                      dsimp only at hp
                      rw [findC, if_pos rfl] at hp
                      dsimp only at hp
                      cases p' with
                      | nil => rw [statT_nil] at hp; cases hp
                      | cons x p'' => rw [statT] at hp; cases hp
                    · rw [statT, findC_append] at hp
                      rw [findC, if_neg hk, findC] at hp
                      rw [statT]
                      rcases hfk : findC cs k with _ | cc
                      · rfl
                      · rw [hfk] at hp
                        exact hp
                  · rw [hf] at h
                    dsimp only at h
                    rcases hc : createT ch [] content with _ | ch'
                    · rw [hc] at h; cases h
                    · rw [hc] at h
                      injection h with h2
                      subst h2
                      by_cases hk : n = k
                      · subst hk
                        rw [statT, findC_replaceC_self cs n ch ch' hf] at hp
                        rw [statT, hf]
                        exact ih ch ch' hc p' hp
                      · have hkn : k ≠ n := fun he => hk he.symm
                        rw [statT, findC_replaceC_other cs n k ch' hkn] at hp
                        rw [statT]
                        exact hp
              | cons m rest2 =>
                  rw [createT] at h
                  rcases hf : findC cs n with _ | ch
                  · rw [hf] at h; cases h
                  · rw [hf] at h
                    dsimp only at h
                    rcases hc : createT ch (m :: rest2) content with _ | ch'
                    · rw [hc] at h; cases h
                    · rw [hc] at h
                      injection h with h2
                      subst h2
                      by_cases hk : n = k
                      · subst hk
                        rw [statT, findC_replaceC_self cs n ch ch' hf] at hp
                        rw [statT, hf]
                        exact ih ch ch' hc p' hp
                      · have hkn : k ≠ n := fun he => hk he.symm
                        rw [statT, findC_replaceC_other cs n k ch' hkn] at hp
                        rw [statT]
                        exact hp

theorem createWrite_pre (q : Path) (T : Option FsTree) (content : List Nat)
    (T' : Option FsTree) (h : createWrite T q content = some T') :
    statR T q = .notExist ∨ ∃ fmt fc, statR T q = .found (.file fmt fc) := by
  cases T with
  | none => exact Or.inl rfl
  | some t =>
      rw [createWrite] at h
      rcases hc : createT t q content with _ | t2'
      · rw [hc] at h; cases h
      · exact createT_pre q t content t2' hc

theorem createWrite_frame (q : Path) (T : Option FsTree) (content : List Nat)
    (T' : Option FsTree) (h : createWrite T q content = some T') (p : Path)
    (hp1 : ¬ isUnder p q) (hp2 : ¬ isUnder q p) : statR T' p = statR T p := by
  cases T with
  | none =>
      cases q with
      | nil => exact absurd (isUnder_nil p) hp2
      | cons n rest => rw [createWrite] at h; cases h
  | some t =>
      rw [createWrite] at h
      rcases hc : createT t q content with _ | t2'
      · rw [hc] at h; cases h
      · rw [hc] at h
        injection h with h2
        subst h2
        exact createT_frame q t content t2' hc p hp1 hp2

theorem createWrite_anti (q : Path) (T : Option FsTree) (content : List Nat)
    (T' : Option FsTree) (h : createWrite T q content = some T') (p : Path)
    (hp : statR T' p = .notExist) : statR T p = .notExist := by
  cases T with
  | none => rfl
  | some t =>
      rw [createWrite] at h
      rcases hc : createT t q content with _ | t2'
      · rw [hc] at h; cases h
      · rw [hc] at h
        injection h with h2
        subst h2
        exact createT_anti q t content t2' hc p hp

theorem chtimesT_frame (q : Path) (t : FsTree) (mt : Int) (p : Path)
    (hp1 : ¬ isUnder p q) (hp2 : ¬ isUnder q p) :
    statT (chtimesT t q mt) p = statT t p := by
  induction q generalizing t p with
  | nil => exact absurd (isUnder_nil p) hp2
  | cons n rest ih =>
      cases t with
      | file fmt fc => rw [chtimesT]
      | dir mt0 sz cs =>
          rw [chtimesT]
          rcases hf : findC cs n with _ | ch
          · rfl
          · cases p with
            | nil => exact absurd (isUnder_nil (n :: rest)) hp1
            | cons k p' =>
                by_cases hk : n = k
                · subst hk
                  have hp1' : ¬ isUnder p' rest :=
                    fun hc => hp1 ((isUnder_cons_iff n n p' rest).mpr ⟨rfl, hc⟩)
                  have hp2' : ¬ isUnder rest p' :=
                    fun hc => hp2 ((isUnder_cons_iff n n rest p').mpr ⟨rfl, hc⟩)
                  rw [statT, statT, findC_replaceC_self cs n ch (chtimesT ch rest mt) hf, hf]
                  exact ih ch p' hp1' hp2'
                · have hkn : k ≠ n := fun he => hk he.symm
                  rw [statT, statT, findC_replaceC_other cs n k (chtimesT ch rest mt) hkn]

theorem chtimesT_anti (q : Path) (t : FsTree) (mt : Int) (p : Path)
    (hp : statT (chtimesT t q mt) p = .notExist) : statT t p = .notExist := by
  induction q generalizing t p with
  | nil =>
      cases t with
      | file fmt fc =>
          rw [chtimesT] at hp
          cases p with
          | nil => rw [statT_nil] at hp; cases hp
          | cons x p' => rw [statT] at hp; cases hp
      | dir mt0 sz cs =>
          rw [chtimesT] at hp
          cases p with
          | nil => rw [statT_nil] at hp; cases hp
          | cons k p' =>
              rw [statT] at hp
              rw [statT]
              exact hp
  | cons n rest ih =>
      cases t with
      | file fmt fc =>
          rw [chtimesT] at hp
          exact hp
      | dir mt0 sz cs =>
          rw [chtimesT] at hp
          rcases hf : findC cs n with _ | ch
          · rw [hf] at hp
            exact hp
          · rw [hf] at hp
            cases p with
            | nil => rw [statT_nil] at hp; cases hp
            | cons k p' =>
                by_cases hk : n = k
                · subst hk
                  rw [statT, findC_replaceC_self cs n ch (chtimesT ch rest mt) hf] at hp
                  rw [statT, hf]
                  exact ih ch p' hp
                · have hkn : k ≠ n := fun he => hk he.symm
                  rw [statT, findC_replaceC_other cs n k (chtimesT ch rest mt) hkn] at hp
                  rw [statT]
                  exact hp

theorem chtimes_frame (q : Path) (T : Option FsTree) (mt : Int) (p : Path)
    (hp1 : ¬ isUnder p q) (hp2 : ¬ isUnder q p) : statR (chtimes T q mt) p = statR T p := by
  cases T with
  | none => rfl
  | some t => exact chtimesT_frame q t mt p hp1 hp2

theorem chtimes_anti (q : Path) (T : Option FsTree) (mt : Int) (p : Path)
    (hp : statR (chtimes T q mt) p = .notExist) : statR T p = .notExist := by
  cases T with
  | none => rfl
  | some t => exact chtimesT_anti q t mt p hp

/-- Postcondition of a successful copyFile: when the source stat delivers a
file with modification time mt and the given content, the target ends up
with exactly that content and that modification time at the destination
path (the mtime is the one read fresh from the source inside copyFile). -/
theorem copyFile_post (oracle : Oracle) (src tgt : Option FsTree) (p : Path) (mt : Int)
    (content : List Nat) (t' : Option FsTree)
    (hfail : oracle.srcStatFails p = false)
    (hsrc : statR src p = .found (.file mt content))
    (h : copyFile oracle src tgt p p = some t') :
    statR t' p = .found (.file mt content) := by
  unfold copyFile at h
  rcases hmk : (match p with
      | [] => some tgt
      | _ :: _ => (mkdirAll tgt p.dropLast).map some) with _ | t1
  · rw [hmk] at h; cases h
  · rw [hmk] at h
    dsimp only at h
    rw [hsrc] at h
    dsimp only at h
    rcases hcw : createWrite t1 p content with _ | t2
    · rw [hcw] at h; cases h
    · rw [hcw] at h
      dsimp only at h
      rw [hfail] at h
      simp only [Bool.false_eq_true, if_false] at h
      injection h with h2
      subst h2
      have hpost := createWrite_post t1 p content t2 hcw
      exact chtimes_post t2 p mt createdMTime content hpost

/-- Decomposition of a successful copyFile into its three stages. -/
theorem copyFile_decomp (oracle : Oracle) (src T : Option FsTree) (p : Path) (T' : Option FsTree)
    (h : copyFile oracle src T p p = some T') :
    ∃ t1 content t2, (match p with
        | [] => some T
        | _ :: _ => (mkdirAll T p.dropLast).map some) = some t1 ∧
      createWrite t1 p content = some t2 ∧
      (T' = t2 ∨ ∃ mt, T' = chtimes t2 p mt) := by
  unfold copyFile at h
  rcases hmk : (match p with
      | [] => some T
      | _ :: _ => (mkdirAll T p.dropLast).map some) with _ | t1
  · rw [hmk] at h; cases h
  · rw [hmk] at h
    dsimp only at h
    rcases hsrc : statR src p with e | _ | _
    · rw [hsrc] at h
      cases e with
      | file fmt fc =>
          dsimp only at h
          rcases hcw : createWrite t1 p fc with _ | t2
          · rw [hcw] at h; cases h
          · rw [hcw] at h
            dsimp only at h
            by_cases hfail : oracle.srcStatFails p = true
            · rw [if_pos hfail] at h
              injection h with h2
              exact ⟨t1, fc, t2, hmk, hcw, Or.inl h2.symm⟩
            · rw [if_neg hfail] at h
              injection h with h2
              exact ⟨t1, fc, t2, hmk, hcw, Or.inr ⟨fmt, h2.symm⟩⟩
      | dir dmt dsz dcs => cases h
    · rw [hsrc] at h; cases h
    · rw [hsrc] at h; cases h

theorem copyFile_frame (oracle : Oracle) (src T : Option FsTree) (p : Path) (T' : Option FsTree)
    (h : copyFile oracle src T p p = some T') (p' : Path)
    (hp1 : ¬ isUnder p' p) (hp2 : ¬ isUnder p p') : statR T' p' = statR T p' := by
  obtain ⟨t1, content, t2, hmk, hcw, hT'⟩ := copyFile_decomp oracle src T p T' h
  have h1 : statR t1 p' = statR T p' := by
    cases p with
    | nil =>
        injection hmk with h2
        rw [h2]
    | cons n rest =>
        rcases hm : mkdirAll T (n :: rest).dropLast with _ | t1m
        · rw [hm] at hmk; cases hmk
        · rw [hm] at hmk
          injection hmk with h2
          subst h2
          refine mkdirAll_frame _ T t1m hm p' ?_
          intro hc
          exact hp1 (isUnder_trans p' (n :: rest).dropLast (n :: rest) hc
            (isUnder_dropLast (n :: rest) (by simp)))
  have h2 : statR t2 p' = statR t1 p' := createWrite_frame p t1 content t2 hcw p' hp1 hp2
  rcases hT' with h3 | ⟨mt, h3⟩
  · rw [h3, h2, h1]
  · rw [h3, chtimes_frame p t2 mt p' hp1 hp2, h2, h1]

theorem copyFile_anti (oracle : Oracle) (src T : Option FsTree) (p : Path) (T' : Option FsTree)
    (h : copyFile oracle src T p p = some T') (p' : Path)
    (hp : statR T' p' = .notExist) : statR T p' = .notExist := by
  obtain ⟨t1, content, t2, hmk, hcw, hT'⟩ := copyFile_decomp oracle src T p T' h
  have h2 : statR t2 p' = .notExist := by
    rcases hT' with h3 | ⟨mt, h3⟩
    · rw [h3] at hp; exact hp
    · rw [h3] at hp
      exact chtimes_anti p t2 mt p' hp
  have h1 : statR t1 p' = .notExist := createWrite_anti p t1 content t2 hcw p' h2
  cases p with
  | nil =>
      injection hmk with h3
      rw [h3]
      exact h1
  | cons n rest =>
      rcases hm : mkdirAll T (n :: rest).dropLast with _ | t1m
      · rw [hm] at hmk; cases hmk
      · rw [hm] at hmk
        injection hmk with h3
        subst h3
        exact mkdirAll_anti _ T t1m hm p' h1

theorem copyFile_pre (oracle : Oracle) (src T : Option FsTree) (p : Path) (T' : Option FsTree)
    (h : copyFile oracle src T p p = some T') :
    statR T p = .notExist ∨ ∃ fmt fc, statR T p = .found (.file fmt fc) := by
  obtain ⟨t1, content, t2, hmk, hcw, hT'⟩ := copyFile_decomp oracle src T p T' h
  have hpre := createWrite_pre p t1 content t2 hcw
  have h1 : statR t1 p = statR T p := by
    cases p with
    | nil =>
        injection hmk with h2
        rw [h2]
    | cons n rest =>
        rcases hm : mkdirAll T (n :: rest).dropLast with _ | t1m
        · rw [hm] at hmk; cases hmk
        · rw [hm] at hmk
          injection hmk with h2
          subst h2
          exact mkdirAll_frame _ T t1m hm (n :: rest) (not_isUnder_dropLast (n :: rest) (by simp))
  rw [h1] at hpre
  exact hpre

/-! ### Step characterizations -/

theorem isUnder_snoc (p base : Path) (n : String) (h : isUnder p (base ++ [n])) :
    isUnder p base ∨ p = base ++ [n] := by
  obtain ⟨r, hr⟩ := h
  rcases List.eq_nil_or_concat r with h0 | ⟨r', x, h0⟩
  · subst h0
    right
    rw [hr]
    simp
  · rw [List.concat_eq_append] at h0
    subst h0
    left
    refine ⟨r', ?_⟩
    have h2 : (base ++ [n]).dropLast = (p ++ (r' ++ [x])).dropLast := by rw [hr]
    rw [List.dropLast_concat] at h2
    rw [← List.append_assoc, List.dropLast_concat] at h2
    exact h2

theorem cleanOps_snoc_false (a : List OpEvent) (e : OpEvent) (he : opFailed e = true) :
    cleanOps (a ++ [e]) = false := by
  rw [cleanOps_append]
  simp [cleanOps, he]

theorem syncFile_skip (oracle : Oracle) (src : Option FsTree) (p : Path) (mt : Int)
    (content : List Nat) (st : St) (t : FsTree)
    (hfail : oracle.srcStatFails p = false) (hstat : statR st.tgt p = .found t)
    (hsame : sameFile ⟨false, content.length, mt⟩ (infoOf t) = true) :
    syncFile oracle src p mt content st = (st, none) := by
  unfold syncFile
  rw [hfail]
  simp only [Bool.false_eq_true, if_false]
  rw [hstat]
  simp [hsame]

theorem syncFile_eq_fail (oracle : Oracle) (src : Option FsTree) (p : Path) (mt : Int)
    (content : List Nat) (st : St) (hfail : oracle.srcStatFails p = true) :
    syncFile oracle src p mt content st =
      ({ st with log := st.log ++ [.srcStatFailed p], ops := st.ops ++ [.statSrcFail p] }, none) := by
  unfold syncFile
  rw [if_pos hfail]

theorem syncFile_eq_copy_notExist (oracle : Oracle) (src : Option FsTree) (p : Path) (mt : Int)
    (content : List Nat) (st : St) (hfail : oracle.srcStatFails p = false)
    (hstat : statR st.tgt p = .notExist) :
    syncFile oracle src p mt content st = (doCopy oracle src p st, none) := by
  unfold syncFile
  rw [hfail]
  simp only [Bool.false_eq_true, if_false]
  rw [hstat]

theorem syncFile_eq_copy_diff (oracle : Oracle) (src : Option FsTree) (p : Path) (mt : Int)
    (content : List Nat) (st : St) (t : FsTree) (hfail : oracle.srcStatFails p = false)
    (hstat : statR st.tgt p = .found t)
    (hsame : sameFile ⟨false, content.length, mt⟩ (infoOf t) = false) :
    syncFile oracle src p mt content st = (doCopy oracle src p st, none) := by
  unfold syncFile
  rw [hfail]
  simp only [Bool.false_eq_true, if_false]
  rw [hstat]
  simp [hsame]

theorem syncFile_eq_err (oracle : Oracle) (src : Option FsTree) (p : Path) (mt : Int)
    (content : List Nat) (st : St) (hfail : oracle.srcStatFails p = false)
    (hstat : statR st.tgt p = .errOther) :
    syncFile oracle src p mt content st =
      ({ st with log := st.log ++ [.problemReading p], ops := st.ops ++ [.tgtStatProblem p] }, none) := by
  unfold syncFile
  rw [hfail]
  simp only [Bool.false_eq_true, if_false]
  rw [hstat]

theorem doCopy_eq_ok (oracle : Oracle) (src : Option FsTree) (p : Path) (st : St)
    (t' : Option FsTree) (hcf : copyFile oracle src st.tgt p p = some t') :
    doCopy oracle src p st =
      { st with tgt := t', log := st.log ++ [.copied p], ops := st.ops ++ [.copyOk p] } := by
  unfold doCopy
  rw [hcf]

theorem doCopy_eq_fail (oracle : Oracle) (src : Option FsTree) (p : Path) (st : St)
    (hcf : copyFile oracle src st.tgt p p = none) :
    doCopy oracle src p st =
      { st with log := st.log ++ [.copyFailed p], ops := st.ops ++ [.copyFail p] } := by
  unfold doCopy
  rw [hcf]

theorem syncDir_skip (p : Path) (st : St) (hstat : statR st.tgt p ≠ .notExist) :
    syncDir p st = (st, none) := by
  unfold syncDir
  rcases hs : statR st.tgt p with e | _ | _
  · rfl
  · exact absurd hs hstat
  · rfl

theorem syncDir_cases (p : Path) (st : St) :
    (syncDir p st).1.tgt = st.tgt ∨
    (∃ t', statR st.tgt p = .notExist ∧ mkdirAll st.tgt p = some t' ∧
      (syncDir p st).1.tgt = some t') := by
  unfold syncDir
  rcases hstat : statR st.tgt p with e | _ | _
  · exact Or.inl rfl
  · rcases hmk : mkdirAll st.tgt p with _ | t'
    · exact Or.inl rfl
    · exact Or.inr ⟨t', rfl, rfl, rfl⟩
  · exact Or.inl rfl

theorem syncDir_clean (p : Path) (st : St)
    (hclean : cleanOps ((syncDir p st).1.ops) = true) :
    statR (syncDir p st).1.tgt p ≠ .notExist := by
  rcases hstat : statR st.tgt p with e | _ | _
  · have hres : syncDir p st = (st, none) := syncDir_skip p st (by rw [hstat]; exact fun hc => StatR.noConfusion hc)
    rw [hres]
    show statR st.tgt p ≠ .notExist
    rw [hstat]
    exact fun hc => StatR.noConfusion hc
  · rcases hmk : mkdirAll st.tgt p with _ | t'
    · have hres : syncDir p st =
          ({ st with log := st.log ++ [.mkdirFailed p], ops := st.ops ++ [.mkdirFail p] }, none) := by
        unfold syncDir
        rw [hstat, hmk]
      rw [hres] at hclean
      simp only at hclean
      rw [cleanOps_snoc_false st.ops (.mkdirFail p) rfl] at hclean
      cases hclean
    · have hres : syncDir p st =
          ({ st with tgt := some t', log := st.log ++ [.createdDir p], ops := st.ops ++ [.mkdirOk p] }, none) := by
        unfold syncDir
        rw [hstat, hmk]
      rw [hres]
      obtain ⟨mt, sz, cs, hpost⟩ := mkdirAll_post p st.tgt t' hmk
      show statR (some t') p ≠ .notExist
      rw [hpost]
      exact fun hc => StatR.noConfusion hc
  · have hres : syncDir p st = (st, none) := syncDir_skip p st (by rw [hstat]; exact fun hc => StatR.noConfusion hc)
    rw [hres]
    show statR st.tgt p ≠ .notExist
    rw [hstat]
    exact fun hc => StatR.noConfusion hc

theorem syncFile_tgt_cases (oracle : Oracle) (src : Option FsTree) (p : Path) (mt : Int)
    (content : List Nat) (st : St) :
    (syncFile oracle src p mt content st).1.tgt = st.tgt ∨
    ∃ t', copyFile oracle src st.tgt p p = some t' ∧
      (syncFile oracle src p mt content st).1.tgt = t' := by
  by_cases hfail : oracle.srcStatFails p = true
  · rw [syncFile_eq_fail oracle src p mt content st hfail]
    exact Or.inl rfl
  · have hfail' : oracle.srcStatFails p = false := by simpa using hfail
    rcases hstat : statR st.tgt p with t | _ | _
    · by_cases hsame : sameFile ⟨false, content.length, mt⟩ (infoOf t) = true
      · rw [syncFile_skip oracle src p mt content st t hfail' hstat hsame]
        exact Or.inl rfl
      · rw [syncFile_eq_copy_diff oracle src p mt content st t hfail' hstat (by simpa using hsame)]
        rcases hcf : copyFile oracle src st.tgt p p with _ | t'
        · rw [doCopy_eq_fail oracle src p st hcf]
          exact Or.inl rfl
        · rw [doCopy_eq_ok oracle src p st t' hcf]
          exact Or.inr ⟨t', rfl, rfl⟩
    · rw [syncFile_eq_copy_notExist oracle src p mt content st hfail' hstat]
      rcases hcf : copyFile oracle src st.tgt p p with _ | t'
      · rw [doCopy_eq_fail oracle src p st hcf]
        exact Or.inl rfl
      · rw [doCopy_eq_ok oracle src p st t' hcf]
        exact Or.inr ⟨t', rfl, rfl⟩
    · rw [syncFile_eq_err oracle src p mt content st hfail' hstat]
      exact Or.inl rfl

theorem syncFile_clean (oracle : Oracle) (src : Option FsTree) (p : Path) (mt : Int)
    (content : List Nat) (st : St)
    (hclean : cleanOps ((syncFile oracle src p mt content st).1.ops) = true) :
    oracle.srcStatFails p = false ∧
    ((∃ t, statR st.tgt p = .found t ∧ sameFile ⟨false, content.length, mt⟩ (infoOf t) = true ∧
        syncFile oracle src p mt content st = (st, none)) ∨
      (∃ t', copyFile oracle src st.tgt p p = some t' ∧
        (syncFile oracle src p mt content st).1.tgt = t')) := by
  by_cases hfail : oracle.srcStatFails p = true
  · exfalso
    rw [syncFile_eq_fail oracle src p mt content st hfail] at hclean
    simp only at hclean
    rw [cleanOps_snoc_false st.ops (.statSrcFail p) rfl] at hclean
    cases hclean
  · have hfail' : oracle.srcStatFails p = false := by simpa using hfail
    refine ⟨hfail', ?_⟩
    rcases hstat : statR st.tgt p with t | _ | _
    · by_cases hsame : sameFile ⟨false, content.length, mt⟩ (infoOf t) = true
      · exact Or.inl ⟨t, rfl, hsame, syncFile_skip oracle src p mt content st t hfail' hstat hsame⟩
      · rcases hcf : copyFile oracle src st.tgt p p with _ | t'
        · exfalso
          rw [syncFile_eq_copy_diff oracle src p mt content st t hfail' hstat (by simpa using hsame),
            doCopy_eq_fail oracle src p st hcf] at hclean
          simp only at hclean
          rw [cleanOps_snoc_false st.ops (.copyFail p) rfl] at hclean
          cases hclean
        · refine Or.inr ⟨t', rfl, ?_⟩
          rw [syncFile_eq_copy_diff oracle src p mt content st t hfail' hstat (by simpa using hsame),
            doCopy_eq_ok oracle src p st t' hcf]
    · rcases hcf : copyFile oracle src st.tgt p p with _ | t'
      · exfalso
        rw [syncFile_eq_copy_notExist oracle src p mt content st hfail' hstat,
          doCopy_eq_fail oracle src p st hcf] at hclean
        simp only at hclean
        rw [cleanOps_snoc_false st.ops (.copyFail p) rfl] at hclean
        cases hclean
      · refine Or.inr ⟨t', rfl, ?_⟩
        rw [syncFile_eq_copy_notExist oracle src p mt content st hfail' hstat,
          doCopy_eq_ok oracle src p st t' hcf]
    · exfalso
      rw [syncFile_eq_err oracle src p mt content st hfail' hstat] at hclean
      simp only at hclean
      rw [cleanOps_snoc_false st.ops (.tgtStatProblem p) rfl] at hclean
      cases hclean

theorem cleanupVisit_eq_keep (src : Option FsTree) (p : Path) (isDir : Bool) (st : St)
    (hstat : statR src p ≠ .notExist) : cleanupVisit src p isDir st = (st, false) := by
  unfold cleanupVisit
  rcases hs : statR src p with e | _ | _
  · rfl
  · exact absurd hs hstat
  · rfl

theorem cleanupVisit_eq_fail (src : Option FsTree) (p : Path) (isDir : Bool) (st : St)
    (hstat : statR src p = .notExist) (hrm : removeEntry st.tgt p = none) :
    cleanupVisit src p isDir st = ({ st with ops := st.ops ++ [.removeFail p] }, false) := by
  unfold cleanupVisit
  rw [hstat, hrm]

theorem cleanupVisit_eq_ok_dir (src : Option FsTree) (p : Path) (st : St) (T' : Option FsTree)
    (hstat : statR src p = .notExist) (hrm : removeEntry st.tgt p = some T') :
    cleanupVisit src p true st =
      ({ st with tgt := T', log := st.log ++ [.removedDir p], ops := st.ops ++ [.removeOk p] }, true) := by
  unfold cleanupVisit
  rw [hstat, hrm]
  rfl

theorem cleanupVisit_eq_ok_file (src : Option FsTree) (p : Path) (st : St) (T' : Option FsTree)
    (hstat : statR src p = .notExist) (hrm : removeEntry st.tgt p = some T') :
    cleanupVisit src p false st =
      ({ st with tgt := T', log := st.log ++ [.removedFile p], ops := st.ops ++ [.removeOk p] }, false) := by
  unfold cleanupVisit
  rw [hstat, hrm]
  rfl

/-! ### Step preservation -/

theorem syncDir_keeps_syncedF (q : Path) (st : St) (p : Path) (pmt : Int) (pc : List Nat)
    (hpq : ¬ isUnder p q) (hs : syncedF st.tgt p pmt pc) :
    syncedF (syncDir q st).1.tgt p pmt pc := by
  rcases syncDir_cases q st with h | ⟨t', hstat, hmk, h⟩
  · rw [h]
    exact hs
  · rw [h]
    obtain ⟨t0, hfound, hsame⟩ := hs
    refine ⟨t0, ?_, hsame⟩
    rw [mkdirAll_frame q st.tgt t' hmk p hpq]
    exact hfound

theorem syncDir_keeps_notMissing (q : Path) (st : St) (p : Path)
    (hs : notMissing st.tgt p) : notMissing (syncDir q st).1.tgt p := by
  rcases syncDir_cases q st with h | ⟨t', hstat, hmk, h⟩
  · rw [h]
    exact hs
  · rw [h]
    intro hc
    exact hs (mkdirAll_anti q st.tgt t' hmk p hc)

theorem syncFile_keeps_syncedF (oracle : Oracle) (src : Option FsTree) (q : Path) (mt : Int)
    (c : List Nat) (st : St) (p : Path) (pmt : Int) (pc : List Nat)
    (hne : p ≠ q) (hpq : ¬ isUnder p q) (hs : syncedF st.tgt p pmt pc) :
    syncedF (syncFile oracle src q mt c st).1.tgt p pmt pc := by
  rcases syncFile_tgt_cases oracle src q mt c st with h | ⟨t', hcf, h⟩
  · rw [h]
    exact hs
  · rw [h]
    obtain ⟨t0, hfound, hsame⟩ := hs
    by_cases h1 : isUnder q p
    · exfalso
      obtain ⟨r, hr⟩ := h1
      subst hr
      have hrne : r ≠ [] := fun h0 => hne (by rw [h0]; simp)
      rcases copyFile_pre oracle src st.tgt q t' hcf with hq | ⟨fmt, fc, hq⟩
      · rw [statR_append, hq] at hfound
        cases hfound
      · rw [statR_append, hq] at hfound
        dsimp only at hfound
        cases r with
        | nil => exact absurd rfl hrne
        | cons x r' => rw [statT] at hfound; cases hfound
    · refine ⟨t0, ?_, hsame⟩
      rw [copyFile_frame oracle src st.tgt q t' hcf p hpq h1]
      exact hfound

theorem syncFile_keeps_notMissing (oracle : Oracle) (src : Option FsTree) (q : Path) (mt : Int)
    (c : List Nat) (st : St) (p : Path) (hs : notMissing st.tgt p) :
    notMissing (syncFile oracle src q mt c st).1.tgt p := by
  rcases syncFile_tgt_cases oracle src q mt c st with h | ⟨t', hcf, h⟩
  · rw [h]
    exact hs
  · rw [h]
    intro hc
    exact hs (copyFile_anti oracle src st.tgt q t' hcf p hc)

/-! ### Lookup and path helpers for the walk invariants -/

theorem findC_mem (cs : List (String × FsTree)) (n : String) (c : FsTree)
    (h : findC cs n = some c) : (n, c) ∈ cs := by
  induction cs with
  | nil => simp [findC] at h
  | cons hd rest ih =>
      obtain ⟨m, d⟩ := hd
      by_cases hm : m = n
      · subst hm
        rw [findC, if_pos rfl] at h
        injection h with h2
        subst h2
        exact List.mem_cons_self _ _
      · rw [findC, if_neg hm] at h
        exact List.mem_cons_of_mem _ (ih h)

theorem findC_mem_nodup (cs : List (String × FsTree)) (n : String) (c : FsTree)
    (hnd : (cs.map Prod.fst).Nodup) (hmem : (n, c) ∈ cs) : findC cs n = some c := by
  induction cs with
  | nil => cases hmem
  | cons hd rest ih =>
      obtain ⟨m, d⟩ := hd
      rw [List.map_cons, List.nodup_cons] at hnd
      rcases List.mem_cons.mp hmem with heq | hmem2
      · injection heq with h1 h2
        subst h1
        subst h2
        simp [findC]
      · have hm : m ≠ n := by
          intro he
          subst he
          exact hnd.1 (List.mem_map.mpr ⟨(m, c), hmem2, rfl⟩)
        rw [findC, if_neg hm]
        exact ih hnd.2 hmem2

theorem WFl_mem (cs : List (String × FsTree)) (n : String) (c : FsTree)
    (h : WFl cs = true) (hmem : (n, c) ∈ cs) : WFt c = true := by
  induction cs with
  | nil => cases hmem
  | cons hd rest ih =>
      obtain ⟨m, d⟩ := hd
      simp only [WFl, Bool.and_eq_true] at h
      rcases List.mem_cons.mp hmem with heq | hmem2
      · injection heq with h1 h2
        subst h2
        exact h.1
      · exact ih h.2 hmem2

theorem WFt_dir (mt : Int) (sz : Nat) (cs : List (String × FsTree))
    (h : WFt (.dir mt sz cs) = true) : (cs.map Prod.fst).Nodup ∧ WFl cs = true := by
  simp only [WFt, Bool.and_eq_true] at h
  exact ⟨by simpa using h.1, h.2⟩

theorem statT_dir_cons (dmt : Int) (dsz : Nat) (dcs : List (String × FsTree)) (n : String)
    (r : Path) (c : FsTree) (hf : findC dcs n = some c) :
    statT (.dir dmt dsz dcs) (n :: r) = statT c r := by
  simp only [statT, hf]

theorem statR_found_child (src : Option FsTree) (base : Path) (dmt : Int) (dsz : Nat)
    (dcs : List (String × FsTree)) (n : String) (c : FsTree)
    (hco : statR src base = .found (.dir dmt dsz dcs)) (hf : findC dcs n = some c) :
    statR src (base ++ [n]) = .found c := by
  rw [statR_append, hco]
  dsimp only
  rw [statT_dir_cons dmt dsz dcs n [] c hf]
  exact statT_nil c

theorem isUnder_sib (base : Path) (m n : String) (hmn : m ≠ n) (r s : Path) :
    ¬ isUnder (base ++ [m] ++ r) (base ++ [n] ++ s) := by
  intro hc
  obtain ⟨u, hu⟩ := hc
  simp only [List.append_assoc, List.singleton_append] at hu
  have h2 := List.append_cancel_left hu
  injection h2 with h3 h4
  exact hmn h3.symm

theorem isUnder_incomp_snoc (p base : Path) (n : String)
    (h1 : ¬ isUnder p base) (h2 : ¬ isUnder base p) :
    ¬ isUnder p (base ++ [n]) ∧ ¬ isUnder (base ++ [n]) p := by
  constructor
  · intro hc
    rcases isUnder_comparable p base (base ++ [n]) hc (isUnder_append base [n]) with h | h
    · exact h1 h
    · exact h2 h
  · intro hc
    exact h2 (isUnder_trans base (base ++ [n]) p (isUnder_append base [n]) hc)

theorem noRemoves_append (a b : List OpEvent) :
    noRemoves (a ++ b) = (noRemoves a && noRemoves b) := by
  simp [noRemoves, List.all_append]

theorem noCopies_of_removeEvents (d : List OpEvent) (h : d.all isRemoveEvent = true) :
    noCopies d = true := by
  simp only [noCopies, List.all_eq_true] at *
  intro e he
  have h2 := h e he
  cases e <;> simp [isRemoveEvent, isCopyEvent] at h2 ⊢

theorem sameFile_file_self (mt : Int) (c : List Nat) :
    sameFile ⟨false, c.length, mt⟩ (infoOf (.file mt c)) = true := by
  simp [sameFile, infoOf]

/-! ### Cleanup-visit step effects -/

theorem cleanupVisit_keeps_notExist (src : Option FsTree) (q : Path) (d : Bool) (st : St)
    (p : Path) (hp : statR st.tgt p = .notExist) :
    statR (cleanupVisit src q d st).1.tgt p = .notExist := by
  by_cases hq : statR src q = .notExist
  · rcases hrm : removeEntry st.tgt q with _ | T'
    · rw [cleanupVisit_eq_fail src q d st hq hrm]
      exact hp
    · cases d
      · rw [cleanupVisit_eq_ok_file src q st T' hq hrm]
        exact removeEntry_keeps_notExist st.tgt q T' p hrm hp
      · rw [cleanupVisit_eq_ok_dir src q st T' hq hrm]
        exact removeEntry_keeps_notExist st.tgt q T' p hrm hp
  · rw [cleanupVisit_eq_keep src q d st hq]
    exact hp

theorem cleanupVisit_backfound (src : Option FsTree) (q : Path) (d : Bool) (st : St)
    (p : Path) (e : FsTree) (hp : statR (cleanupVisit src q d st).1.tgt p = .found e) :
    ∃ e0, statR st.tgt p = .found e0 := by
  by_cases hq : statR src q = .notExist
  · rcases hrm : removeEntry st.tgt q with _ | T'
    · rw [cleanupVisit_eq_fail src q d st hq hrm] at hp
      exact ⟨e, hp⟩
    · cases d
      · rw [cleanupVisit_eq_ok_file src q st T' hq hrm] at hp
        exact removeEntry_backfound st.tgt q T' p e hrm hp
      · rw [cleanupVisit_eq_ok_dir src q st T' hq hrm] at hp
        exact removeEntry_backfound st.tgt q T' p e hrm hp
  · rw [cleanupVisit_eq_keep src q d st hq] at hp
    exact ⟨e, hp⟩

theorem cleanupVisit_tgt_noop (src : Option FsTree) (q : Path) (d : Bool) (st : St)
    (h : ∀ a e, statR st.tgt a = .found e → statR src a ≠ .notExist) :
    (cleanupVisit src q d st).1.tgt = st.tgt := by
  by_cases hq : statR src q = .notExist
  · rcases hrm : removeEntry st.tgt q with _ | T'
    · rw [cleanupVisit_eq_fail src q d st hq hrm]
    · exfalso
      obtain ⟨e, he, _⟩ := removeEntry_found st.tgt q T' hrm
      exact h q e he hq
  · rw [cleanupVisit_eq_keep src q d st hq]

theorem cleanupVisit_tframe (src : Option FsTree) (q : Path) (d : Bool) (st : St)
    (p : Path) (h1 : ¬ isUnder q p) (h2 : ¬ isUnder p q) :
    statR (cleanupVisit src q d st).1.tgt p = statR st.tgt p := by
  by_cases hq : statR src q = .notExist
  · rcases hrm : removeEntry st.tgt q with _ | T'
    · rw [cleanupVisit_eq_fail src q d st hq hrm]
    · cases d
      · rw [cleanupVisit_eq_ok_file src q st T' hq hrm]
        exact removeEntry_frame st.tgt q T' hrm p h1 h2
      · rw [cleanupVisit_eq_ok_dir src q st T' hq hrm]
        exact removeEntry_frame st.tgt q T' hrm p h1 h2
  · rw [cleanupVisit_eq_keep src q d st hq]

theorem cleanupVisit_keeps_found (src : Option FsTree) (q : Path) (d : Bool) (st : St)
    (p : Path) (t : FsTree)
    (hanc : ∀ a, isUnder a p → statR src a ≠ .notExist)
    (hp : statR st.tgt p = .found t) :
    ∃ t', statR (cleanupVisit src q d st).1.tgt p = .found t' ∧ infoOf t' = infoOf t ∧
      (∀ fmt fc, t = .file fmt fc → t' = .file fmt fc) := by
  by_cases hq : statR src q = .notExist
  · rcases hrm : removeEntry st.tgt q with _ | T'
    · rw [cleanupVisit_eq_fail src q d st hq hrm]
      exact ⟨t, hp, rfl, fun _ _ h0 => h0⟩
    · have hqp : ¬ isUnder q p := fun hc => hanc q hc hq
      have hmain : ∃ t', statR T' p = .found t' ∧ infoOf t' = infoOf t ∧
          (∀ fmt fc, t = .file fmt fc → t' = .file fmt fc) := by
        by_cases hpq : isUnder p q
        · have hne : p ≠ q := by
            intro he
            subst he
            exact hqp (isUnder_refl p)
          obtain ⟨dmt, dsz, dcs, dcs', h3, h4⟩ := removeEntry_anc st.tgt q T' hrm p hpq hne
          rw [hp] at h3
          injection h3 with h5
          subst h5
          refine ⟨.dir dmt dsz dcs', h4, rfl, ?_⟩
          intro fmt fc h0
          exact FsTree.noConfusion h0
        · rw [removeEntry_frame st.tgt q T' hrm p hqp hpq]
          exact ⟨t, hp, rfl, fun _ _ h0 => h0⟩
      cases d
      · rw [cleanupVisit_eq_ok_file src q st T' hq hrm]
        exact hmain
      · rw [cleanupVisit_eq_ok_dir src q st T' hq hrm]
        exact hmain
  · rw [cleanupVisit_eq_keep src q d st hq]
    exact ⟨t, hp, rfl, fun _ _ h0 => h0⟩

theorem cleanupVisit_keeps_notMissing (src : Option FsTree) (q : Path) (d : Bool) (st : St)
    (p : Path) (hanc : ∀ a, isUnder a p → statR src a ≠ .notExist)
    (hp : statR st.tgt p ≠ .notExist) :
    statR (cleanupVisit src q d st).1.tgt p ≠ .notExist := by
  rcases hstat0 : statR st.tgt p with t | _ | _
  · obtain ⟨t', h1, _, _⟩ := cleanupVisit_keeps_found src q d st p t hanc hstat0
    rw [h1]
    exact fun hc => StatR.noConfusion hc
  · exact absurd hstat0 hp
  · by_cases hq : statR src q = .notExist
    · rcases hrm : removeEntry st.tgt q with _ | T'
      · rw [cleanupVisit_eq_fail src q d st hq hrm, hstat0]
        exact fun hc => StatR.noConfusion hc
      · have hqp : ¬ isUnder q p := fun hc => hanc q hc hq
        have hpq : ¬ isUnder p q := by
          intro hc
          obtain ⟨r, hr⟩ := hc
          subst hr
          obtain ⟨e2, he2, _⟩ := removeEntry_found st.tgt (p ++ r) T' hrm
          rw [statR_errOther_below p r st.tgt hstat0] at he2
          cases he2
        have hfr := removeEntry_frame st.tgt q T' hrm p hqp hpq
        cases d
        · rw [cleanupVisit_eq_ok_file src q st T' hq hrm, hfr, hstat0]
          exact fun hc => StatR.noConfusion hc
        · rw [cleanupVisit_eq_ok_dir src q st T' hq hrm, hfr, hstat0]
          exact fun hc => StatR.noConfusion hc
    · rw [cleanupVisit_eq_keep src q d st hq, hstat0]
      exact fun hc => StatR.noConfusion hc

/-! ### Cleanup-walk preservation -/

mutual
theorem cwalk_keeps_notExist (src : Option FsTree) (base : Path) (t : FsTree) (st : St)
    (p : Path) (hp : statR st.tgt p = .notExist) :
    statR (cwalk src base t st).1.tgt p = .notExist := by
  cases t with
  | file mt c =>
      rw [cwalk_file_eq]
      exact cleanupVisit_keeps_notExist src base false st p hp
  | dir mt sz cs =>
      rcases hcv : cleanupVisit src base true st with ⟨st1, removed⟩
      have hst1 : statR st1.tgt p = .notExist := by
        have h2 := cleanupVisit_keeps_notExist src base true st p hp
        rw [hcv] at h2
        exact h2
      cases removed with
      | true =>
          rw [cwalk_dir_removed src base mt sz cs st st1 hcv]
          exact hst1
      | false =>
          rw [cwalk_dir_kept src base mt sz cs st st1 hcv]
          exact cwalkList_keeps_notExist src base cs st1 p hst1
termination_by sizeOf t
theorem cwalkList_keeps_notExist (src : Option FsTree) (base : Path)
    (cs : List (String × FsTree)) (st : St) (p : Path) (hp : statR st.tgt p = .notExist) :
    statR (cwalkList src base cs st).1.tgt p = .notExist := by
  cases cs with
  | nil =>
      rw [cwalkList_nil_eq]
      exact hp
  | cons hd rest =>
      obtain ⟨n, c⟩ := hd
      rw [cwalkList_cons_eq]
      have h1 : statR (cwalk src (base ++ [n]) c st).1.tgt p = .notExist :=
        cwalk_keeps_notExist src (base ++ [n]) c st p hp
      exact cwalkList_keeps_notExist src base rest _ p h1
termination_by sizeOf cs
end

mutual
theorem cwalk_backfound (src : Option FsTree) (base : Path) (t : FsTree) (st : St)
    (p : Path) (e : FsTree) (hp : statR (cwalk src base t st).1.tgt p = .found e) :
    ∃ e0, statR st.tgt p = .found e0 := by
  cases t with
  | file mt c =>
      rw [cwalk_file_eq] at hp
      exact cleanupVisit_backfound src base false st p e hp
  | dir mt sz cs =>
      rcases hcv : cleanupVisit src base true st with ⟨st1, removed⟩
      cases removed with
      | true =>
          rw [cwalk_dir_removed src base mt sz cs st st1 hcv] at hp
          apply cleanupVisit_backfound src base true st p e
          rw [hcv]
          exact hp
      | false =>
          rw [cwalk_dir_kept src base mt sz cs st st1 hcv] at hp
          obtain ⟨e1, he1⟩ := cwalkList_backfound src base cs st1 p e hp
          apply cleanupVisit_backfound src base true st p e1
          rw [hcv]
          exact he1
theorem cwalkList_backfound (src : Option FsTree) (base : Path)
    (cs : List (String × FsTree)) (st : St) (p : Path) (e : FsTree)
    (hp : statR (cwalkList src base cs st).1.tgt p = .found e) :
    ∃ e0, statR st.tgt p = .found e0 := by
  cases cs with
  | nil =>
      rw [cwalkList_nil_eq] at hp
      exact ⟨e, hp⟩
  | cons hd rest =>
      obtain ⟨n, c⟩ := hd
      rw [cwalkList_cons_eq] at hp
      obtain ⟨e1, he1⟩ := cwalkList_backfound src base rest _ p e hp
      exact cwalk_backfound src (base ++ [n]) c st p e1 he1
end

mutual
theorem cwalk_tgt_noop (src : Option FsTree) (base : Path) (t : FsTree) (st : St)
    (h : ∀ a e, statR st.tgt a = .found e → statR src a ≠ .notExist) :
    (cwalk src base t st).1.tgt = st.tgt := by
  cases t with
  | file mt c =>
      rw [cwalk_file_eq]
      exact cleanupVisit_tgt_noop src base false st h
  | dir mt sz cs =>
      rcases hcv : cleanupVisit src base true st with ⟨st1, removed⟩
      have hst1 : st1.tgt = st.tgt := by
        have h2 := cleanupVisit_tgt_noop src base true st h
        rw [hcv] at h2
        exact h2
      cases removed with
      | true =>
          rw [cwalk_dir_removed src base mt sz cs st st1 hcv]
          exact hst1
      | false =>
          rw [cwalk_dir_kept src base mt sz cs st st1 hcv]
          rw [cwalkList_tgt_noop src base cs st1 (by rw [hst1]; exact h)]
          exact hst1
theorem cwalkList_tgt_noop (src : Option FsTree) (base : Path)
    (cs : List (String × FsTree)) (st : St)
    (h : ∀ a e, statR st.tgt a = .found e → statR src a ≠ .notExist) :
    (cwalkList src base cs st).1.tgt = st.tgt := by
  cases cs with
  | nil => rw [cwalkList_nil_eq]
  | cons hd rest =>
      obtain ⟨n, c⟩ := hd
      rw [cwalkList_cons_eq]
      have h1 : (cwalk src (base ++ [n]) c st).1.tgt = st.tgt :=
        cwalk_tgt_noop src (base ++ [n]) c st h
      rw [cwalkList_tgt_noop src base rest _ (by rw [h1]; exact h)]
      exact h1
end

mutual
theorem cwalk_tframe (src : Option FsTree) (base : Path) (t : FsTree) (st : St) (p : Path)
    (h1 : ¬ isUnder base p) (h2 : ¬ isUnder p base) :
    statR (cwalk src base t st).1.tgt p = statR st.tgt p := by
  cases t with
  | file mt c =>
      rw [cwalk_file_eq]
      exact cleanupVisit_tframe src base false st p h1 h2
  | dir mt sz cs =>
      rcases hcv : cleanupVisit src base true st with ⟨st1, removed⟩
      have hst1 : statR st1.tgt p = statR st.tgt p := by
        have h3 := cleanupVisit_tframe src base true st p h1 h2
        rw [hcv] at h3
        exact h3
      cases removed with
      | true =>
          rw [cwalk_dir_removed src base mt sz cs st st1 hcv]
          exact hst1
      | false =>
          rw [cwalk_dir_kept src base mt sz cs st st1 hcv]
          rw [cwalkList_tframe src base cs st1 p h1 h2]
          exact hst1
theorem cwalkList_tframe (src : Option FsTree) (base : Path)
    (cs : List (String × FsTree)) (st : St) (p : Path)
    (h1 : ¬ isUnder base p) (h2 : ¬ isUnder p base) :
    statR (cwalkList src base cs st).1.tgt p = statR st.tgt p := by
  cases cs with
  | nil => rw [cwalkList_nil_eq]
  | cons hd rest =>
      obtain ⟨n, c⟩ := hd
      rw [cwalkList_cons_eq]
      obtain ⟨hA, hB⟩ := isUnder_incomp_snoc p base n h2 h1
      rw [cwalkList_tframe src base rest _ p h1 h2]
      exact cwalk_tframe src (base ++ [n]) c st p hB hA
end

mutual
theorem cwalk_keeps_found (src : Option FsTree) (base : Path) (t : FsTree) (st : St)
    (p : Path) (tf : FsTree)
    (hanc : ∀ a, isUnder a p → statR src a ≠ .notExist)
    (hp : statR st.tgt p = .found tf) :
    ∃ t', statR (cwalk src base t st).1.tgt p = .found t' ∧ infoOf t' = infoOf tf ∧
      (∀ fmt fc, tf = .file fmt fc → t' = .file fmt fc) := by
  cases t with
  | file mt c =>
      rw [cwalk_file_eq]
      exact cleanupVisit_keeps_found src base false st p tf hanc hp
  | dir mt sz cs =>
      rcases hcv : cleanupVisit src base true st with ⟨st1, removed⟩
      obtain ⟨t1, h1, hinfo1, hfile1⟩ : ∃ t', statR st1.tgt p = .found t' ∧
          infoOf t' = infoOf tf ∧ (∀ fmt fc, tf = .file fmt fc → t' = .file fmt fc) := by
        have h2 := cleanupVisit_keeps_found src base true st p tf hanc hp
        rw [hcv] at h2
        exact h2
      cases removed with
      | true =>
          rw [cwalk_dir_removed src base mt sz cs st st1 hcv]
          exact ⟨t1, h1, hinfo1, hfile1⟩
      | false =>
          rw [cwalk_dir_kept src base mt sz cs st st1 hcv]
          obtain ⟨t2, h2, hinfo2, hfile2⟩ := cwalkList_keeps_found src base cs st1 p t1 hanc h1
          refine ⟨t2, h2, hinfo2.trans hinfo1, ?_⟩
          intro fmt fc h0
          exact hfile2 fmt fc (hfile1 fmt fc h0)
theorem cwalkList_keeps_found (src : Option FsTree) (base : Path)
    (cs : List (String × FsTree)) (st : St) (p : Path) (tf : FsTree)
    (hanc : ∀ a, isUnder a p → statR src a ≠ .notExist)
    (hp : statR st.tgt p = .found tf) :
    ∃ t', statR (cwalkList src base cs st).1.tgt p = .found t' ∧ infoOf t' = infoOf tf ∧
      (∀ fmt fc, tf = .file fmt fc → t' = .file fmt fc) := by
  cases cs with
  | nil =>
      rw [cwalkList_nil_eq]
      exact ⟨tf, hp, rfl, fun _ _ h0 => h0⟩
  | cons hd rest =>
      obtain ⟨n, c⟩ := hd
      rw [cwalkList_cons_eq]
      obtain ⟨t1, h1, hinfo1, hfile1⟩ := cwalk_keeps_found src (base ++ [n]) c st p tf hanc hp
      obtain ⟨t2, h2, hinfo2, hfile2⟩ := cwalkList_keeps_found src base rest _ p t1 hanc h1
      refine ⟨t2, h2, hinfo2.trans hinfo1, ?_⟩
      intro fmt fc h0
      exact hfile2 fmt fc (hfile1 fmt fc h0)
end

mutual
theorem cwalk_keeps_notMissing (src : Option FsTree) (base : Path) (t : FsTree) (st : St)
    (p : Path) (hanc : ∀ a, isUnder a p → statR src a ≠ .notExist)
    (hp : statR st.tgt p ≠ .notExist) :
    statR (cwalk src base t st).1.tgt p ≠ .notExist := by
  cases t with
  | file mt c =>
      rw [cwalk_file_eq]
      exact cleanupVisit_keeps_notMissing src base false st p hanc hp
  | dir mt sz cs =>
      rcases hcv : cleanupVisit src base true st with ⟨st1, removed⟩
      have hst1 : statR st1.tgt p ≠ .notExist := by
        have h2 := cleanupVisit_keeps_notMissing src base true st p hanc hp
        rw [hcv] at h2
        exact h2
      cases removed with
      | true =>
          rw [cwalk_dir_removed src base mt sz cs st st1 hcv]
          exact hst1
      | false =>
          rw [cwalk_dir_kept src base mt sz cs st st1 hcv]
          exact cwalkList_keeps_notMissing src base cs st1 p hanc hst1
termination_by sizeOf t
theorem cwalkList_keeps_notMissing (src : Option FsTree) (base : Path)
    (cs : List (String × FsTree)) (st : St) (p : Path)
    (hanc : ∀ a, isUnder a p → statR src a ≠ .notExist)
    (hp : statR st.tgt p ≠ .notExist) :
    statR (cwalkList src base cs st).1.tgt p ≠ .notExist := by
  cases cs with
  | nil =>
      rw [cwalkList_nil_eq]
      exact hp
  | cons hd rest =>
      obtain ⟨n, c⟩ := hd
      rw [cwalkList_cons_eq]
      have h1 : statR (cwalk src (base ++ [n]) c st).1.tgt p ≠ .notExist :=
        cwalk_keeps_notMissing src (base ++ [n]) c st p hanc hp
      exact cwalkList_keeps_notMissing src base rest _ p hanc h1
termination_by sizeOf cs
end

/-! ### Cleanup-walk removal facts -/

theorem removable_no_below (e2 : FsTree) (u : Path) (x : FsTree) (hu : u ≠ [])
    (h : statT e2 u = .found x) : removable e2 = false := by
  cases e2 with
  | file fmt fc =>
      cases u with
      | nil => exact absurd rfl hu
      | cons y u' => rw [statT] at h; cases h
  | dir dmt dsz dcs =>
      cases dcs with
      | nil =>
          cases u with
          | nil => exact absurd rfl hu
          | cons y u' =>
              rw [statT] at h
              dsimp only [findC] at h
              cases h
      | cons c0 dcs' => rfl

theorem cleanupVisit_keeps_file (src : Option FsTree) (q : Path) (d : Bool) (st : St)
    (p : Path) (fmt : Int) (fc : List Nat)
    (hsrc : statR src p ≠ .notExist) (hp : statR st.tgt p = .found (.file fmt fc)) :
    statR (cleanupVisit src q d st).1.tgt p = .found (.file fmt fc) := by
  by_cases hq : statR src q = .notExist
  · rcases hrm : removeEntry st.tgt q with _ | T'
    · rw [cleanupVisit_eq_fail src q d st hq hrm]
      exact hp
    · have hmain : statR T' p = .found (.file fmt fc) := by
        by_cases hqp : isUnder q p
        · obtain ⟨u, hu⟩ := hqp
          subst hu
          cases u with
          | nil =>
              exfalso
              rw [List.append_nil] at hp hsrc
              exact hsrc hq
          | cons y u' =>
              exfalso
              obtain ⟨e2, he2, hrem2⟩ := removeEntry_found st.tgt q T' hrm
              rw [statR_append, he2] at hp
              dsimp only at hp
              rw [removable_no_below e2 (y :: u') (.file fmt fc) (by simp) hp] at hrem2
              cases hrem2
        · by_cases hpq : isUnder p q
          · exfalso
            obtain ⟨u, hu⟩ := hpq
            subst hu
            have hune : u ≠ [] := by
              intro h0
              subst h0
              exact hqp (by simpa using isUnder_refl p)
            obtain ⟨e2, he2, _⟩ := removeEntry_found st.tgt (p ++ u) T' hrm
            rw [statR_append, hp] at he2
            dsimp only at he2
            cases u with
            | nil => exact absurd rfl hune
            | cons y u' => rw [statT] at he2; cases he2
          · rw [removeEntry_frame st.tgt q T' hrm p hqp hpq]
            exact hp
      cases d
      · rw [cleanupVisit_eq_ok_file src q st T' hq hrm]
        exact hmain
      · rw [cleanupVisit_eq_ok_dir src q st T' hq hrm]
        exact hmain
  · rw [cleanupVisit_eq_keep src q d st hq]
    exact hp

mutual
theorem cwalk_keeps_file (src : Option FsTree) (base : Path) (t : FsTree) (st : St)
    (p : Path) (fmt : Int) (fc : List Nat)
    (hsrc : statR src p ≠ .notExist) (hp : statR st.tgt p = .found (.file fmt fc)) :
    statR (cwalk src base t st).1.tgt p = .found (.file fmt fc) := by
  cases t with
  | file mt c =>
      rw [cwalk_file_eq]
      exact cleanupVisit_keeps_file src base false st p fmt fc hsrc hp
  | dir mt sz cs =>
      rcases hcv : cleanupVisit src base true st with ⟨st1, removed⟩
      have hst1 : statR st1.tgt p = .found (.file fmt fc) := by
        have h2 := cleanupVisit_keeps_file src base true st p fmt fc hsrc hp
        rw [hcv] at h2
        exact h2
      cases removed with
      | true =>
          rw [cwalk_dir_removed src base mt sz cs st st1 hcv]
          exact hst1
      | false =>
          rw [cwalk_dir_kept src base mt sz cs st st1 hcv]
          exact cwalkList_keeps_file src base cs st1 p fmt fc hsrc hst1
termination_by sizeOf t
theorem cwalkList_keeps_file (src : Option FsTree) (base : Path)
    (cs : List (String × FsTree)) (st : St) (p : Path) (fmt : Int) (fc : List Nat)
    (hsrc : statR src p ≠ .notExist) (hp : statR st.tgt p = .found (.file fmt fc)) :
    statR (cwalkList src base cs st).1.tgt p = .found (.file fmt fc) := by
  cases cs with
  | nil =>
      rw [cwalkList_nil_eq]
      exact hp
  | cons hd rest =>
      obtain ⟨n, c⟩ := hd
      rw [cwalkList_cons_eq]
      have h1 : statR (cwalk src (base ++ [n]) c st).1.tgt p = .found (.file fmt fc) :=
        cwalk_keeps_file src (base ++ [n]) c st p fmt fc hsrc hp
      exact cwalkList_keeps_file src base rest _ p fmt fc hsrc h1
termination_by sizeOf cs
end

mutual
theorem cwalk_clean_kill (src : Option FsTree) (base : Path) (t : FsTree) (st : St)
    (r : Path) (e : FsTree)
    (hclean : cleanOps ((cwalk src base t st).1.ops) = true)
    (hr : statT t r = .found e) (hsrc : statR src (base ++ r) = .notExist) :
    statR (cwalk src base t st).1.tgt (base ++ r) = .notExist := by
  cases t with
  | file mt c =>
      cases r with
      | nil =>
          simp only [List.append_nil] at hsrc ⊢
          rw [cwalk_file_eq] at hclean ⊢
          rcases hrm : removeEntry st.tgt base with _ | T'
          · exfalso
            rw [cleanupVisit_eq_fail src base false st hsrc hrm] at hclean
            simp only at hclean
            rw [cleanOps_snoc_false st.ops (.removeFail base) rfl] at hclean
            cases hclean
          · rw [cleanupVisit_eq_ok_file src base st T' hsrc hrm]
            exact removeEntry_post st.tgt base T' hrm
      | cons x r' =>
          rw [statT] at hr
          cases hr
  | dir dmt dsz dcs =>
      by_cases hq : statR src base = .notExist
      · rcases hrm : removeEntry st.tgt base with _ | T'
        · exfalso
          have hfail := cleanupVisit_eq_fail src base true st hq hrm
          rw [cwalk_dir_kept src base dmt dsz dcs st _ hfail] at hclean
          obtain ⟨d2, hd2, _⟩ :=
            cwalkList_ops_append src base dcs { st with ops := st.ops ++ [.removeFail base] }
          rw [hd2] at hclean
          simp only at hclean
          rw [cleanOps_append, cleanOps_snoc_false st.ops (.removeFail base) rfl] at hclean
          simp at hclean
        · have hok := cleanupVisit_eq_ok_dir src base st T' hq hrm
          rw [cwalk_dir_removed src base dmt dsz dcs st _ hok]
          have hpost := removeEntry_post st.tgt base T' hrm
          exact statR_notExist_below base r T' hpost
      · have hkeep := cleanupVisit_eq_keep src base true st hq
        rw [cwalk_dir_kept src base dmt dsz dcs st st hkeep] at hclean ⊢
        cases r with
        | nil =>
            exfalso
            rw [List.append_nil] at hsrc
            exact hq hsrc
        | cons n r' =>
            rw [statT] at hr
            rcases hf : findC dcs n with _ | c
            · rw [hf] at hr
              cases hr
            · rw [hf] at hr
              have hmem := findC_mem dcs n c hf
              have hpath : base ++ n :: r' = base ++ [n] ++ r' := by simp
              rw [hpath] at hsrc ⊢
              exact cwalkList_clean_kill src base dcs st n c r' e hclean hmem hr hsrc
termination_by sizeOf t
theorem cwalkList_clean_kill (src : Option FsTree) (base : Path)
    (cs : List (String × FsTree)) (st : St) (n : String) (c : FsTree) (r : Path) (e : FsTree)
    (hclean : cleanOps ((cwalkList src base cs st).1.ops) = true)
    (hmem : (n, c) ∈ cs) (hr : statT c r = .found e)
    (hsrc : statR src (base ++ [n] ++ r) = .notExist) :
    statR (cwalkList src base cs st).1.tgt (base ++ [n] ++ r) = .notExist := by
  cases cs with
  | nil => cases hmem
  | cons hd rest =>
      obtain ⟨m, d⟩ := hd
      rw [cwalkList_cons_eq] at hclean ⊢
      rcases List.mem_cons.mp hmem with heq | hmem2
      · have hn : n = m := congrArg Prod.fst heq
        have hc : c = d := congrArg Prod.snd heq
        have hcleanhead : cleanOps ((cwalk src (base ++ [m]) d st).1.ops) = true := by
          obtain ⟨d2, hd2, _⟩ :=
            cwalkList_ops_append src base rest (cwalk src (base ++ [m]) d st).1
          rw [hd2, cleanOps_append, Bool.and_eq_true] at hclean
          exact hclean.1
        have hr2 : statT d r = .found e := by
          rw [← hc]
          exact hr
        have hsrc2 : statR src (base ++ [m] ++ r) = .notExist := by
          rw [← hn]
          exact hsrc
        have h1 := cwalk_clean_kill src (base ++ [m]) d st r e hcleanhead hr2 hsrc2
        have h2 := cwalkList_keeps_notExist src base rest
          (cwalk src (base ++ [m]) d st).1 (base ++ [m] ++ r) h1
        rw [hn]
        exact h2
      · have h1 := cwalkList_clean_kill src base rest (cwalk src (base ++ [m]) d st).1
          n c r e hclean hmem2 hr hsrc
        exact h1
termination_by sizeOf cs
decreasing_by
  all_goals simp_wf
  all_goals subst_vars
  · have h9 := List.sizeOf_lt_of_mem (heq ▸ hmem)
    simp only [Prod.mk.sizeOf_spec, List.cons.sizeOf_spec] at h9
    simp only [List.cons.sizeOf_spec]
    omega
  · simp only [List.cons.sizeOf_spec]
    omega
end

mutual
theorem cwalk_removes (src : Option FsTree) (base : Path) (t : FsTree) (st : St)
    (r : Path) (e : FsTree)
    (hWF : WFt t = true) (hlive : statR st.tgt base = .found t)
    (hr : statT t r = .found e) (hrem : removable e = true)
    (hsrc : statR src (base ++ r) = .notExist) :
    statR (cwalk src base t st).1.tgt (base ++ r) = .notExist := by
  cases t with
  | file mt c =>
      cases r with
      | nil =>
          simp only [List.append_nil] at hsrc ⊢
          rw [cwalk_file_eq]
          obtain ⟨T', hT'⟩ := removeEntry_success st.tgt base (.file mt c) hlive rfl
          rw [cleanupVisit_eq_ok_file src base st T' hsrc hT']
          exact removeEntry_post st.tgt base T' hT'
      | cons x r' =>
          rw [statT] at hr
          cases hr
  | dir dmt dsz dcs =>
      obtain ⟨hnd, hwl⟩ := WFt_dir dmt dsz dcs hWF
      by_cases hq : statR src base = .notExist
      · cases dcs with
        | nil =>
            obtain ⟨T', hT'⟩ := removeEntry_success st.tgt base (.dir dmt dsz []) hlive rfl
            have hok := cleanupVisit_eq_ok_dir src base st T' hq hT'
            rw [cwalk_dir_removed src base dmt dsz [] st _ hok]
            have hpost := removeEntry_post st.tgt base T' hT'
            exact statR_notExist_below base r T' hpost
        | cons c0 dcs' =>
            rcases hrm : removeEntry st.tgt base with _ | T'
            · have hfail := cleanupVisit_eq_fail src base true st hq hrm
              rw [cwalk_dir_kept src base dmt dsz (c0 :: dcs') st _ hfail]
              cases r with
              | nil =>
                  exfalso
                  rw [statT_nil] at hr
                  injection hr with h2
                  rw [← h2] at hrem
                  simp [removable] at hrem
              | cons n r' =>
                  rw [statT] at hr
                  rcases hf : findC (c0 :: dcs') n with _ | c
                  · rw [hf] at hr
                    cases hr
                  · rw [hf] at hr
                    have hmem := findC_mem _ n c hf
                    have hlive2 : ∀ m cm, (m, cm) ∈ (c0 :: dcs') →
                        statR ({ st with ops := st.ops ++ [.removeFail base] } : St).tgt
                          (base ++ [m]) = .found cm := by
                      intro m cm hmemm
                      have hfm := findC_mem_nodup _ m cm hnd hmemm
                      exact statR_found_child st.tgt base dmt dsz _ m cm hlive hfm
                    have hpath : base ++ n :: r' = base ++ [n] ++ r' := by simp
                    rw [hpath] at hsrc ⊢
                    exact cwalkList_removes src base (c0 :: dcs') _ n c r' e hnd hwl
                      hlive2 hmem hr hrem hsrc
            · exfalso
              obtain ⟨e2, he2, hrem2⟩ := removeEntry_found st.tgt base T' hrm
              rw [hlive] at he2
              injection he2 with h3
              rw [← h3] at hrem2
              simp [removable] at hrem2
      · have hkeep := cleanupVisit_eq_keep src base true st hq
        rw [cwalk_dir_kept src base dmt dsz dcs st st hkeep]
        cases r with
        | nil =>
            exfalso
            rw [List.append_nil] at hsrc
            exact hq hsrc
        | cons n r' =>
            rw [statT] at hr
            rcases hf : findC dcs n with _ | c
            · rw [hf] at hr
              cases hr
            · rw [hf] at hr
              have hmem := findC_mem dcs n c hf
              have hlive2 : ∀ m cm, (m, cm) ∈ dcs → statR st.tgt (base ++ [m]) = .found cm := by
                intro m cm hmemm
                exact statR_found_child st.tgt base dmt dsz dcs m cm hlive
                  (findC_mem_nodup dcs m cm hnd hmemm)
              have hpath : base ++ n :: r' = base ++ [n] ++ r' := by simp
              rw [hpath] at hsrc ⊢
              exact cwalkList_removes src base dcs st n c r' e hnd hwl hlive2 hmem hr hrem hsrc
termination_by sizeOf t
theorem cwalkList_removes (src : Option FsTree) (base : Path)
    (cs : List (String × FsTree)) (st : St) (n : String) (c : FsTree) (r : Path) (e : FsTree)
    (hnd : (cs.map Prod.fst).Nodup) (hWF : WFl cs = true)
    (hlive : ∀ m cm, (m, cm) ∈ cs → statR st.tgt (base ++ [m]) = .found cm)
    (hmem : (n, c) ∈ cs) (hr : statT c r = .found e) (hrem : removable e = true)
    (hsrc : statR src (base ++ [n] ++ r) = .notExist) :
    statR (cwalkList src base cs st).1.tgt (base ++ [n] ++ r) = .notExist := by
  cases cs with
  | nil => cases hmem
  | cons hd rest =>
      obtain ⟨m, d⟩ := hd
      rw [List.map_cons, List.nodup_cons] at hnd
      simp only [WFl, Bool.and_eq_true] at hWF
      rw [cwalkList_cons_eq]
      rcases List.mem_cons.mp hmem with heq | hmem2
      · have hn : n = m := congrArg Prod.fst heq
        have hc : c = d := congrArg Prod.snd heq
        have hr2 : statT d r = .found e := by
          rw [← hc]
          exact hr
        have hsrc2 : statR src (base ++ [m] ++ r) = .notExist := by
          rw [← hn]
          exact hsrc
        have hlived : statR st.tgt (base ++ [m]) = .found d :=
          hlive m d (List.mem_cons_self _ _)
        have h1 := cwalk_removes src (base ++ [m]) d st r e hWF.1 hlived hr2 hrem hsrc2
        have h2 := cwalkList_keeps_notExist src base rest
          (cwalk src (base ++ [m]) d st).1 (base ++ [m] ++ r) h1
        rw [hn]
        exact h2
      · have hlive2 : ∀ m2 cm, (m2, cm) ∈ rest →
            statR (cwalk src (base ++ [m]) d st).1.tgt (base ++ [m2]) = .found cm := by
          intro m2 cm hmm
          have hne : m ≠ m2 := by
            intro he
            subst he
            exact hnd.1 (List.mem_map.mpr ⟨(m, cm), hmm, rfl⟩)
          have hi1 : ¬ isUnder (base ++ [m]) (base ++ [m2]) := by
            have h3 := isUnder_sib base m m2 hne [] []
            simpa using h3
          have hi2 : ¬ isUnder (base ++ [m2]) (base ++ [m]) := by
            have h3 := isUnder_sib base m2 m (fun he => hne he.symm) [] []
            simpa using h3
          rw [cwalk_tframe src (base ++ [m]) d st (base ++ [m2]) hi1 hi2]
          exact hlive m2 cm (List.mem_cons_of_mem _ hmm)
        have h2 := cwalkList_removes src base rest (cwalk src (base ++ [m]) d st).1
          n c r e hnd.2 hWF.2 hlive2 hmem2 hr hrem hsrc
        exact h2
termination_by sizeOf cs
decreasing_by
  all_goals simp_wf
  all_goals subst_vars
  · have h9 := List.sizeOf_lt_of_mem (heq ▸ hmem)
    simp only [Prod.mk.sizeOf_spec, List.cons.sizeOf_spec] at h9
    simp only [List.cons.sizeOf_spec]
    omega
  · simp only [List.cons.sizeOf_spec]
    omega
end

/-! ### Cleanup-pass wrappers -/

theorem cleanupPass_ops_append (src : Option FsTree) (st : St) :
    ∃ d, (cleanupPass src st).1.ops = st.ops ++ d ∧ d.all isRemoveEvent = true := by
  unfold cleanupPass
  split
  · exact ⟨[], by simp, rfl⟩
  · exact cwalk_ops_append _ _ _ _

theorem cleanupPass_keeps_syncedF (src : Option FsTree) (st : St) (p : Path) (pmt : Int)
    (pc : List Nat) (hanc : ∀ a, isUnder a p → statR src a ≠ .notExist)
    (hs : syncedF st.tgt p pmt pc) : syncedF (cleanupPass src st).1.tgt p pmt pc := by
  obtain ⟨t0, hfound, hsame⟩ := hs
  rcases hT : st.tgt with _ | t
  · rw [hT] at hfound
    simp [statR] at hfound
  · unfold cleanupPass
    rw [hT]
    obtain ⟨t', h1, hinfo, _⟩ := cwalk_keeps_found src [] t st p t0 hanc hfound
    exact ⟨t', h1, by rw [hinfo]; exact hsame⟩

theorem cleanupPass_keeps_notMissing (src : Option FsTree) (st : St) (p : Path)
    (hanc : ∀ a, isUnder a p → statR src a ≠ .notExist)
    (hs : notMissing st.tgt p) : notMissing (cleanupPass src st).1.tgt p := by
  rcases hT : st.tgt with _ | t
  · unfold cleanupPass
    rw [hT] at hs ⊢
    exact hs
  · unfold cleanupPass
    rw [hT]
    exact cwalk_keeps_notMissing src [] t st p hanc hs

theorem cleanupPass_tgt_noop (src : Option FsTree) (st : St)
    (h : ∀ a e, statR st.tgt a = .found e → statR src a ≠ .notExist) :
    (cleanupPass src st).1.tgt = st.tgt := by
  unfold cleanupPass
  rcases hT : st.tgt with _ | t
  · rfl
  · dsimp only
    rw [cwalk_tgt_noop src [] t st h]
    exact hT

theorem cleanupPass_src_dead (src : Option FsTree) (st : St)
    (hclean : cleanOps ((cleanupPass src st).1.ops) = true)
    (a : Path) (e : FsTree)
    (hfound : statR (cleanupPass src st).1.tgt a = .found e) :
    statR src a ≠ .notExist := by
  intro hsrc
  rcases hT : st.tgt with _ | t
  · unfold cleanupPass at hfound
    rw [hT] at hfound
    dsimp only at hfound
    simp [statR] at hfound
  · unfold cleanupPass at hclean hfound
    rw [hT] at hclean hfound
    obtain ⟨e0, he0⟩ := cwalk_backfound src [] t st a e hfound
    have hsnap : statT t a = .found e0 := by
      rw [hT] at he0
      exact he0
    have hkill := cwalk_clean_kill src [] t st a e0 hclean hsnap (by simpa using hsrc)
    simp only [List.nil_append] at hkill
    rw [hkill] at hfound
    cases hfound

/-! ### The cleanup walk keeps directory entries -/

theorem cleanupVisit_anc_dir (src : Option FsTree) (q : Path) (d : Bool) (st : St)
    (p : Path) (dmt : Int) (dsz : Nat) (hpq : isUnder p q) (hne : p ≠ q)
    (dcs1 : List (String × FsTree)) (hp : statR st.tgt p = .found (.dir dmt dsz dcs1)) :
    ∃ cs2, statR (cleanupVisit src q d st).1.tgt p = .found (.dir dmt dsz cs2) := by
  by_cases hq : statR src q = .notExist
  · rcases hrm : removeEntry st.tgt q with _ | T'
    · rw [cleanupVisit_eq_fail src q d st hq hrm]
      exact ⟨dcs1, hp⟩
    · have hmain : ∃ cs2, statR T' p = .found (.dir dmt dsz cs2) := by
        obtain ⟨mt2, sz2, csA, csB, h3, h4⟩ := removeEntry_anc st.tgt q T' hrm p hpq hne
        rw [hp] at h3
        injection h3 with h5
        injection h5 with e1 e2 e3
        subst e1
        subst e2
        exact ⟨csB, h4⟩
      cases d
      · rw [cleanupVisit_eq_ok_file src q st T' hq hrm]
        exact hmain
      · rw [cleanupVisit_eq_ok_dir src q st T' hq hrm]
        exact hmain
  · rw [cleanupVisit_eq_keep src q d st hq]
    exact ⟨dcs1, hp⟩

mutual
theorem cwalk_anc_dir (src : Option FsTree) (base : Path) (t : FsTree) (st : St)
    (p : Path) (dmt : Int) (dsz : Nat) (hpb : isUnder p base) (hne : p ≠ base) :
    ∀ dcs1, statR st.tgt p = .found (.dir dmt dsz dcs1) →
    ∃ cs2, statR (cwalk src base t st).1.tgt p = .found (.dir dmt dsz cs2) := by
  cases t with
  | file mt c =>
      intro dcs1 hp
      rw [cwalk_file_eq]
      exact cleanupVisit_anc_dir src base false st p dmt dsz hpb hne dcs1 hp
  | dir dmt0 dsz0 dcs0 =>
      intro dcs1 hp
      rcases hcv : cleanupVisit src base true st with ⟨st1, removed⟩
      obtain ⟨cs1, h1⟩ : ∃ cs2, statR st1.tgt p = .found (.dir dmt dsz cs2) := by
        have h2 := cleanupVisit_anc_dir src base true st p dmt dsz hpb hne dcs1 hp
        rw [hcv] at h2
        exact h2
      cases removed with
      | true =>
          rw [cwalk_dir_removed src base dmt0 dsz0 dcs0 st st1 hcv]
          exact ⟨cs1, h1⟩
      | false =>
          rw [cwalk_dir_kept src base dmt0 dsz0 dcs0 st st1 hcv]
          exact cwalkList_anc_dir src base dcs0 st1 p dmt dsz hpb cs1 h1
termination_by sizeOf t
theorem cwalkList_anc_dir (src : Option FsTree) (base : Path) (cs : List (String × FsTree))
    (st : St) (p : Path) (dmt : Int) (dsz : Nat) (hpb : isUnder p base) :
    ∀ dcs1, statR st.tgt p = .found (.dir dmt dsz dcs1) →
    ∃ cs2, statR (cwalkList src base cs st).1.tgt p = .found (.dir dmt dsz cs2) := by
  cases cs with
  | nil =>
      intro dcs1 hp
      rw [cwalkList_nil_eq]
      exact ⟨dcs1, hp⟩
  | cons hd rest =>
      obtain ⟨n, c⟩ := hd
      intro dcs1 hp
      rw [cwalkList_cons_eq]
      have hpb2 : isUnder p (base ++ [n]) :=
        isUnder_trans p base (base ++ [n]) hpb (isUnder_append base [n])
      have hne2 : p ≠ base ++ [n] := by
        intro he
        have h9 := isUnder_length p base hpb
        rw [he] at h9
        simp only [List.length_append, List.length_cons, List.length_nil] at h9
        omega
      obtain ⟨cs1, h1⟩ := cwalk_anc_dir src (base ++ [n]) c st p dmt dsz hpb2 hne2 dcs1 hp
      exact cwalkList_anc_dir src base rest (cwalk src (base ++ [n]) c st).1 p dmt dsz hpb cs1 h1
termination_by sizeOf cs
end

theorem cwalkList_tframe_mem (src : Option FsTree) (base : Path)
    (cs : List (String × FsTree)) (st : St) (p : Path) :
    (∀ m2, m2 ∈ cs.map Prod.fst → ¬ isUnder (base ++ [m2]) p ∧ ¬ isUnder p (base ++ [m2])) →
    statR (cwalkList src base cs st).1.tgt p = statR st.tgt p := by
  induction cs generalizing st with
  | nil =>
      intro _
      rw [cwalkList_nil_eq]
  | cons hd rest ih =>
      obtain ⟨n, c⟩ := hd
      intro hms
      rw [cwalkList_cons_eq]
      have hh := hms n (by simp)
      rw [ih (cwalk src (base ++ [n]) c st).1 (fun m2 hm2 => hms m2 (by simp [hm2]))]
      exact cwalk_tframe src (base ++ [n]) c st p hh.1 hh.2

mutual
theorem cwalk_keeps_dir (src : Option FsTree) (base : Path) (t : FsTree) (st : St)
    (r : Path) (dmt : Int) (dsz : Nat) (dcs : List (String × FsTree))
    (hWF : WFt t = true) (hlive : statR st.tgt base = .found t)
    (hr : statT t r = .found (.dir dmt dsz dcs))
    (hcond : dcs ≠ [] ∨ statR src (base ++ r) ≠ .notExist) :
    ∃ cs2, statR (cwalk src base t st).1.tgt (base ++ r) = .found (.dir dmt dsz cs2) := by
  cases t with
  | file mt c =>
      cases r with
      | nil =>
          rw [statT_nil] at hr
          injection hr with h2
          exact FsTree.noConfusion h2
      | cons x r' =>
          rw [statT] at hr
          cases hr
  | dir dmt0 dsz0 dcs0 =>
      obtain ⟨hnd, hwl⟩ := WFt_dir dmt0 dsz0 dcs0 hWF
      cases r with
      | nil =>
          rw [statT_nil] at hr
          injection hr with h2
          injection h2 with e1 e2 e3
          subst e1
          subst e2
          subst e3
          simp only [List.append_nil] at hcond ⊢
          by_cases hq : statR src base = .notExist
          · have hdcs : dcs0 ≠ [] := by
              rcases hcond with h9 | h9
              · exact h9
              · exact absurd hq h9
            cases dcs0 with
            | nil => exact absurd rfl hdcs
            | cons c0 cs0' =>
                rcases hrm : removeEntry st.tgt base with _ | T'
                · have hfail := cleanupVisit_eq_fail src base true st hq hrm
                  rw [cwalk_dir_kept src base dmt0 dsz0 (c0 :: cs0') st _ hfail]
                  exact cwalkList_anc_dir src base (c0 :: cs0') _ base dmt0 dsz0
                    (isUnder_refl base) (c0 :: cs0') hlive
                · exfalso
                  obtain ⟨e2, he2, hrem2⟩ := removeEntry_found st.tgt base T' hrm
                  rw [hlive] at he2
                  injection he2 with h3
                  rw [← h3] at hrem2
                  simp [removable] at hrem2
          · have hkeep := cleanupVisit_eq_keep src base true st hq
            rw [cwalk_dir_kept src base dmt0 dsz0 dcs0 st st hkeep]
            exact cwalkList_anc_dir src base dcs0 st base dmt0 dsz0
              (isUnder_refl base) dcs0 hlive
      | cons n r' =>
          rw [statT] at hr
          rcases hf : findC dcs0 n with _ | c
          · rw [hf] at hr
            cases hr
          · rw [hf] at hr
            have hmem := findC_mem dcs0 n c hf
            have hpath : base ++ n :: r' = base ++ [n] ++ r' := by simp
            rw [hpath] at hcond ⊢
            by_cases hq : statR src base = .notExist
            · cases dcs0 with
              | nil => cases hmem
              | cons c0 cs0' =>
                  rcases hrm : removeEntry st.tgt base with _ | T'
                  · have hfail := cleanupVisit_eq_fail src base true st hq hrm
                    rw [cwalk_dir_kept src base dmt0 dsz0 (c0 :: cs0') st _ hfail]
                    have hlive2 : ∀ m cm, (m, cm) ∈ (c0 :: cs0') →
                        statR ({ st with ops := st.ops ++ [.removeFail base] } : St).tgt
                          (base ++ [m]) = .found cm := by
                      intro m cm hmemm
                      exact statR_found_child st.tgt base dmt0 dsz0 _ m cm hlive
                        (findC_mem_nodup _ m cm hnd hmemm)
                    exact cwalkList_keeps_dir src base (c0 :: cs0') _ hnd hwl hlive2
                      n c r' dmt dsz dcs hmem hr hcond
                  · exfalso
                    obtain ⟨e2, he2, hrem2⟩ := removeEntry_found st.tgt base T' hrm
                    rw [hlive] at he2
                    injection he2 with h3
                    rw [← h3] at hrem2
                    simp [removable] at hrem2
            · have hkeep := cleanupVisit_eq_keep src base true st hq
              rw [cwalk_dir_kept src base dmt0 dsz0 dcs0 st st hkeep]
              have hlive2 : ∀ m cm, (m, cm) ∈ dcs0 →
                  statR st.tgt (base ++ [m]) = .found cm := by
                intro m cm hmemm
                exact statR_found_child st.tgt base dmt0 dsz0 dcs0 m cm hlive
                  (findC_mem_nodup dcs0 m cm hnd hmemm)
              exact cwalkList_keeps_dir src base dcs0 st hnd hwl hlive2
                n c r' dmt dsz dcs hmem hr hcond
termination_by sizeOf t
theorem cwalkList_keeps_dir (src : Option FsTree) (base : Path)
    (cs : List (String × FsTree)) (st : St) :
    (cs.map Prod.fst).Nodup →
    WFl cs = true →
    (∀ m cm, (m, cm) ∈ cs → statR st.tgt (base ++ [m]) = .found cm) →
    ∀ n c r dmt dsz dcs, (n, c) ∈ cs → statT c r = .found (.dir dmt dsz dcs) →
    (dcs ≠ [] ∨ statR src (base ++ [n] ++ r) ≠ .notExist) →
    ∃ cs2, statR (cwalkList src base cs st).1.tgt (base ++ [n] ++ r) =
      .found (.dir dmt dsz cs2) := by
  cases cs with
  | nil =>
      intro _ _ _ n c r dmt dsz dcs hmem _ _
      cases hmem
  | cons hd rest =>
      obtain ⟨m, d⟩ := hd
      intro hnd hWFl hlive n c r dmt dsz dcs hmem hr hcond
      rw [cwalkList_cons_eq]
      have hnd1 : m ∉ rest.map Prod.fst := by
        rw [List.map_cons, List.nodup_cons] at hnd
        exact hnd.1
      have hnd2 : (rest.map Prod.fst).Nodup := by
        rw [List.map_cons, List.nodup_cons] at hnd
        exact hnd.2
      have hWF1 : WFt d = true := by
        simp only [WFl, Bool.and_eq_true] at hWFl
        exact hWFl.1
      have hWF2 : WFl rest = true := by
        simp only [WFl, Bool.and_eq_true] at hWFl
        exact hWFl.2
      rcases List.mem_cons.mp hmem with heq | hmem2
      · have hn : n = m := congrArg Prod.fst heq
        have hc : c = d := congrArg Prod.snd heq
        have hr2 : statT d r = .found (.dir dmt dsz dcs) := by
          rw [← hc]
          exact hr
        have hcond2 : dcs ≠ [] ∨ statR src (base ++ [m] ++ r) ≠ .notExist := by
          rw [← hn]
          exact hcond
        have hlived : statR st.tgt (base ++ [m]) = .found d :=
          hlive m d (List.mem_cons_self _ _)
        obtain ⟨cs1, h1⟩ := cwalk_keeps_dir src (base ++ [m]) d st r dmt dsz dcs
          hWF1 hlived hr2 hcond2
        have hms : ∀ m2, m2 ∈ rest.map Prod.fst →
            ¬ isUnder (base ++ [m2]) (base ++ [m] ++ r) ∧
            ¬ isUnder (base ++ [m] ++ r) (base ++ [m2]) := by
          intro m2 hm2
          have hne : m ≠ m2 := by
            intro he
            rw [he] at hnd1
            exact hnd1 hm2
          constructor
          · have h9 := isUnder_sib base m2 m (fun he => hne he.symm) [] r
            simpa using h9
          · have h9 := isUnder_sib base m m2 hne r []
            simpa using h9
        have hfr := cwalkList_tframe_mem src base rest (cwalk src (base ++ [m]) d st).1
          (base ++ [m] ++ r) hms
        rw [hn, hfr]
        exact ⟨cs1, h1⟩
      · have hlive2 : ∀ m2 cm, (m2, cm) ∈ rest →
            statR (cwalk src (base ++ [m]) d st).1.tgt (base ++ [m2]) = .found cm := by
          intro m2 cm hmm
          have hne : m ≠ m2 := by
            intro he
            rw [he] at hnd1
            exact hnd1 (List.mem_map.mpr ⟨(m2, cm), hmm, rfl⟩)
          have hi1 : ¬ isUnder (base ++ [m]) (base ++ [m2]) := by
            have h9 := isUnder_sib base m m2 hne [] []
            simpa using h9
          have hi2 : ¬ isUnder (base ++ [m2]) (base ++ [m]) := by
            have h9 := isUnder_sib base m2 m (fun he => hne he.symm) [] []
            simpa using h9
          rw [cwalk_tframe src (base ++ [m]) d st (base ++ [m2]) hi1 hi2]
          exact hlive m2 cm (List.mem_cons_of_mem _ hmm)
        exact cwalkList_keeps_dir src base rest (cwalk src (base ++ [m]) d st).1
          hnd2 hWF2 hlive2 n c r dmt dsz dcs hmem2 hr hcond
termination_by sizeOf cs
end

/-! ### Claim C5 -/

/-- C5 counterexample: with deletion enabled, the target file at a/b has no
corresponding path in source (the source holds a regular file at a, so
nothing exists at a/b), yet after the run it is still present: the cleanup
callback's os.IsNotExist test sees the ENOTDIR-style stat failure, not
not-exist, and removes nothing.  This refutes "every target entry whose
relative path has no corresponding path in source is removed - a file
unconditionally". -/
theorem c5_counterexample :
    existsAt (some (.dir 0 0 [("a", .file 5 [1])])) ["a", "b"] = false ∧
    statR (some (.dir 0 0 [("a", .file 5 [1])])) ["a", "b"] = .errOther ∧
    statR (SyncDirs (NewFileSync (some (.dir 0 0 [("a", .file 5 [1])]))
        (some (.dir 0 0 [("a", .dir 3 7 [("b", .file 7 [2])])])) true) noFailOracle).tgt
      ["a", "b"] = .found (.file 7 [2]) :=
  ⟨rfl, rfl, rfl⟩

/-- C5 (amended): over a well-formed target snapshot, the cleanup pass
removes exactly the entries whose source stat reports not-exist and that
os.Remove can delete - a file, or an empty directory (`removable`):
(1) such an entry at a not-exist source path is removed; (2) a target
file whose source stat does not report not-exist is never deleted and
keeps its exact content and timestamp; (3) a target directory is kept,
with its modification time and recorded size intact, whenever it is
non-empty (silently left in place even at a not-exist source path) or
its source stat does not report not-exist - only its child list may
shrink as its own missing children are removed. -/
theorem c5_cleanup_removal (src : Option FsTree) (st : St) (t0 : FsTree) (p : Path)
    (hsnap : st.tgt = some t0) (hWF : WFt t0 = true) :
    (∀ e, statT t0 p = .found e → removable e = true → statR src p = .notExist →
      statR (cleanupPass src st).1.tgt p = .notExist) ∧
    (∀ fmt fc, statT t0 p = .found (.file fmt fc) → statR src p ≠ .notExist →
      statR (cleanupPass src st).1.tgt p = .found (.file fmt fc)) ∧
    (∀ dmt dsz dcs, statT t0 p = .found (.dir dmt dsz dcs) →
      (dcs ≠ [] ∨ statR src p ≠ .notExist) →
      ∃ cs2, statR (cleanupPass src st).1.tgt p = .found (.dir dmt dsz cs2)) := by
  refine ⟨?_, ?_, ?_⟩
  · intro e hp hrem hsrc
    unfold cleanupPass
    rw [hsnap]
    have hlive : statR st.tgt [] = .found t0 := by
      rw [hsnap]
      exact statT_nil t0
    have h1 := cwalk_removes src [] t0 st p e hWF hlive hp hrem (by simpa using hsrc)
    simpa using h1
  · intro fmt fc hp hsrc
    unfold cleanupPass
    rw [hsnap]
    have hp2 : statR st.tgt p = .found (.file fmt fc) := by
      rw [hsnap]
      exact hp
    exact cwalk_keeps_file src [] t0 st p fmt fc hsrc hp2
  · intro dmt dsz dcs hp hcond
    unfold cleanupPass
    rw [hsnap]
    have hlive : statR st.tgt [] = .found t0 := by
      rw [hsnap]
      exact statT_nil t0
    have h1 := cwalk_keeps_dir src [] t0 st p dmt dsz dcs hWF hlive hp (by simpa using hcond)
    simpa using h1

/-- C5 witness: a target-only file x is removed by the cleanup pass; a
target file y that also exists in source survives unchanged; a non-empty
target-only directory d is left in place (its own missing child is
removed, but the directory survives with its metadata). -/
theorem c5_cleanup_removal_witness :
    statR (cleanupPass (some (.dir 0 0 []))
      ⟨some (.dir 0 0 [("x", .file 1 [2])]), [], []⟩).1.tgt ["x"] = .notExist ∧
    statR (cleanupPass (some (.dir 0 0 [("y", .file 3 [4])]))
      ⟨some (.dir 0 0 [("y", .file 3 [4])]), [], []⟩).1.tgt ["y"] = .found (.file 3 [4]) ∧
    (∃ cs2, statR (cleanupPass (some (.dir 0 0 []))
      ⟨some (.dir 0 0 [("d", .dir 9 4 [("k", .file 1 [2])])]), [], []⟩).1.tgt ["d"] =
        .found (.dir 9 4 cs2)) :=
  ⟨(c5_cleanup_removal (some (.dir 0 0 []))
      ⟨some (.dir 0 0 [("x", .file 1 [2])]), [], []⟩
      (.dir 0 0 [("x", .file 1 [2])]) ["x"] rfl (by decide)).1
      (.file 1 [2]) rfl rfl rfl,
   (c5_cleanup_removal (some (.dir 0 0 [("y", .file 3 [4])]))
      ⟨some (.dir 0 0 [("y", .file 3 [4])]), [], []⟩
      (.dir 0 0 [("y", .file 3 [4])]) ["y"] rfl (by decide)).2.1
      3 [4] rfl (fun hc => StatR.noConfusion hc),
   (c5_cleanup_removal (some (.dir 0 0 []))
      ⟨some (.dir 0 0 [("d", .dir 9 4 [("k", .file 1 [2])])]), [], []⟩
      (.dir 0 0 [("d", .dir 9 4 [("k", .file 1 [2])])]) ["d"] rfl (by decide)).2.2
      9 4 [("k", .file 1 [2])] rfl (Or.inl (fun hc => List.noConfusion hc))⟩

/-! ### Forward-walk preservation -/

mutual
theorem fwalk_keeps_notMissing (oracle : Oracle) (src : Option FsTree) (base : Path)
    (t : FsTree) (st : St) (p : Path) (hs : notMissing st.tgt p) :
    notMissing (fwalk oracle src base t st).1.tgt p := by
  cases t with
  | file mt c =>
      rw [fwalk_file_eq]
      exact syncFile_keeps_notMissing oracle src base mt c st p hs
  | dir mt sz cs =>
      rw [fwalk_dir_eq]
      have h1 : notMissing (syncDir base st).1.tgt p := syncDir_keeps_notMissing base st p hs
      exact fwalkList_keeps_notMissing oracle src base cs (syncDir base st).1 p h1
termination_by sizeOf t
theorem fwalkList_keeps_notMissing (oracle : Oracle) (src : Option FsTree) (base : Path)
    (cs : List (String × FsTree)) (st : St) (p : Path) (hs : notMissing st.tgt p) :
    notMissing (fwalkList oracle src base cs st).1.tgt p := by
  cases cs with
  | nil =>
      rw [fwalkList_nil_eq]
      exact hs
  | cons hd rest =>
      obtain ⟨n, c⟩ := hd
      rw [fwalkList_cons_eq]
      have h1 := fwalk_keeps_notMissing oracle src (base ++ [n]) c st p hs
      exact fwalkList_keeps_notMissing oracle src base rest _ p h1
termination_by sizeOf cs
end

mutual
theorem fwalk_keeps_syncedF (oracle : Oracle) (src : Option FsTree) (base : Path)
    (t : FsTree) (st : St) (p : Path) (pmt : Int) (pc : List Nat)
    (h1 : ¬ isUnder p base) (h2 : ¬ isUnder base p)
    (hs : syncedF st.tgt p pmt pc) :
    syncedF (fwalk oracle src base t st).1.tgt p pmt pc := by
  cases t with
  | file mt c =>
      rw [fwalk_file_eq]
      have hne : p ≠ base := by
        intro he
        subst he
        exact h2 (isUnder_refl p)
      exact syncFile_keeps_syncedF oracle src base mt c st p pmt pc hne h1 hs
  | dir mt sz cs =>
      rw [fwalk_dir_eq]
      have hstep : syncedF (syncDir base st).1.tgt p pmt pc :=
        syncDir_keeps_syncedF base st p pmt pc h1 hs
      have hms : ∀ m, m ∈ cs.map Prod.fst →
          ¬ isUnder p (base ++ [m]) ∧ ¬ isUnder (base ++ [m]) p := by
        intro m _
        exact isUnder_incomp_snoc p base m h1 h2
      exact fwalkList_keeps_syncedF oracle src base cs (syncDir base st).1 p pmt pc hms hstep
termination_by sizeOf t
theorem fwalkList_keeps_syncedF (oracle : Oracle) (src : Option FsTree) (base : Path)
    (cs : List (String × FsTree)) (st : St) (p : Path) (pmt : Int) (pc : List Nat) :
    (∀ m, m ∈ cs.map Prod.fst → ¬ isUnder p (base ++ [m]) ∧ ¬ isUnder (base ++ [m]) p) →
    syncedF st.tgt p pmt pc →
    syncedF (fwalkList oracle src base cs st).1.tgt p pmt pc := by
  cases cs with
  | nil =>
      intro _ hs
      rw [fwalkList_nil_eq]
      exact hs
  | cons hd rest =>
      obtain ⟨n, c⟩ := hd
      intro hms hs
      rw [fwalkList_cons_eq]
      have hh := hms n (by simp)
      have h1 := fwalk_keeps_syncedF oracle src (base ++ [n]) c st p pmt pc hh.1 hh.2 hs
      have hms2 : ∀ m, m ∈ rest.map Prod.fst →
          ¬ isUnder p (base ++ [m]) ∧ ¬ isUnder (base ++ [m]) p := by
        intro m hm
        exact hms m (by simp [hm])
      exact fwalkList_keeps_syncedF oracle src base rest
        (fwalk oracle src (base ++ [n]) c st).1 p pmt pc hms2 h1
termination_by sizeOf cs
end

/-! ### The forward pass only touches paths that exist in source (C6) -/

mutual
theorem fwalk_src_frame (oracle : Oracle) (src : Option FsTree) (base : Path) (t : FsTree)
    (st : St) (p : Path) (hco : statR src base = .found t) (hWF : WFt t = true)
    (hp : statR src p = .notExist) :
    statR (fwalk oracle src base t st).1.tgt p = statR st.tgt p := by
  cases t with
  | file mt c =>
      rw [fwalk_file_eq]
      rcases syncFile_tgt_cases oracle src base mt c st with h | ⟨t', hcf, h⟩
      · rw [h]
      · rw [h]
        have hn1 : ¬ isUnder p base := by
          intro hc
          obtain ⟨r0, hr0⟩ := hc
          subst hr0
          obtain ⟨dd, hdd⟩ := statR_found_anc p r0 src _ hco
          rw [hp] at hdd
          cases hdd
        have hn2 : ¬ isUnder base p := by
          intro hc
          obtain ⟨r0, hr0⟩ := hc
          subst hr0
          cases r0 with
          | nil =>
              rw [List.append_nil] at hp
              rw [hco] at hp
              cases hp
          | cons x r0' =>
              have h3 := statR_file_below base (x :: r0') src mt c hco (by simp)
              rw [hp] at h3
              cases h3
        exact copyFile_frame oracle src st.tgt base t' hcf p hn1 hn2
  | dir dmt dsz dcs =>
      rw [fwalk_dir_eq]
      obtain ⟨hnd, hwl⟩ := WFt_dir dmt dsz dcs hWF
      have hstep : statR (syncDir base st).1.tgt p = statR st.tgt p := by
        rcases syncDir_cases base st with h | ⟨t', hstat, hmk, h⟩
        · rw [h]
        · rw [h]
          have hub : ¬ isUnder p base := by
            intro hc
            obtain ⟨r0, hr0⟩ := hc
            subst hr0
            obtain ⟨dd, hdd⟩ := statR_found_anc p r0 src _ hco
            rw [hp] at hdd
            cases hdd
          exact mkdirAll_frame base st.tgt t' hmk p hub
      have hcol : ∀ m cm, (m, cm) ∈ dcs →
          statR src (base ++ [m]) = .found cm ∧ WFt cm = true := by
        intro m cm hmm
        constructor
        · exact statR_found_child src base dmt dsz dcs m cm hco
            (findC_mem_nodup dcs m cm hnd hmm)
        · exact WFl_mem dcs m cm hwl hmm
      have h1 := fwalkList_src_frame oracle src base dcs (syncDir base st).1 p hcol hp
      rw [h1, hstep]
termination_by sizeOf t
theorem fwalkList_src_frame (oracle : Oracle) (src : Option FsTree) (base : Path)
    (cs : List (String × FsTree)) (st : St) (p : Path) :
    (∀ m cm, (m, cm) ∈ cs → statR src (base ++ [m]) = .found cm ∧ WFt cm = true) →
    statR src p = .notExist →
    statR (fwalkList oracle src base cs st).1.tgt p = statR st.tgt p := by
  cases cs with
  | nil =>
      intro _ _
      rw [fwalkList_nil_eq]
  | cons hd rest =>
      obtain ⟨n, c⟩ := hd
      intro hcol hp
      rw [fwalkList_cons_eq]
      have hh := hcol n c (List.mem_cons_self _ _)
      have h1 := fwalk_src_frame oracle src (base ++ [n]) c st p hh.1 hh.2 hp
      have hcol2 : ∀ m cm, (m, cm) ∈ rest →
          statR src (base ++ [m]) = .found cm ∧ WFt cm = true := by
        intro m cm hmm
        exact hcol m cm (List.mem_cons_of_mem _ hmm)
      have h2 := fwalkList_src_frame oracle src base rest
        (fwalk oracle src (base ++ [n]) c st).1 p hcol2 hp
      rw [h2, h1]
termination_by sizeOf cs
end

/-! ### The forward pass never attempts a removal -/

theorem noRemoves_snoc (a : List OpEvent) (e : OpEvent) (ha : noRemoves a = true)
    (he : isRemoveEvent e = false) : noRemoves (a ++ [e]) = true := by
  rw [noRemoves_append, ha]
  simp [noRemoves, he]

theorem syncFile_noRemoves (oracle : Oracle) (src : Option FsTree) (p : Path) (mt : Int)
    (content : List Nat) (st : St) (h : noRemoves st.ops = true) :
    noRemoves ((syncFile oracle src p mt content st).1.ops) = true := by
  by_cases hfail : oracle.srcStatFails p = true
  · rw [syncFile_eq_fail oracle src p mt content st hfail]
    exact noRemoves_snoc st.ops (.statSrcFail p) h rfl
  · have hfail2 : oracle.srcStatFails p = false := by simpa using hfail
    rcases hstat : statR st.tgt p with t | _ | _
    · by_cases hsame : sameFile ⟨false, content.length, mt⟩ (infoOf t) = true
      · rw [syncFile_skip oracle src p mt content st t hfail2 hstat hsame]
        exact h
      · rw [syncFile_eq_copy_diff oracle src p mt content st t hfail2 hstat (by simpa using hsame)]
        rcases hcf : copyFile oracle src st.tgt p p with _ | t'
        · rw [doCopy_eq_fail oracle src p st hcf]
          exact noRemoves_snoc st.ops (.copyFail p) h rfl
        · rw [doCopy_eq_ok oracle src p st t' hcf]
          exact noRemoves_snoc st.ops (.copyOk p) h rfl
    · rw [syncFile_eq_copy_notExist oracle src p mt content st hfail2 hstat]
      rcases hcf : copyFile oracle src st.tgt p p with _ | t'
      · rw [doCopy_eq_fail oracle src p st hcf]
        exact noRemoves_snoc st.ops (.copyFail p) h rfl
      · rw [doCopy_eq_ok oracle src p st t' hcf]
        exact noRemoves_snoc st.ops (.copyOk p) h rfl
    · rw [syncFile_eq_err oracle src p mt content st hfail2 hstat]
      exact noRemoves_snoc st.ops (.tgtStatProblem p) h rfl

theorem syncDir_noRemoves (p : Path) (st : St) (h : noRemoves st.ops = true) :
    noRemoves ((syncDir p st).1.ops) = true := by
  rcases hstat : statR st.tgt p with t | _ | _
  · rw [syncDir_skip p st (by rw [hstat]; exact fun hc => StatR.noConfusion hc)]
    exact h
  · rcases hmk : mkdirAll st.tgt p with _ | t'
    · have hres : syncDir p st =
          ({ st with log := st.log ++ [.mkdirFailed p], ops := st.ops ++ [.mkdirFail p] }, none) := by
        unfold syncDir
        rw [hstat, hmk]
      rw [hres]
      exact noRemoves_snoc st.ops (.mkdirFail p) h rfl
    · have hres : syncDir p st =
          ({ st with tgt := some t', log := st.log ++ [.createdDir p], ops := st.ops ++ [.mkdirOk p] }, none) := by
        unfold syncDir
        rw [hstat, hmk]
      rw [hres]
      exact noRemoves_snoc st.ops (.mkdirOk p) h rfl
  · rw [syncDir_skip p st (by rw [hstat]; exact fun hc => StatR.noConfusion hc)]
    exact h

mutual
theorem fwalk_noRemoves (oracle : Oracle) (src : Option FsTree) (base : Path) (t : FsTree)
    (st : St) (h : noRemoves st.ops = true) :
    noRemoves ((fwalk oracle src base t st).1.ops) = true := by
  cases t with
  | file mt c =>
      rw [fwalk_file_eq]
      exact syncFile_noRemoves oracle src base mt c st h
  | dir mt sz cs =>
      rw [fwalk_dir_eq]
      have h1 := syncDir_noRemoves base st h
      exact fwalkList_noRemoves oracle src base cs (syncDir base st).1 h1
termination_by sizeOf t
theorem fwalkList_noRemoves (oracle : Oracle) (src : Option FsTree) (base : Path)
    (cs : List (String × FsTree)) (st : St) (h : noRemoves st.ops = true) :
    noRemoves ((fwalkList oracle src base cs st).1.ops) = true := by
  cases cs with
  | nil =>
      rw [fwalkList_nil_eq]
      exact h
  | cons hd rest =>
      obtain ⟨n, c⟩ := hd
      rw [fwalkList_cons_eq]
      have h1 := fwalk_noRemoves oracle src (base ++ [n]) c st h
      exact fwalkList_noRemoves oracle src base rest _ h1
termination_by sizeOf cs
end

/-! ### A clean forward pass establishes the synced state -/

mutual
theorem fwalk_estab (oracle : Oracle) (src : Option FsTree) (base : Path) (t : FsTree)
    (st : St) (hWF : WFt t = true) (hco : statR src base = .found t)
    (hclean : cleanOps ((fwalk oracle src base t st).1.ops) = true) :
    (∀ r fmt fc, statT t r = .found (.file fmt fc) →
      oracle.srcStatFails (base ++ r) = false ∧
      syncedF (fwalk oracle src base t st).1.tgt (base ++ r) fmt fc) ∧
    (∀ r d2 d3 d4, statT t r = .found (.dir d2 d3 d4) →
      notMissing (fwalk oracle src base t st).1.tgt (base ++ r)) := by
  cases t with
  | file mt c =>
      rw [fwalk_file_eq] at hclean ⊢
      constructor
      · intro r fmt fc hr
        cases r with
        | nil =>
            rw [statT_nil] at hr
            injection hr with h2
            injection h2 with hmt hc2
            subst hmt
            subst hc2
            rw [List.append_nil]
            obtain ⟨hfail, hcase⟩ := syncFile_clean oracle src base mt c st hclean
            refine ⟨hfail, ?_⟩
            rcases hcase with ⟨t0, hstat, hsame, heq2⟩ | ⟨t', hcf, htgt⟩
            · rw [heq2]
              exact ⟨t0, hstat, hsame⟩
            · have hpost := copyFile_post oracle src st.tgt base mt c t' hfail hco hcf
              rw [htgt]
              exact ⟨.file mt c, hpost, sameFile_file_self mt c⟩
        | cons x r' =>
            rw [statT] at hr
            cases hr
      · intro r d2 d3 d4 hr
        cases r with
        | nil =>
            rw [statT_nil] at hr
            injection hr with h2
            exact FsTree.noConfusion h2
        | cons x r' =>
            rw [statT] at hr
            cases hr
  | dir dmt0 dsz0 dcs0 =>
      obtain ⟨hnd, hwl⟩ := WFt_dir dmt0 dsz0 dcs0 hWF
      rw [fwalk_dir_eq] at hclean ⊢
      have hcleansd : cleanOps ((syncDir base st).1.ops) = true := by
        obtain ⟨d2, hd2⟩ := fwalkList_ops_append oracle src base dcs0 (syncDir base st).1
        rw [hd2, cleanOps_append, Bool.and_eq_true] at hclean
        exact hclean.1
      have hnm1 : statR (syncDir base st).1.tgt base ≠ .notExist := syncDir_clean base st hcleansd
      have hcol : ∀ m cm, (m, cm) ∈ dcs0 → statR src (base ++ [m]) = .found cm := by
        intro m cm hmm
        exact statR_found_child src base dmt0 dsz0 dcs0 m cm hco
          (findC_mem_nodup dcs0 m cm hnd hmm)
      have hwfm : ∀ m cm, (m, cm) ∈ dcs0 → WFt cm = true := by
        intro m cm hmm
        exact WFl_mem dcs0 m cm hwl hmm
      have hlist := fwalkList_estab oracle src base dcs0 (syncDir base st).1 hnd hwfm hcol hclean
      constructor
      · intro r fmt fc hr
        cases r with
        | nil =>
            rw [statT_nil] at hr
            injection hr with h2
            exact FsTree.noConfusion h2
        | cons n r' =>
            rw [statT] at hr
            rcases hf : findC dcs0 n with _ | cm
            · rw [hf] at hr
              cases hr
            · rw [hf] at hr
              have hmm := findC_mem dcs0 n cm hf
              have h4 := (hlist n cm hmm).1 r' fmt fc hr
              have hpath : base ++ n :: r' = base ++ [n] ++ r' := by simp
              rw [hpath]
              exact h4
      · intro r d2 d3 d4 hr
        cases r with
        | nil =>
            rw [List.append_nil]
            exact fwalkList_keeps_notMissing oracle src base dcs0 (syncDir base st).1 base hnm1
        | cons n r' =>
            rw [statT] at hr
            rcases hf : findC dcs0 n with _ | cm
            · rw [hf] at hr
              cases hr
            · rw [hf] at hr
              have hmm := findC_mem dcs0 n cm hf
              have h4 := (hlist n cm hmm).2 r' d2 d3 d4 hr
              have hpath : base ++ n :: r' = base ++ [n] ++ r' := by simp
              rw [hpath]
              exact h4
termination_by sizeOf t
theorem fwalkList_estab (oracle : Oracle) (src : Option FsTree) (base : Path)
    (cs : List (String × FsTree)) (st : St) :
    (cs.map Prod.fst).Nodup →
    (∀ m cm, (m, cm) ∈ cs → WFt cm = true) →
    (∀ m cm, (m, cm) ∈ cs → statR src (base ++ [m]) = .found cm) →
    cleanOps ((fwalkList oracle src base cs st).1.ops) = true →
    ∀ m cm, (m, cm) ∈ cs →
      (∀ r fmt fc, statT cm r = .found (.file fmt fc) →
        oracle.srcStatFails (base ++ [m] ++ r) = false ∧
        syncedF (fwalkList oracle src base cs st).1.tgt (base ++ [m] ++ r) fmt fc) ∧
      (∀ r d2 d3 d4, statT cm r = .found (.dir d2 d3 d4) →
        notMissing (fwalkList oracle src base cs st).1.tgt (base ++ [m] ++ r)) := by
  cases cs with
  | nil =>
      intro _ _ _ _ m cm hmm
      cases hmm
  | cons hd rest =>
      obtain ⟨mh, ch⟩ := hd
      intro hnd hwfm hcol hclean m cm hmm
      rw [fwalkList_cons_eq] at hclean ⊢
      have hcleanhead : cleanOps ((fwalk oracle src (base ++ [mh]) ch st).1.ops) = true := by
        obtain ⟨d2, hd2⟩ := fwalkList_ops_append oracle src base rest
          (fwalk oracle src (base ++ [mh]) ch st).1
        rw [hd2, cleanOps_append, Bool.and_eq_true] at hclean
        exact hclean.1
      rcases List.mem_cons.mp hmm with heq | hmm2
      · have hm1 : m = mh := congrArg Prod.fst heq
        have hc1 : cm = ch := congrArg Prod.snd heq
        have hhead := fwalk_estab oracle src (base ++ [mh]) ch st
          (hwfm mh ch (List.mem_cons_self _ _)) (hcol mh ch (List.mem_cons_self _ _)) hcleanhead
        have hndrest : mh ∉ rest.map Prod.fst := by
          rw [List.map_cons, List.nodup_cons] at hnd
          exact hnd.1
        constructor
        · intro r fmt fc hr
          have hr2 : statT ch r = .found (.file fmt fc) := by
            rw [← hc1]
            exact hr
          have h4 := hhead.1 r fmt fc hr2
          rw [hm1]
          refine ⟨h4.1, ?_⟩
          refine fwalkList_keeps_syncedF oracle src base rest
            (fwalk oracle src (base ++ [mh]) ch st).1 (base ++ [mh] ++ r) fmt fc ?_ h4.2
          intro m2 hm2
          have hne : mh ≠ m2 := by
            intro he
            rw [he] at hndrest
            exact hndrest hm2
          constructor
          · have h9 := isUnder_sib base mh m2 hne r []
            simpa using h9
          · have h9 := isUnder_sib base m2 mh (fun he => hne he.symm) [] r
            simpa using h9
        · intro r d2 d3 d4 hr
          have hr2 : statT ch r = .found (.dir d2 d3 d4) := by
            rw [← hc1]
            exact hr
          have h4 := hhead.2 r d2 d3 d4 hr2
          rw [hm1]
          exact fwalkList_keeps_notMissing oracle src base rest
            (fwalk oracle src (base ++ [mh]) ch st).1 (base ++ [mh] ++ r) h4
      · have hnd2 : (rest.map Prod.fst).Nodup := by
          rw [List.map_cons, List.nodup_cons] at hnd
          exact hnd.2
        have hwfm2 : ∀ m2 cm2, (m2, cm2) ∈ rest → WFt cm2 = true := by
          intro m2 cm2 h9
          exact hwfm m2 cm2 (List.mem_cons_of_mem _ h9)
        have hcol2 : ∀ m2 cm2, (m2, cm2) ∈ rest → statR src (base ++ [m2]) = .found cm2 := by
          intro m2 cm2 h9
          exact hcol m2 cm2 (List.mem_cons_of_mem _ h9)
        exact fwalkList_estab oracle src base rest
          (fwalk oracle src (base ++ [mh]) ch st).1 hnd2 hwfm2 hcol2 hclean m cm hmm2
termination_by sizeOf cs
end

/-! ### A synced state makes the forward pass a no-op -/

mutual
theorem fwalk_noop (oracle : Oracle) (src : Option FsTree) (base : Path) (t : FsTree)
    (st : St) (hWF : WFt t = true)
    (hfile : ∀ r fmt fc, statT t r = .found (.file fmt fc) →
      oracle.srcStatFails (base ++ r) = false ∧ syncedF st.tgt (base ++ r) fmt fc)
    (hdir : ∀ r d2 d3 d4, statT t r = .found (.dir d2 d3 d4) →
      notMissing st.tgt (base ++ r)) :
    fwalk oracle src base t st = (st, none) := by
  cases t with
  | file mt c =>
      rw [fwalk_file_eq]
      have hf := hfile [] mt c (statT_nil _)
      rw [List.append_nil] at hf
      obtain ⟨t0, hfound, hsame⟩ := hf.2
      exact syncFile_skip oracle src base mt c st t0 hf.1 hfound hsame
  | dir dmt dsz dcs =>
      obtain ⟨hnd, hwl⟩ := WFt_dir dmt dsz dcs hWF
      have hd0 := hdir [] dmt dsz dcs (statT_nil _)
      rw [List.append_nil] at hd0
      have hsd : syncDir base st = (st, none) := syncDir_skip base st hd0
      rw [fwalk_dir_eq, hsd]
      refine fwalkList_noop oracle src base dcs st ?_
      intro m cm hmm
      have hfm := findC_mem_nodup dcs m cm hnd hmm
      refine ⟨WFl_mem dcs m cm hwl hmm, ?_, ?_⟩
      · intro r fmt fc hstat
        have h3 : statT (.dir dmt dsz dcs) (m :: r) = .found (.file fmt fc) := by
          rw [statT_dir_cons dmt dsz dcs m r cm hfm]
          exact hstat
        have h4 := hfile (m :: r) fmt fc h3
        have hpath : base ++ m :: r = base ++ [m] ++ r := by simp
        rw [hpath] at h4
        exact h4
      · intro r d2 d3 d4 hstat
        have h3 : statT (.dir dmt dsz dcs) (m :: r) = .found (.dir d2 d3 d4) := by
          rw [statT_dir_cons dmt dsz dcs m r cm hfm]
          exact hstat
        have h4 := hdir (m :: r) d2 d3 d4 h3
        have hpath : base ++ m :: r = base ++ [m] ++ r := by simp
        rw [hpath] at h4
        exact h4
termination_by sizeOf t
theorem fwalkList_noop (oracle : Oracle) (src : Option FsTree) (base : Path)
    (cs : List (String × FsTree)) (st : St) :
    (∀ m cm, (m, cm) ∈ cs → WFt cm = true ∧
      (∀ r fmt fc, statT cm r = .found (.file fmt fc) →
        oracle.srcStatFails (base ++ [m] ++ r) = false ∧
        syncedF st.tgt (base ++ [m] ++ r) fmt fc) ∧
      (∀ r d2 d3 d4, statT cm r = .found (.dir d2 d3 d4) →
        notMissing st.tgt (base ++ [m] ++ r))) →
    fwalkList oracle src base cs st = (st, none) := by
  cases cs with
  | nil =>
      intro _
      rw [fwalkList_nil_eq]
  | cons hd rest =>
      obtain ⟨n, c⟩ := hd
      intro hcolf
      rw [fwalkList_cons_eq]
      have hh := hcolf n c (List.mem_cons_self _ _)
      have h1 : fwalk oracle src (base ++ [n]) c st = (st, none) :=
        fwalk_noop oracle src (base ++ [n]) c st hh.1 hh.2.1 hh.2.2
      rw [h1]
      refine fwalkList_noop oracle src base rest st ?_
      intro m cm hmm
      exact hcolf m cm (List.mem_cons_of_mem _ hmm)
termination_by sizeOf cs
end

/-! ### Pass-level wrappers for the two runs -/

theorem statR_anc_not_missing (src : Option FsTree) (r : Path) (e : FsTree)
    (he : statR src r = .found e) (a : Path) (ha : isUnder a r) :
    statR src a ≠ .notExist := by
  obtain ⟨u, hu⟩ := ha
  subst hu
  intro hcon
  obtain ⟨d, hd⟩ := statR_found_anc a u src e he
  rw [hcon] at hd
  cases hd

theorem forwardPass_src_frame (oracle : Oracle) (src : Option FsTree) (st : St) (p : Path)
    (hWF : WFo src = true) (hp : statR src p = .notExist) :
    statR (forwardPass oracle src st).1.tgt p = statR st.tgt p := by
  cases src with
  | none => rfl
  | some t =>
      have hco : statR (some t) [] = .found t := statT_nil t
      have hWFt : WFt t = true := by simpa [WFo] using hWF
      exact fwalk_src_frame oracle (some t) [] t st p hco hWFt hp

theorem forwardPass_noRemoves (oracle : Oracle) (src : Option FsTree) (st : St)
    (h : noRemoves st.ops = true) :
    noRemoves ((forwardPass oracle src st).1.ops) = true := by
  cases src with
  | none => exact h
  | some t => exact fwalk_noRemoves oracle (some t) [] t st h

theorem forwardPass_estab (oracle : Oracle) (src T : Option FsTree)
    (hWF : WFo src = true)
    (hclean : cleanOps ((forwardPass oracle src ⟨T, [], []⟩).1.ops) = true) :
    (∀ r fmt fc, statR src r = .found (.file fmt fc) →
      oracle.srcStatFails r = false ∧
      syncedF (forwardPass oracle src ⟨T, [], []⟩).1.tgt r fmt fc) ∧
    (∀ r d2 d3 d4, statR src r = .found (.dir d2 d3 d4) →
      notMissing (forwardPass oracle src ⟨T, [], []⟩).1.tgt r) := by
  cases src with
  | none =>
      constructor
      · intro r fmt fc hr
        simp [statR] at hr
      · intro r d2 d3 d4 hr
        simp [statR] at hr
  | some t =>
      have hWFt : WFt t = true := by simpa [WFo] using hWF
      have hcleanf : cleanOps ((fwalk oracle (some t) [] t ⟨T, [], []⟩).1.ops) = true := hclean
      have hco : statR (some t) [] = .found t := statT_nil t
      have hroot := fwalk_estab oracle (some t) [] t ⟨T, [], []⟩ hWFt hco hcleanf
      constructor
      · intro r fmt fc hr
        have h4 := hroot.1 r fmt fc hr
        simpa using h4
      · intro r d2 d3 d4 hr
        have h4 := hroot.2 r d2 d3 d4 hr
        simpa using h4

theorem forwardPass_noop (oracle : Oracle) (src T2 : Option FsTree)
    (hWF : WFo src = true)
    (hfile : ∀ r fmt fc, statR src r = .found (.file fmt fc) →
      oracle.srcStatFails r = false ∧ syncedF T2 r fmt fc)
    (hdir : ∀ r d2 d3 d4, statR src r = .found (.dir d2 d3 d4) → notMissing T2 r) :
    (forwardPass oracle src ⟨T2, [], []⟩).1.tgt = T2 ∧
    (forwardPass oracle src ⟨T2, [], []⟩).1.ops = [] := by
  cases src with
  | none => exact ⟨rfl, rfl⟩
  | some t =>
      have hWFt : WFt t = true := by simpa [WFo] using hWF
      have hnoop : fwalk oracle (some t) [] t ⟨T2, [], []⟩ = (⟨T2, [], []⟩, none) := by
        refine fwalk_noop oracle (some t) [] t ⟨T2, [], []⟩ hWFt ?_ ?_
        · intro r fmt fc hr
          have h4 := hfile r fmt fc hr
          simpa using h4
        · intro r d2 d3 d4 hr
          have h4 := hdir r d2 d3 d4 hr
          simpa using h4
      constructor
      · show (fwalk oracle (some t) [] t ⟨T2, [], []⟩).1.tgt = T2
        rw [hnoop]
      · show (fwalk oracle (some t) [] t ⟨T2, [], []⟩).1.ops = []
        rw [hnoop]

theorem SyncDirs_false_eq (src T : Option FsTree) (oracle : Oracle) :
    SyncDirs (NewFileSync src T false) oracle =
      ⟨(forwardPass oracle src ⟨T, [], []⟩).1.tgt, (forwardPass oracle src ⟨T, [], []⟩).1.log,
       (forwardPass oracle src ⟨T, [], []⟩).1.ops, none⟩ := by
  unfold SyncDirs NewFileSync
  dsimp only
  rcases hf : forwardPass oracle src ⟨T, [], []⟩ with ⟨st1, e⟩
  have he : e = none := by
    have h3 := forwardPass_err oracle src ⟨T, [], []⟩
    rw [hf] at h3
    exact h3
  subst he
  rfl

theorem SyncDirs_true_eq (src T : Option FsTree) (oracle : Oracle) :
    SyncDirs (NewFileSync src T true) oracle =
      ⟨(cleanupPass src (forwardPass oracle src ⟨T, [], []⟩).1).1.tgt,
       (cleanupPass src (forwardPass oracle src ⟨T, [], []⟩).1).1.log,
       (cleanupPass src (forwardPass oracle src ⟨T, [], []⟩).1).1.ops,
       (cleanupPass src (forwardPass oracle src ⟨T, [], []⟩).1).2⟩ := by
  unfold SyncDirs NewFileSync
  dsimp only
  rcases hf : forwardPass oracle src ⟨T, [], []⟩ with ⟨st1, e⟩
  have he : e = none := by
    have h3 := forwardPass_err oracle src ⟨T, [], []⟩
    rw [hf] at h3
    exact h3
  subst he
  rfl

/-! ### Claim C6 -/

/-- C6: with deleteMissing false the cleanup pass does not run - no removal
is ever attempted (the run's operation trace is remove-free) - and, over a
well-formed source, the target stat at every path that does not exist in
the source is exactly what it was before the run: target-only entries are
left untouched regardless of source state. -/
theorem c6_no_delete_frame (src T : Option FsTree) (oracle : Oracle) (p : Path)
    (hWF : WFo src = true) (hp : statR src p = .notExist) :
    statR (SyncDirs (NewFileSync src T false) oracle).tgt p = statR T p ∧
    noRemoves ((SyncDirs (NewFileSync src T false) oracle).ops) = true := by
  rw [SyncDirs_false_eq src T oracle]
  constructor
  · exact forwardPass_src_frame oracle src ⟨T, [], []⟩ p hWF hp
  · exact forwardPass_noRemoves oracle src ⟨T, [], []⟩ rfl

/-- C6 witness: a target-only file x survives a deletion-disabled run
against an empty source, and the trace holds no removal. -/
theorem c6_no_delete_frame_witness :
    statR (SyncDirs (NewFileSync (some (.dir 0 0 []))
        (some (.dir 0 0 [("x", .file 1 [2])])) false) noFailOracle).tgt ["x"] =
      statR (some (.dir 0 0 [("x", .file 1 [2])])) ["x"] ∧
    noRemoves ((SyncDirs (NewFileSync (some (.dir 0 0 []))
        (some (.dir 0 0 [("x", .file 1 [2])])) false) noFailOracle).ops) = true :=
  c6_no_delete_frame (some (.dir 0 0 [])) (some (.dir 0 0 [("x", .file 1 [2])]))
    noFailOracle ["x"] (by decide) rfl

/-! ### Claim C3 -/

/-- C3: idempotence.  For a well-formed source, if every operation of the
first run succeeded (its trace is clean), then a second run from the first
run's final target leaves the target tree identical, attempts no copy, and
returns no error. -/
theorem c3_idempotent (src T : Option FsTree) (dm : Bool) (oracle : Oracle)
    (hWF : WFo src = true)
    (hclean : cleanOps ((SyncDirs (NewFileSync src T dm) oracle).ops) = true) :
    (SyncDirs (NewFileSync src (SyncDirs (NewFileSync src T dm) oracle).tgt dm) oracle).tgt =
      (SyncDirs (NewFileSync src T dm) oracle).tgt ∧
    noCopies ((SyncDirs (NewFileSync src
      (SyncDirs (NewFileSync src T dm) oracle).tgt dm) oracle).ops) = true ∧
    (SyncDirs (NewFileSync src (SyncDirs (NewFileSync src T dm) oracle).tgt dm) oracle).err = none := by
  have herr := syncDirs_err_none
    (NewFileSync src (SyncDirs (NewFileSync src T dm) oracle).tgt dm) oracle
  cases dm with
  | false =>
      have htgt1 : (SyncDirs (NewFileSync src T false) oracle).tgt =
          (forwardPass oracle src ⟨T, [], []⟩).1.tgt := by
        rw [SyncDirs_false_eq]
      have hclean1 : cleanOps ((forwardPass oracle src ⟨T, [], []⟩).1.ops) = true := by
        rw [SyncDirs_false_eq] at hclean
        exact hclean
      obtain ⟨hfile0, hdir0⟩ := forwardPass_estab oracle src T hWF hclean1
      have hfile2 : ∀ r fmt fc, statR src r = .found (.file fmt fc) →
          oracle.srcStatFails r = false ∧
          syncedF (SyncDirs (NewFileSync src T false) oracle).tgt r fmt fc := by
        intro r fmt fc hr
        rw [htgt1]
        exact hfile0 r fmt fc hr
      have hdir2 : ∀ r d2 d3 d4, statR src r = .found (.dir d2 d3 d4) →
          notMissing (SyncDirs (NewFileSync src T false) oracle).tgt r := by
        intro r d2 d3 d4 hr
        rw [htgt1]
        exact hdir0 r d2 d3 d4 hr
      obtain ⟨hnp1, hnp2⟩ := forwardPass_noop oracle src
        (SyncDirs (NewFileSync src T false) oracle).tgt hWF hfile2 hdir2
      refine ⟨?_, ?_, herr⟩
      · rw [SyncDirs_false_eq src ((SyncDirs (NewFileSync src T false) oracle).tgt) oracle]
        exact hnp1
      · rw [SyncDirs_false_eq src ((SyncDirs (NewFileSync src T false) oracle).tgt) oracle]
        show noCopies ((forwardPass oracle src
          ⟨(SyncDirs (NewFileSync src T false) oracle).tgt, [], []⟩).1.ops) = true
        rw [hnp2]
        rfl
  | true =>
      have htgt1 : (SyncDirs (NewFileSync src T true) oracle).tgt =
          (cleanupPass src (forwardPass oracle src ⟨T, [], []⟩).1).1.tgt := by
        rw [SyncDirs_true_eq]
      have hcleanC : cleanOps ((cleanupPass src (forwardPass oracle src ⟨T, [], []⟩).1).1.ops) = true := by
        rw [SyncDirs_true_eq] at hclean
        exact hclean
      have hclean1 : cleanOps ((forwardPass oracle src ⟨T, [], []⟩).1.ops) = true := by
        obtain ⟨d2, hd2, _⟩ := cleanupPass_ops_append src (forwardPass oracle src ⟨T, [], []⟩).1
        rw [hd2, cleanOps_append, Bool.and_eq_true] at hcleanC
        exact hcleanC.1
      obtain ⟨hfile0, hdir0⟩ := forwardPass_estab oracle src T hWF hclean1
      have hfile2 : ∀ r fmt fc, statR src r = .found (.file fmt fc) →
          oracle.srcStatFails r = false ∧
          syncedF (SyncDirs (NewFileSync src T true) oracle).tgt r fmt fc := by
        intro r fmt fc hr
        have h4 := hfile0 r fmt fc hr
        refine ⟨h4.1, ?_⟩
        rw [htgt1]
        exact cleanupPass_keeps_syncedF src (forwardPass oracle src ⟨T, [], []⟩).1 r fmt fc
          (statR_anc_not_missing src r (.file fmt fc) hr) h4.2
      have hdir2 : ∀ r d2 d3 d4, statR src r = .found (.dir d2 d3 d4) →
          notMissing (SyncDirs (NewFileSync src T true) oracle).tgt r := by
        intro r d2 d3 d4 hr
        have h4 := hdir0 r d2 d3 d4 hr
        rw [htgt1]
        exact cleanupPass_keeps_notMissing src (forwardPass oracle src ⟨T, [], []⟩).1 r
          (statR_anc_not_missing src r (.dir d2 d3 d4) hr) h4
      obtain ⟨hnp1, hnp2⟩ := forwardPass_noop oracle src
        (SyncDirs (NewFileSync src T true) oracle).tgt hWF hfile2 hdir2
      have hdead : ∀ a e, statR (SyncDirs (NewFileSync src T true) oracle).tgt a = .found e →
          statR src a ≠ .notExist := by
        intro a e hfa
        rw [htgt1] at hfa
        exact cleanupPass_src_dead src (forwardPass oracle src ⟨T, [], []⟩).1 hcleanC a e hfa
      have hdead2 : ∀ a e, statR (forwardPass oracle src
          ⟨(SyncDirs (NewFileSync src T true) oracle).tgt, [], []⟩).1.tgt a = .found e →
          statR src a ≠ .notExist := by
        intro a e hfa
        rw [hnp1] at hfa
        exact hdead a e hfa
      have hcl2 := cleanupPass_tgt_noop src (forwardPass oracle src
        ⟨(SyncDirs (NewFileSync src T true) oracle).tgt, [], []⟩).1 hdead2
      refine ⟨?_, ?_, herr⟩
      · rw [SyncDirs_true_eq src ((SyncDirs (NewFileSync src T true) oracle).tgt) oracle]
        show (cleanupPass src (forwardPass oracle src
          ⟨(SyncDirs (NewFileSync src T true) oracle).tgt, [], []⟩).1).1.tgt =
          (SyncDirs (NewFileSync src T true) oracle).tgt
        rw [hcl2]
        exact hnp1
      · rw [SyncDirs_true_eq src ((SyncDirs (NewFileSync src T true) oracle).tgt) oracle]
        show noCopies ((cleanupPass src (forwardPass oracle src
          ⟨(SyncDirs (NewFileSync src T true) oracle).tgt, [], []⟩).1).1.ops) = true
        obtain ⟨d2, hd2, hall⟩ := cleanupPass_ops_append src (forwardPass oracle src
          ⟨(SyncDirs (NewFileSync src T true) oracle).tgt, [], []⟩).1
        rw [hd2, hnp2, List.nil_append]
        exact noCopies_of_removeEvents d2 hall

/-- C3 witness: a clean first run (new file copied into an absent target,
deletion enabled), then a second run that changes nothing and copies
nothing. -/
theorem c3_idempotent_witness :
    cleanOps ((SyncDirs (NewFileSync (some (.dir 0 0 [("a", .file 5 [7])])) none true)
      noFailOracle).ops) = true ∧
    ((SyncDirs (NewFileSync (some (.dir 0 0 [("a", .file 5 [7])]))
        (SyncDirs (NewFileSync (some (.dir 0 0 [("a", .file 5 [7])])) none true)
          noFailOracle).tgt true) noFailOracle).tgt =
      (SyncDirs (NewFileSync (some (.dir 0 0 [("a", .file 5 [7])])) none true)
        noFailOracle).tgt ∧
    noCopies ((SyncDirs (NewFileSync (some (.dir 0 0 [("a", .file 5 [7])]))
        (SyncDirs (NewFileSync (some (.dir 0 0 [("a", .file 5 [7])])) none true)
          noFailOracle).tgt true) noFailOracle).ops) = true ∧
    (SyncDirs (NewFileSync (some (.dir 0 0 [("a", .file 5 [7])]))
        (SyncDirs (NewFileSync (some (.dir 0 0 [("a", .file 5 [7])])) none true)
          noFailOracle).tgt true) noFailOracle).err = none) :=
  ⟨rfl, c3_idempotent (some (.dir 0 0 [("a", .file 5 [7])])) none true noFailOracle
    (by decide) rfl⟩

/-! ### Claim C4 -/

/-- C4 counterexample: a first sync copies a (content [2], size 1,
mtime 5).  The source content then changes to [1] with the same size and
modification time ("content changed since the last sync").  The second
forward pass does not recopy it: no copy is attempted and the target
keeps the old content, refuting "for every source file whose content ...
changed since the last sync, the forward pass recopies it". -/
theorem c4_counterexample :
    (SyncDirs (NewFileSync (some (.dir 10 0 [("a", .file 5 [1])]))
        (SyncDirs (NewFileSync (some (.dir 10 0 [("a", .file 5 [2])]))
          (some (.dir 0 0 [])) false) noFailOracle).tgt false) noFailOracle).tgt
      = (SyncDirs (NewFileSync (some (.dir 10 0 [("a", .file 5 [2])]))
          (some (.dir 0 0 [])) false) noFailOracle).tgt ∧
    (SyncDirs (NewFileSync (some (.dir 10 0 [("a", .file 5 [2])]))
        (some (.dir 0 0 [])) false) noFailOracle).tgt
      = some (.dir 0 0 [("a", .file 5 [2])]) ∧
    noCopies (SyncDirs (NewFileSync (some (.dir 10 0 [("a", .file 5 [1])]))
        (some (.dir 0 0 [("a", .file 5 [2])])) false) noFailOracle).ops = true ∧
    statR (some (.dir 10 0 [("a", .file 5 [1])])) ["a"] = .found (.file 5 [1]) :=
  ⟨rfl, rfl, rfl, rfl⟩

/-- C4 (amended): a source file whose size or modification time differs
from the target's counterpart is recopied by the forward pass (the copy
is attempted; content-only changes preserving both are not detected), and
when the copy succeeds the target file carries the source's content and
its modification timestamp as read fresh from source metadata at copy
time. -/
theorem c4_update_propagation (oracle : Oracle) (src : Option FsTree) (p : Path) (mt : Int)
    (content : List Nat) (st : St) (t : FsTree)
    (hfail : oracle.srcStatFails p = false)
    (hsrc : statR src p = .found (.file mt content))
    (htgt : statR st.tgt p = .found t)
    (hdiff : sameFile ⟨false, content.length, mt⟩ (infoOf t) = false) :
    ((syncFile oracle src p mt content st).1.ops = st.ops ++ [.copyOk p] ∨
      (syncFile oracle src p mt content st).1.ops = st.ops ++ [.copyFail p]) ∧
    ((syncFile oracle src p mt content st).1.ops = st.ops ++ [.copyOk p] →
      statR (syncFile oracle src p mt content st).1.tgt p = .found (.file mt content)) := by
  have hs : syncFile oracle src p mt content st = (doCopy oracle src p st, none) := by
    unfold syncFile
    rw [hfail]
    simp only [Bool.false_eq_true, if_false]
    rw [htgt]
    simp [hdiff]
  rw [hs]
  rcases hcf : copyFile oracle src st.tgt p p with _ | t'
  · have hd : doCopy oracle src p st =
        { st with log := st.log ++ [.copyFailed p], ops := st.ops ++ [.copyFail p] } := by
      unfold doCopy
      rw [hcf]
    rw [hd]
    refine ⟨Or.inr rfl, ?_⟩
    intro hyp
    simp only at hyp
    have h2 := List.append_cancel_left hyp
    cases h2
  · have hd : doCopy oracle src p st =
        { st with tgt := t', log := st.log ++ [.copied p], ops := st.ops ++ [.copyOk p] } := by
      unfold doCopy
      rw [hcf]
    rw [hd]
    refine ⟨Or.inl rfl, ?_⟩
    intro _
    exact copyFile_post oracle src st.tgt p mt content t' hfail hsrc hcf

/-- Witness for C4 at a concrete input: a/old (size 1, mtime 5) differs
from the source (size 2, mtime 6); the copy succeeds and the target ends
with the source content and mtime. -/
theorem c4_update_propagation_witness :
    statR (syncFile noFailOracle (some (.dir 0 0 [("a", .file 6 [3, 4])])) ["a"] 6 [3, 4]
        ⟨some (.dir 0 0 [("a", .file 5 [9])]), [], []⟩).1.tgt ["a"] = .found (.file 6 [3, 4]) :=
  (c4_update_propagation noFailOracle (some (.dir 0 0 [("a", .file 6 [3, 4])])) ["a"] 6 [3, 4]
    ⟨some (.dir 0 0 [("a", .file 5 [9])]), [], []⟩ (.file 5 [9]) rfl rfl rfl rfl).2 rfl

end Filesync
